import Mathlib

/-!
Verification of the patch validation and application engine of the
glitsy preset editor (`src/server/validate.ts`).

Documents are JSON-like trees (objects, arrays, strings, numbers,
booleans, null).  The engine consists of a structural validator (a zod
schema over candidate operations), a semantic validator
(`validatePatchSemantics`) checking existence preconditions and type
compatibility against a document snapshot, and an applicator
(`applyPatchWithValidation`) that deep-clones the document, re-validates,
and applies the patch to the working copy.

Pointer resolution, deep cloning and the RFC 6902 operation semantics are
delegated by the source to the external `fast-json-patch` library, whose
code is not part of this repository; those parts are modelled from the
specification (sections 4.1 and 4.4), as marked on each definition.
-/

namespace Glitsy

/-- A JSON document tree: objects keep their fields in insertion order,
as JavaScript objects do.  Numbers are modelled as integers; only their
coarse kind and equality matter to the engine. -/
inductive Json where
  | null : Json
  | bool (b : Bool) : Json
  | num (n : Int) : Json
  | str (s : String) : Json
  | arr (elems : List Json) : Json
  | obj (fields : List (String × Json)) : Json
deriving Repr

mutual

/-- Structural equality of documents, recursing through the nested lists. -/
def Json.beq : Json → Json → Bool
  | .null, .null => true
  | .bool a, .bool b => a == b
  | .num a, .num b => a == b
  | .str a, .str b => a == b
  | .arr a, .arr b => Json.beqList a b
  | .obj a, .obj b => Json.beqFields a b
  | _, _ => false

def Json.beqList : List Json → List Json → Bool
  | [], [] => true
  | x :: xs, y :: ys => Json.beq x y && Json.beqList xs ys
  | _, _ => false

def Json.beqFields : List (String × Json) → List (String × Json) → Bool
  | [], [] => true
  | (ka, va) :: restA, (kb, vb) :: restB =>
    ka == kb && Json.beq va vb && Json.beqFields restA restB
  | _, _ => false

end

mutual

theorem Json.beq_iff : ∀ a b : Json, Json.beq a b = true ↔ a = b
  | .null, b => by cases b <;> simp [Json.beq]
  | .bool a, b => by cases b <;> simp [Json.beq]
  | .num a, b => by cases b <;> simp [Json.beq]
  | .str a, b => by cases b <;> simp [Json.beq]
  | .arr a, b => by
      cases b
      case arr ys => simpa [Json.beq] using Json.beqList_iff a ys
      all_goals simp [Json.beq]
  | .obj a, b => by
      cases b
      case obj ys => simpa [Json.beq] using Json.beqFields_iff a ys
      all_goals simp [Json.beq]

theorem Json.beqList_iff : ∀ a b : List Json, Json.beqList a b = true ↔ a = b
  | [], b => by cases b <;> simp [Json.beqList]
  | x :: xs, b => by
      cases b with
      | nil => simp [Json.beqList]
      | cons y ys =>
        simp only [Json.beqList, Bool.and_eq_true, List.cons.injEq]
        rw [Json.beq_iff x y, Json.beqList_iff xs ys]

theorem Json.beqFields_iff : ∀ a b : List (String × Json), Json.beqFields a b = true ↔ a = b
  | [], b => by cases b <;> simp [Json.beqFields]
  | (k₁, v₁) :: xs, b => by
      cases b with
      | nil => simp [Json.beqFields]
      | cons p ys =>
        obtain ⟨k₂, v₂⟩ := p
        simp only [Json.beqFields, Bool.and_eq_true, List.cons.injEq, Prod.mk.injEq, beq_iff_eq]
        rw [Json.beq_iff v₁ v₂, Json.beqFields_iff xs ys]

end

instance : DecidableEq Json := fun a b =>
  decidable_of_iff (Json.beq a b = true) (Json.beq_iff a b)

instance {ε α : Type} [DecidableEq ε] [DecidableEq α] : DecidableEq (Except ε α) :=
  fun a b =>
    match a, b with
    | .ok x, .ok y => decidable_of_iff (x = y) (by simp)
    | .error e, .error e' => decidable_of_iff (e = e') (by simp)
    | .ok _, .error _ => isFalse (by simp)
    | .error _, .ok _ => isFalse (by simp)

/-- `getType` of `src/server/validate.ts` (lines 50-54): the coarse kind
of a value, as the string JavaScript `typeof` produces after the special
cases for `null` and arrays. -/
def getType : Json → String
  | .null => "null"
  | .bool _ => "boolean"
  | .num _ => "number"
  | .str _ => "string"
  | .arr _ => "array"
  | .obj _ => "object"

/-- First field of the given name, as JavaScript property lookup on an
object built in insertion order. -/
def lookupField : List (String × Json) → String → Option Json
  | [], _ => none
  | (k, v) :: rest, key => if k = key then some v else lookupField rest key

/-- JavaScript `obj[key] = v`: overwrite the existing field in place, or
append a new field at the end. -/
def setField : List (String × Json) → String → Json → List (String × Json)
  | [], key, v => [(key, v)]
  | (k, w) :: rest, key, v =>
    if k = key then (key, v) :: rest else (k, w) :: setField rest key v

/-- JavaScript `delete obj[key]`: drop the field of the given name. -/
def eraseField : List (String × Json) → String → List (String × Json)
  | [], _ => []
  | (k, w) :: rest, key =>
    if k = key then rest else (k, w) :: eraseField rest key

mutual

/-- Modelled from the spec: `deepClone` of the document I/O layer
(section 4.4 step 1): a deep, fully independent copy of the tree,
reproducing every node.  The library function is `fast-json-patch`'s
`deepClone`, whose code is not part of this repository. -/
def deepClone : Json → Json
  | .null => .null
  | .bool b => .bool b
  | .num n => .num n
  | .str s => .str s
  | .arr xs => .arr (deepCloneList xs)
  | .obj fs => .obj (deepCloneFields fs)

def deepCloneList : List Json → List Json
  | [] => []
  | x :: xs => deepClone x :: deepCloneList xs

def deepCloneFields : List (String × Json) → List (String × Json)
  | [] => []
  | (k, v) :: rest => (k, deepClone v) :: deepCloneFields rest

end

mutual

theorem deepClone_eq : ∀ d : Json, deepClone d = d
  | .null => rfl
  | .bool _ => rfl
  | .num _ => rfl
  | .str _ => rfl
  | .arr xs => by rw [deepClone, deepCloneList_eq xs]
  | .obj fs => by rw [deepClone, deepCloneFields_eq fs]

theorem deepCloneList_eq : ∀ xs : List Json, deepCloneList xs = xs
  | [] => rfl
  | x :: xs => by rw [deepCloneList, deepClone_eq x, deepCloneList_eq xs]

theorem deepCloneFields_eq : ∀ fs : List (String × Json), deepCloneFields fs = fs
  | [] => rfl
  | (k, v) :: rest => by rw [deepCloneFields, deepClone_eq v, deepCloneFields_eq rest]

end

/-! ## Pointer strings

The source keeps JSON Pointers as strings, splitting on `/` where it
needs segments (`pointerParent`, the library's pointer walk).  Strings
are processed here through their character lists, with a split/join pair
mirroring JavaScript's `String.prototype.split('/')` and
`Array.prototype.join('/')`. -/

/-- JavaScript `s.split('/')` on the character level: always at least one
piece, empty pieces between consecutive separators. -/
def splitSlash : List Char → List (List Char)
  | [] => [[]]
  | c :: rest =>
    if c = '/' then [] :: splitSlash rest
    else
      match splitSlash rest with
      | [] => [[c]]
      | s :: ss => (c :: s) :: ss

/-- JavaScript `pieces.join('/')`. -/
def joinSlash : List (List Char) → List Char
  | [] => []
  | [s] => s
  | s :: s' :: rest => s ++ '/' :: joinSlash (s' :: rest)

theorem splitSlash_ne_nil : ∀ cs : List Char, splitSlash cs ≠ []
  | [] => by simp [splitSlash]
  | c :: rest => by
    simp only [splitSlash]
    split
    · simp
    · split <;> simp

/-- The `~`-escape discipline of the pointer grammar on raw characters:
every `~` is immediately followed by `0` or `1`. -/
def tildeOk : List Char → Bool
  | [] => true
  | c :: rest =>
    if c = '~' then
      match rest with
      | c2 :: rest2 => (c2 = '0' || c2 = '1') && tildeOk rest2
      | [] => false
    else tildeOk rest

/-- `jsonPointerPattern` of `src/server/validate.ts` (line 4): the regex
`^\/(?:[^~\/]|~0|~1)*(?:\/(?:[^~\/]|~0|~1)*)*$` as a character matcher.
A string matches exactly when it starts with `/` and every `~` in it is
immediately followed by `0` or `1`: after the mandatory leading slash the
regex consumes each remaining character either as a new `/`-separated
segment or as one segment atom `[^~\/]`, `~0` or `~1`. -/
def jsonPointerPattern (s : String) : Bool :=
  match s.data with
  | '/' :: rest => tildeOk rest
  | _ => false

/-- Unescape one pointer segment: `~1` denotes `/` and `~0` denotes `~`,
as the JSON Pointer convention the spec's data model names (and the
library's `unescapePathComponent`) prescribe. -/
def unescapeSeg : List Char → List Char
  | [] => []
  | [c] => [c]
  | c :: c2 :: rest =>
    if c = '~' then
      if c2 = '1' then '/' :: unescapeSeg rest
      else if c2 = '0' then '~' :: unescapeSeg rest
      else c :: unescapeSeg (c2 :: rest)
    else c :: unescapeSeg (c2 :: rest)

/-- Parse a pointer string into its unescaped segments: the pieces after
the leading one of the `/`-split.  The empty string is the root pointer
with no segments.  This is the segment walk both the spec's Pointer
Resolver (section 4.1) and the library's pointer traversal perform. -/
def parsePointer (s : String) : List String :=
  ((splitSlash s.data).drop 1).map (fun cs => String.mk (unescapeSeg cs))

/-- `pointerParent` of `src/server/validate.ts` (lines 39-48): drop the
last `/`-segment; `null` for the empty pointer, `'/'` when at most one
piece remains or the rejoined prefix is empty. -/
def pointerParent (path : String) : Option String :=
  if path = "" then none
  else
    let segments := (splitSlash path.data).dropLast
    if segments.length ≤ 1 then some "/"
    else
      let joined := joinSlash segments
      if joined = [] then some "/" else some (String.mk joined)

/-! ## Pointer Resolver

Modelled from the spec (section 4.1): the source delegates value lookup
to `fast-json-patch`'s `getValueByPointer`, whose code is not part of
this repository.  The spec's contract: traverse one segment at a time;
a map step needs an existing key, a sequence step needs a non-negative
integer index strictly below the length (the append marker `-` resolves
only where append semantics are permitted, hence never for an existence
query); any mismatch is `NotFound`. -/

/-- A sequence index: a non-negative base-10 integer string. -/
def parseIndex (s : String) : Option Nat := s.toNat?

/-- Modelled from the spec: `resolve(document, pointer)` over parsed
segments (section 4.1). -/
def resolveSegs : Json → List String → Option Json
  | d, [] => some d
  | .obj fields, k :: rest =>
    match lookupField fields k with
    | some child => resolveSegs child rest
    | none => none
  | .arr xs, k :: rest =>
    match parseIndex k with
    | some i =>
      match xs[i]? with
      | some child => resolveSegs child rest
      | none => none
    | none => none
  | _, _ :: _ => none

/-- Modelled from the spec: `resolve` on a pointer string. -/
def resolve (document : Json) (pointer : String) : Option Json :=
  resolveSegs document (parsePointer pointer)

/-- `pathExists` of `src/server/validate.ts` (lines 56-63): `exists` is
resolution success (the source wraps the library lookup in try/catch). -/
def pathExists (document : Json) (pointer : String) : Bool :=
  (resolve document pointer).isSome

/-- `parentExists` of `src/server/validate.ts` (lines 65-75). -/
def parentExists (document : Json) (pointer : String) : Bool :=
  if pointer = "/" ∨ pointer = "" then true
  else
    match pointerParent pointer with
    | none => true
    | some parent =>
      if parent = "/" ∧ (splitSlash pointer.data).length = 2 then true
      else pathExists document parent

/-! ## Operations and the structural validator

`operationSchema` of `src/server/validate.ts` (lines 6-31): a zod object
schema over a candidate operation followed by a `superRefine` pass, and
`patchSchema` an array of them.  A candidate operation is a record whose
`op` is an arbitrary string, whose `path`/`from` may be absent, and whose
`value` may be absent (explicit `null` is the present value `Json.null`,
distinct from absence). -/

/-- The six recognised operation kinds (`z.enum` at line 8). -/
inductive OpKind where
  | add | remove | replace | copy | move | test
deriving DecidableEq, Repr

/-- The enum string of a kind. -/
def kindStr : OpKind → String
  | .add => "add"
  | .remove => "remove"
  | .replace => "replace"
  | .copy => "copy"
  | .move => "move"
  | .test => "test"

/-- Parse an `op` string against the enum. -/
def parseKind (s : String) : Option OpKind :=
  if s = "add" then some .add
  else if s = "remove" then some .remove
  else if s = "replace" then some .replace
  else if s = "copy" then some .copy
  else if s = "move" then some .move
  else if s = "test" then some .test
  else none

/-- A candidate operation as the structural validator receives it. -/
structure RawOp where
  op : String
  path : Option String
  fromPtr : Option String
  value : Option Json
deriving DecidableEq, Repr

/-- A structurally validated operation (`z.infer<typeof patchSchema>`
element). -/
structure Op where
  kind : OpKind
  path : String
  fromPtr : Option String
  value : Option Json
deriving DecidableEq, Repr

/-- The structural issues zod can record for one candidate operation. -/
inductive StructIssue where
  | unknownOp (op : String)
  | missingPath
  | malformedPointer (path : String)
  | missingValue (op : String)
  | missingFrom (op : String)
  | malformedFrom (source : String)
deriving DecidableEq, Repr

/-- JavaScript truthiness of the optional `from` string: present and
non-empty (`!op.from` at line 20, `op.from &&` at lines 25 and 89). -/
def fromTruthy : Option String → Bool
  | some f => f ≠ ""
  | none => false

/-- The base object schema (lines 7-12): `op` must be one of the six
kinds, `path` must be present and match `jsonPointerPattern`. -/
def baseIssues (o : RawOp) : List StructIssue :=
  (if parseKind o.op = none then [.unknownOp o.op] else []) ++
    (match o.path with
     | none => [.missingPath]
     | some p => if jsonPointerPattern p then [] else [.malformedPointer p])

/-- The `superRefine` pass (lines 13-29): `add`/`replace`/`test` must
carry a `value`; `copy`/`move` must carry a truthy `from`, and a present
truthy `from` must match the pointer grammar. -/
def refineIssues (o : RawOp) : List StructIssue :=
  (if (o.op = "add" ∨ o.op = "replace" ∨ o.op = "test") ∧ o.value = none
   then [.missingValue o.op] else []) ++
  (if (o.op = "copy" ∨ o.op = "move") ∧ fromTruthy o.fromPtr = false
   then [.missingFrom o.op] else []) ++
  (if (o.op = "move" ∨ o.op = "copy") ∧ fromTruthy o.fromPtr
      ∧ jsonPointerPattern (o.fromPtr.getD "") = false
   then [.malformedFrom (o.fromPtr.getD "")] else [])

/-- All structural issues of one candidate operation: zod runs
`superRefine` only when the base object schema reported none. -/
def checkOpStructure (o : RawOp) : List StructIssue :=
  match baseIssues o with
  | [] => refineIssues o
  | issues => issues

/-- Convert an issue-free candidate to its validated form. -/
def toOp (o : RawOp) : Option Op :=
  match parseKind o.op, o.path with
  | some k, some p => some ⟨k, p, o.fromPtr, o.value⟩
  | _, _ => none

/-- `validatePatchStructure` of `src/server/validate.ts` (lines 35-37):
`patchSchema.parse` collects the issues of every candidate operation and
throws them all, or returns the validated patch.  No document is read. -/
def validatePatchStructure (patch : List RawOp) : Except (List StructIssue) (List Op) :=
  match (patch.map checkOpStructure).flatten with
  | [] => .ok (patch.filterMap toOp)
  | issues => .error issues

/-- Kinds that must carry a `value`. -/
def isValueKind : OpKind → Bool
  | .add | .replace | .test => true
  | _ => false

/-- Kinds that must carry a `from`. -/
def isFromKind : OpKind → Bool
  | .move | .copy => true
  | _ => false

/-- What passing the structural validator guarantees about one
operation. -/
def structOk (op : Op) : Bool :=
  jsonPointerPattern op.path &&
  (!isValueKind op.kind || op.value.isSome) &&
  (!isFromKind op.kind ||
    (fromTruthy op.fromPtr && jsonPointerPattern (op.fromPtr.getD "")))

/-! ## The semantic validator -/

/-- The errors of the semantic validator and the applicator.  The
semantic validator's own errors carry the data of the thrown message
(path, operation, and for a type mismatch the expected and received
kinds); the remaining constructors are the applicator's failures
(modelled from the spec, section 4.4 step 3). -/
inductive EngineError where
  | pathNotFound (path : String) (kind : OpKind)
  | parentMissing (path : String)
  | sourceNotFound (source : String) (kind : OpKind)
  | typeMismatch (path expected received : String)
  | resolveFailed (path : String)
  | missingValue
  | missingFrom
  | pathUnresolvable (path : String)
  | indexOutOfBounds (path : String)
  | badArrayIndex (path : String)
  | testFailed (path : String)
deriving DecidableEq, Repr

/-- The loop body of `validatePatchSemantics` (lines 78-107): the four
sequential checks on one operation against the snapshot, each throwing
on failure.  The last arm re-reads the value at `path`; resolution there
cannot fail once the existence check has passed, but the source's
try/catch re-throw (lines 103-105) is kept as `resolveFailed`. -/
def checkOpSemantics (document : Json) (op : Op) : Except EngineError Unit :=
  if (op.kind = .replace ∨ op.kind = .remove ∨ op.kind = .test)
      ∧ pathExists document op.path = false then
    .error (.pathNotFound op.path op.kind)
  else if op.kind = .add ∧ parentExists document op.path = false then
    .error (.parentMissing op.path)
  else if (op.kind = .move ∨ op.kind = .copy) ∧ fromTruthy op.fromPtr
      ∧ pathExists document (op.fromPtr.getD "") = false then
    .error (.sourceNotFound (op.fromPtr.getD "") op.kind)
  else if op.kind = .replace ∧ op.value.isSome then
    match resolve document op.path, op.value with
    | some current, some v =>
      if current ≠ .null ∧ v ≠ .null ∧ getType current ≠ getType v then
        .error (.typeMismatch op.path (getType current) (getType v))
      else .ok ()
    | none, _ => .error (.resolveFailed op.path)
    | _, none => .ok ()
  else .ok ()

/-- `validatePatchSemantics` of `src/server/validate.ts` (lines 77-108):
check each operation in order against the fixed snapshot, stopping at
the first failure. -/
def validatePatchSemantics (document : Json) (patch : List Op) : Except EngineError Unit :=
  match patch with
  | [] => .ok ()
  | op :: rest =>
    match checkOpSemantics document op with
    | .ok _ => validatePatchSemantics document rest
    | .error e => .error e

/-! ## Deep equality

Deep equality in the JSON sense: structural on scalars and sequences,
order-insensitive on object fields (spec section 3: insertion order is
irrelevant for correctness). -/

/-- Every key of the second field list is present in the first. -/
def keysCovered (a : List (String × Json)) : List (String × Json) → Bool
  | [] => true
  | (k, _) :: rest => (lookupField a k).isSome && keysCovered a rest

mutual

/-- JSON deep equality: order-insensitive on object fields. -/
def deepEq : Json → Json → Bool
  | .null, .null => true
  | .bool a, .bool b => a == b
  | .num a, .num b => a == b
  | .str a, .str b => a == b
  | .arr a, .arr b => deepEqList a b
  | .obj a, .obj b => deepEqFields a b && keysCovered a b
  | _, _ => false

def deepEqList : List Json → List Json → Bool
  | [], [] => true
  | x :: xs, y :: ys => deepEq x y && deepEqList xs ys
  | _, _ => false

/-- Every field of the first list deep-equals the second list's value of
the same name. -/
def deepEqFields : List (String × Json) → List (String × Json) → Bool
  | [], _ => true
  | (k, v) :: rest, b =>
    (match lookupField b k with
     | some w => deepEq v w
     | none => false) && deepEqFields rest b

end

/-! ## The applicator

Modelled from the spec (section 4.4 step 3): the source delegates the
operation semantics to `fast-json-patch`'s `applyPatch` (with operation
validation enabled), whose code is not part of this repository.  Each
operation is applied in order against the working document,
short-circuiting on the first failure. -/

/-- Descend to the value at `segs` and rewrite it with `f`, rebuilding
the spine; a missing key, bad index or scalar in the middle fails. -/
def updAt (d : Json) (segs : List String) (f : Json → Except EngineError Json) :
    Except EngineError Json :=
  match segs, d with
  | [], _ => f d
  | k :: rest, .obj fields =>
    match lookupField fields k with
    | some child =>
      match updAt child rest f with
      | .ok c => .ok (.obj (setField fields k c))
      | .error e => .error e
    | none => .error (.pathUnresolvable k)
  | k :: rest, .arr xs =>
    match parseIndex k with
    | some i =>
      match xs[i]? with
      | some child =>
        match updAt child rest f with
        | .ok c => .ok (.arr (xs.set i c))
        | .error e => .error e
      | none => .error (.pathUnresolvable k)
    | none => .error (.badArrayIndex k)
  | k :: _, _ => .error (.pathUnresolvable k)

/-- Modelled from the spec: `add` grafts the value into the parent
container — insert or overwrite a map field, splice into a sequence at
an index up to the length, or append at the `-` marker. -/
def insertIntoParent (k : String) (v : Json) : Json → Except EngineError Json
  | .obj fields => .ok (.obj (setField fields k v))
  | .arr xs =>
    if k = "-" then .ok (.arr (xs ++ [v]))
    else
      match parseIndex k with
      | some i =>
        if i ≤ xs.length then .ok (.arr (xs.take i ++ v :: xs.drop i))
        else .error (.indexOutOfBounds k)
      | none => .error (.badArrayIndex k)
  | _ => .error (.pathUnresolvable k)

/-- Modelled from the spec: `remove` deletes the named field or splices
out the indexed element of the parent container. -/
def removeFromParent (k : String) : Json → Except EngineError Json
  | .obj fields =>
    if (lookupField fields k).isSome then .ok (.obj (eraseField fields k))
    else .error (.pathUnresolvable k)
  | .arr xs =>
    match parseIndex k with
    | some i =>
      if i < xs.length then .ok (.arr (xs.take i ++ xs.drop (i + 1)))
      else .error (.pathUnresolvable k)
    | none => .error (.badArrayIndex k)
  | _ => .error (.pathUnresolvable k)

/-- Modelled from the spec: `add` at a pointer; at the root it replaces
the whole document. -/
def addAt (d : Json) (segs : List String) (v : Json) : Except EngineError Json :=
  match segs.getLast? with
  | none => .ok v
  | some k => updAt d segs.dropLast (insertIntoParent k v)

/-- Modelled from the spec: `remove` at a pointer; the root names the
whole document, which a tree edit cannot delete. -/
def removeAt (d : Json) (segs : List String) : Except EngineError Json :=
  match segs.getLast? with
  | none => .error (.pathUnresolvable "")
  | some k => updAt d segs.dropLast (removeFromParent k)

/-- Modelled from the spec: `replace` overwrites the existing value at
the pointer. -/
def replaceAt (d : Json) (segs : List String) (v : Json) : Except EngineError Json :=
  updAt d segs (fun _ => .ok v)

/-- Modelled from the spec: `test` asserts deep equality between the
value at the pointer and the operation's value. -/
def testAt (d : Json) (segs : List String) (pathStr : String) (v : Json) :
    Except EngineError Json :=
  match resolveSegs d segs with
  | some current => if deepEq current v then .ok d else .error (.testFailed pathStr)
  | none => .error (.pathUnresolvable pathStr)

/-- Modelled from the spec: one operation against the working document —
`move` is remove at `from` followed by add at `path` using the removed
value, `copy` is add at `path` using the value at `from`. -/
def applyOp (d : Json) (op : Op) : Except EngineError Json :=
  match op.kind with
  | .add =>
    match op.value with
    | some v => addAt d (parsePointer op.path) v
    | none => .error .missingValue
  | .replace =>
    match op.value with
    | some v => replaceAt d (parsePointer op.path) v
    | none => .error .missingValue
  | .test =>
    match op.value with
    | some v => testAt d (parsePointer op.path) op.path v
    | none => .error .missingValue
  | .remove => removeAt d (parsePointer op.path)
  | .move =>
    match op.fromPtr with
    | some f =>
      match resolveSegs d (parsePointer f) with
      | some v =>
        match removeAt d (parsePointer f) with
        | .ok d' => addAt d' (parsePointer op.path) v
        | .error e => .error e
      | none => .error (.pathUnresolvable f)
    | none => .error .missingFrom
  | .copy =>
    match op.fromPtr with
    | some f =>
      match resolveSegs d (parsePointer f) with
      | some v => addAt d (parsePointer op.path) v
      | none => .error (.pathUnresolvable f)
    | none => .error .missingFrom

/-- Modelled from the spec: apply the operations in order,
short-circuiting on the first failure. -/
def applyOps (d : Json) (ops : List Op) : Except EngineError Json :=
  match ops with
  | [] => .ok d
  | op :: rest =>
    match applyOp d op with
    | .ok d' => applyOps d' rest
    | .error e => .error e

/-- `applyPatchWithValidation` of `src/server/validate.ts` (lines
110-115): deep-clone the document, re-run semantic validation against
the working copy, then apply the patch to the working copy. -/
def applyPatchWithValidation (document : Json) (patch : List Op) :
    Except EngineError Json :=
  let workingDocument := deepClone document
  match validatePatchSemantics workingDocument patch with
  | .ok _ => applyOps workingDocument patch
  | .error e => .error e

/-! ## Spec-side definitions

Definitions following the specification's words, named `spec...`, to be
compared against the source-translated functions above. -/

/-- The pointer grammar in the spec's segment-wise words (section 4.2
item 2, without the empty string): a `/`-prefixed sequence of segments
in which every `~` is followed only by `0` or `1`. -/
def specPointerOk (s : String) : Bool :=
  match s.data with
  | '/' :: _ => ((splitSlash s.data).drop 1).all (fun seg => tildeOk seg)
  | _ => false

/-- Claim C5's existence precondition for one operation, in the claim's
words: `replace`/`remove`/`test` need the path to exist, `add` needs the
path's parent to exist (the root pointer and any single-segment pointer
always count as having an existing parent), `move`/`copy` need the
`from` pointer to exist. -/
def specExistErr (document : Json) (op : Op) : Option EngineError :=
  match op.kind with
  | .replace | .remove | .test =>
    if (resolve document op.path).isSome then none
    else some (.pathNotFound op.path op.kind)
  | .add =>
    if (parsePointer op.path).length ≤ 1 then none
    else if (resolveSegs document (parsePointer op.path).dropLast).isSome then none
    else some (.parentMissing op.path)
  | .move | .copy =>
    match op.fromPtr with
    | some f =>
      if (resolve document f).isSome then none
      else some (.sourceNotFound f op.kind)
    | none => none

/-- The `replace` type-compatibility check in the spec's words (section
4.3): when the current and proposed values are both non-null, their
coarse kinds must match. -/
def specTypeErr (document : Json) (op : Op) : Option EngineError :=
  if op.kind = .replace then
    match resolve document op.path, op.value with
    | some current, some v =>
      if current ≠ .null ∧ v ≠ .null ∧ getType current ≠ getType v then
        some (.typeMismatch op.path (getType current) (getType v))
      else none
    | _, _ => none
  else none

/-- The first semantic failure of one operation per the claim's ordered
checks: existence preconditions, then the type-compatibility check. -/
def specOpErr (document : Json) (op : Op) : Option EngineError :=
  match specExistErr document op with
  | some e => some e
  | none => specTypeErr document op

/-- The first semantic failure of a patch, checking operations in
order. -/
def specValidate (document : Json) (patch : List Op) : Option EngineError :=
  match patch with
  | [] => none
  | op :: rest =>
    match specOpErr document op with
    | some e => some e
    | none => specValidate document rest

/-! ## Well-formed documents

A well-formed document is one whose objects never repeat a key, as
decoding a JSON text guarantees. -/

/-- No key occurs twice in a field list. -/
def keysNoDup : List (String × Json) → Bool
  | [] => true
  | (k, _) :: rest => !(lookupField rest k).isSome && keysNoDup rest

mutual

/-- A well-formed document: every object has pairwise distinct keys, as
a tree decoded from JSON text does. -/
def wfDoc : Json → Bool
  | .null => true
  | .bool _ => true
  | .num _ => true
  | .str _ => true
  | .arr xs => wfDocList xs
  | .obj fs => keysNoDup fs && wfDocFields fs

def wfDocList : List Json → Bool
  | [] => true
  | x :: xs => wfDoc x && wfDocList xs

def wfDocFields : List (String × Json) → Bool
  | [] => true
  | (_, v) :: rest => wfDoc v && wfDocFields rest

end

/-- The pointer's segments traverse only objects, each step finding its
key (says nothing about the final value). -/
def objPathOk : Json → List String → Bool
  | _, [] => true
  | .obj fields, k :: rest =>
    match lookupField fields k with
    | some child => objPathOk child rest
    | none => false
  | _, _ :: _ => false

/-- Overwrite the value at an object-spine pointer, leaving the document
unchanged when the spine is broken (used to state what `updAt`
computes on object spines). -/
def setSegs : Json → List String → Json → Json
  | _, [], v => v
  | .obj fields, k :: rest, v =>
    match lookupField fields k with
    | some child => .obj (setField fields k (setSegs child rest v))
    | none => .obj fields
  | d, _ :: _, _ => d

/-- Two applicator outcomes agree up to deep equality: both fail with
the same error, or both succeed with deep-equal well-formed results. -/
def applyRel (r₁ r₂ : Except EngineError Json) : Prop :=
  (∃ e, r₁ = .error e ∧ r₂ = .error e)
  ∨ (∃ v₁ v₂, r₁ = .ok v₁ ∧ r₂ = .ok v₂
      ∧ wfDoc v₁ = true ∧ wfDoc v₂ = true ∧ deepEq v₁ v₂ = true)

/-! ## Mutation model of the applicator

`applyPatchWithValidation` promises never to mutate the caller's
document: it deep-clones, validates the working copy, and applies the
patch in place on the clone (`src/server/validate.ts` lines 110-115).
JavaScript mutation is modelled by an explicit heap of nodes addressed
by numbers: containers hold child addresses, the library's in-place
operations (modelled from the spec, section 4.4) rewrite one parent
node per step, and `deepClone` allocates an entirely fresh copy.  The
claim becomes: running the full call leaves every tree readable from a
pre-existing address unchanged. -/

/-- A heap address. -/
abbrev Addr := Nat

/-- A heap node: scalars inline, containers hold child addresses. -/
inductive HNode where
  | null : HNode
  | bool (b : Bool) : HNode
  | num (n : Int) : HNode
  | str (s : String) : HNode
  | arr (elems : List Addr) : HNode
  | obj (fields : List (String × Addr)) : HNode
deriving Repr, DecidableEq

/-- The mutable object store. -/
abbrev Heap := Addr → Option HNode

/-- The store together with its allocation frontier. -/
structure HState where
  heap : Heap
  next : Addr

/-- Child addresses of a node. -/
def childAddrs : HNode → List Addr
  | .arr es => es
  | .obj fs => fs.map Prod.snd
  | _ => []

/-- In-place write of one node. -/
def writeH (h : Heap) (a : Addr) (n : HNode) : Heap :=
  fun x => if x = a then some n else h x

/-- First field of the given name in an address field list. -/
def lookupFieldA : List (String × Addr) → String → Option Addr
  | [], _ => none
  | (k, a) :: rest, key => if k = key then some a else lookupFieldA rest key

/-- Overwrite the existing field in place, or append. -/
def setFieldA : List (String × Addr) → String → Addr → List (String × Addr)
  | [], key, a => [(key, a)]
  | (k, b) :: rest, key, a =>
    if k = key then (key, a) :: rest else (k, b) :: setFieldA rest key a

/-- Drop the field of the given name. -/
def eraseFieldA : List (String × Addr) → String → List (String × Addr)
  | [], _ => []
  | (k, b) :: rest, key =>
    if k = key then rest else (k, b) :: eraseFieldA rest key

mutual

/-- Allocate a pure value as entirely fresh nodes; returns the root
address of the new tree. -/
def allocTree : Json → HState → Addr × HState
  | .null, st => (st.next, ⟨writeH st.heap st.next .null, st.next + 1⟩)
  | .bool b, st => (st.next, ⟨writeH st.heap st.next (.bool b), st.next + 1⟩)
  | .num n, st => (st.next, ⟨writeH st.heap st.next (.num n), st.next + 1⟩)
  | .str s, st => (st.next, ⟨writeH st.heap st.next (.str s), st.next + 1⟩)
  | .arr xs, st =>
    let (as, st') := allocList xs st
    (st'.next, ⟨writeH st'.heap st'.next (.arr as), st'.next + 1⟩)
  | .obj fs, st =>
    let (ps, st') := allocFields fs st
    (st'.next, ⟨writeH st'.heap st'.next (.obj ps), st'.next + 1⟩)

def allocList : List Json → HState → List Addr × HState
  | [], st => ([], st)
  | x :: xs, st =>
    let (a, st') := allocTree x st
    let (as, st'') := allocList xs st'
    (a :: as, st'')

def allocFields : List (String × Json) → HState → List (String × Addr) × HState
  | [], st => ([], st)
  | (k, v) :: rest, st =>
    let (a, st') := allocTree v st
    let (ps, st'') := allocFields rest st'
    ((k, a) :: ps, st'')

end

mutual

/-- Read the value tree rooted at an address; fuel bounds the depth
since an arbitrary heap may be cyclic. -/
def readTree (h : Heap) : Nat → Addr → Option Json
  | 0, _ => none
  | fuel + 1, a =>
    match h a with
    | some .null => some .null
    | some (.bool b) => some (.bool b)
    | some (.num n) => some (.num n)
    | some (.str s) => some (.str s)
    | some (.arr es) => (readList h fuel es).map Json.arr
    | some (.obj fs) => (readFields h fuel fs).map Json.obj
    | none => none
termination_by fuel _ => (fuel, 0)

def readList (h : Heap) : Nat → List Addr → Option (List Json)
  | _, [] => some []
  | fuel, a :: as =>
    match readTree h fuel a with
    | some v => (readList h fuel as).map (v :: ·)
    | none => none
termination_by fuel as => (fuel, as.length + 1)

def readFields (h : Heap) : Nat → List (String × Addr) → Option (List (String × Json))
  | _, [] => some []
  | fuel, (k, a) :: rest =>
    match readTree h fuel a with
    | some v => (readFields h fuel rest).map ((k, v) :: ·)
    | none => none
termination_by fuel fs => (fuel, fs.length + 1)

end

/-- Walk the segments from an address to the address of the named
node. -/
def resolveAddr (h : Heap) : Addr → List String → Option Addr
  | a, [] => some a
  | a, k :: rest =>
    match h a with
    | some (.obj fields) =>
      match lookupFieldA fields k with
      | some child => resolveAddr h child rest
      | none => none
    | some (.arr es) =>
      match parseIndex k with
      | some i =>
        match es[i]? with
        | some child => resolveAddr h child rest
        | none => none
      | none => none
    | _ => none

/-- Locate the parent container of a non-root pointer and rewrite that
one node in place through `f`; nothing is written when any step
fails. -/
def mutateParent (st : HState) (root : Addr) (initSegs : List String) (k : String)
    (f : HState → HNode → String → Except EngineError (HState × HNode)) :
    Except EngineError HState :=
  match resolveAddr st.heap root initSegs with
  | some p =>
    match st.heap p with
    | some node =>
      match f st node k with
      | .ok (st', node') => .ok ⟨writeH st'.heap p node', st'.next⟩
      | .error e => .error e
    | none => .error (.pathUnresolvable k)
  | none => .error (.pathUnresolvable k)

/-- Modelled from the spec: the in-place `add` into a parent node —
the grafted value is allocated fresh. -/
def insertIntoParentH (v : Json) (st : HState) (node : HNode) (k : String) :
    Except EngineError (HState × HNode) :=
  match node with
  | .obj fields =>
    let (va, st') := allocTree v st
    .ok (st', .obj (setFieldA fields k va))
  | .arr es =>
    if k = "-" then
      let (va, st') := allocTree v st
      .ok (st', .arr (es ++ [va]))
    else
      match parseIndex k with
      | some i =>
        if i ≤ es.length then
          let (va, st') := allocTree v st
          .ok (st', .arr (es.take i ++ va :: es.drop i))
        else .error (.indexOutOfBounds k)
      | none => .error (.badArrayIndex k)
  | _ => .error (.pathUnresolvable k)

/-- Modelled from the spec: the in-place `remove` from a parent node. -/
def removeFromParentH (st : HState) (node : HNode) (k : String) :
    Except EngineError (HState × HNode) :=
  match node with
  | .obj fields =>
    if (lookupFieldA fields k).isSome then .ok (st, .obj (eraseFieldA fields k))
    else .error (.pathUnresolvable k)
  | .arr es =>
    match parseIndex k with
    | some i =>
      if i < es.length then .ok (st, .arr (es.take i ++ es.drop (i + 1)))
      else .error (.pathUnresolvable k)
    | none => .error (.badArrayIndex k)
  | _ => .error (.pathUnresolvable k)

/-- Modelled from the spec: the in-place `replace` in a parent node. -/
def replaceInParentH (v : Json) (st : HState) (node : HNode) (k : String) :
    Except EngineError (HState × HNode) :=
  match node with
  | .obj fields =>
    if (lookupFieldA fields k).isSome then
      let (va, st') := allocTree v st
      .ok (st', .obj (setFieldA fields k va))
    else .error (.pathUnresolvable k)
  | .arr es =>
    match parseIndex k with
    | some i =>
      if i < es.length then
        let (va, st') := allocTree v st
        .ok (st', .arr (es.set i va))
      else .error (.pathUnresolvable k)
    | none => .error (.badArrayIndex k)
  | _ => .error (.pathUnresolvable k)

/-- Modelled from the spec: heap-level `add`; adding at the root swaps
in a freshly allocated document. -/
def addAtH (st : HState) (root : Addr) (segs : List String) (v : Json) :
    HState × Except EngineError Addr :=
  match segs.getLast? with
  | none =>
    let (va, st') := allocTree v st
    (st', .ok va)
  | some k =>
    match mutateParent st root segs.dropLast k (insertIntoParentH v) with
    | .ok st' => (st', .ok root)
    | .error e => (st, .error e)

/-- Modelled from the spec: heap-level `remove`. -/
def removeAtH (st : HState) (root : Addr) (segs : List String) :
    HState × Except EngineError Addr :=
  match segs.getLast? with
  | none => (st, .error (.pathUnresolvable ""))
  | some k =>
    match mutateParent st root segs.dropLast k removeFromParentH with
    | .ok st' => (st', .ok root)
    | .error e => (st, .error e)

/-- Modelled from the spec: heap-level `replace`; replacing at the root
swaps in a freshly allocated document. -/
def replaceAtH (st : HState) (root : Addr) (segs : List String) (v : Json) :
    HState × Except EngineError Addr :=
  match segs.getLast? with
  | none =>
    let (va, st') := allocTree v st
    (st', .ok va)
  | some k =>
    match mutateParent st root segs.dropLast k (replaceInParentH v) with
    | .ok st' => (st', .ok root)
    | .error e => (st, .error e)

/-- Modelled from the spec: heap-level `test` — reads, never writes. -/
def testAtH (st : HState) (root : Addr) (fuel : Nat) (segs : List String)
    (pathStr : String) (v : Json) : HState × Except EngineError Addr :=
  match resolveAddr st.heap root segs with
  | some a =>
    match readTree st.heap fuel a with
    | some cur =>
      if deepEq cur v then (st, .ok root) else (st, .error (.testFailed pathStr))
    | none => (st, .error (.pathUnresolvable pathStr))
  | none => (st, .error (.pathUnresolvable pathStr))

/-- Modelled from the spec: one in-place operation on the working
document; `move` is remove-then-add of the read value, `copy` an add of
a duplicate of the read value. -/
def applyOpH (fuel : Nat) (st : HState) (root : Addr) (op : Op) :
    HState × Except EngineError Addr :=
  match op.kind with
  | .add =>
    match op.value with
    | some v => addAtH st root (parsePointer op.path) v
    | none => (st, .error .missingValue)
  | .replace =>
    match op.value with
    | some v => replaceAtH st root (parsePointer op.path) v
    | none => (st, .error .missingValue)
  | .test =>
    match op.value with
    | some v => testAtH st root fuel (parsePointer op.path) op.path v
    | none => (st, .error .missingValue)
  | .remove => removeAtH st root (parsePointer op.path)
  | .move =>
    match op.fromPtr with
    | some f =>
      match resolveAddr st.heap root (parsePointer f) with
      | some fa =>
        match readTree st.heap fuel fa with
        | some v =>
          match removeAtH st root (parsePointer f) with
          | (st', .ok root') => addAtH st' root' (parsePointer op.path) v
          | (st', .error e) => (st', .error e)
        | none => (st, .error (.pathUnresolvable f))
      | none => (st, .error (.pathUnresolvable f))
    | none => (st, .error .missingFrom)
  | .copy =>
    match op.fromPtr with
    | some f =>
      match resolveAddr st.heap root (parsePointer f) with
      | some fa =>
        match readTree st.heap fuel fa with
        | some v => addAtH st root (parsePointer op.path) v
        | none => (st, .error (.pathUnresolvable f))
      | none => (st, .error (.pathUnresolvable f))
    | none => (st, .error .missingFrom)

/-- Modelled from the spec: the operations in order on the working
document, stopping at the first failure; mutations made before a
failure persist on the (discarded) working copy. -/
def applyOpsH (fuel : Nat) (st : HState) (root : Addr) :
    List Op → HState × Except EngineError Addr
  | [] => (st, .ok root)
  | op :: rest =>
    match applyOpH fuel st root op with
    | (st', .ok root') => applyOpsH fuel st' root' rest
    | (st', .error e) => (st', .error e)

/-- Modelled from the spec: `deepClone` — read the document's tree and
allocate a fully independent fresh copy. -/
def deepCloneH (st : HState) (a : Addr) (fuel : Nat) :
    HState × Except EngineError Addr :=
  match readTree st.heap fuel a with
  | some v =>
    let (wa, st') := allocTree v st
    (st', .ok wa)
  | none => (st, .error (.pathUnresolvable ""))

/-- `applyPatchWithValidation` of `src/server/validate.ts` (lines
110-115) over the mutation model: deep-clone the caller's document,
re-run semantic validation against the working copy, then apply the
patch in place on the working copy.  The final state is returned in
every outcome. -/
def applyPatchWithValidationH (fuel : Nat) (st : HState) (document : Addr)
    (patch : List Op) : HState × Except EngineError Addr :=
  match deepCloneH st document fuel with
  | (st₁, .ok workingDocument) =>
    match readTree st₁.heap fuel workingDocument with
    | some workingValue =>
      match validatePatchSemantics workingValue patch with
      | .ok _ => applyOpsH fuel st₁ workingDocument patch
      | .error e => (st₁, .error e)
    | none => (st₁, .error (.pathUnresolvable ""))
  | (st₁, .error e) => (st₁, .error e)

/-- Every allocated address lies below the frontier, and so does every
child address it mentions. -/
def HeapClosed (n : Addr) (h : Heap) : Prop :=
  ∀ a node, h a = some node → a < n ∧ ∀ c ∈ childAddrs node, c < n

/-- Above the boundary, nodes never point below it: the working copy's
region is self-contained. -/
def NoDownPtr (n : Addr) (h : Heap) : Prop :=
  ∀ a node, n ≤ a → h a = some node → ∀ c ∈ childAddrs node, n ≤ c

/-- The heaps agree below the boundary. -/
def PreservedBelow (n : Addr) (h h' : Heap) : Prop :=
  ∀ a, a < n → h' a = h a

/-- The running invariant of the mutation model relative to a frozen
boundary `n`: the frontier is at or above `n`, the heap is closed, and
nodes at or above `n` never point below it. -/
def HInv (n : Addr) (st : HState) : Prop :=
  n ≤ st.next ∧ NoDownPtr n st.heap ∧ HeapClosed st.next st.heap

/-- An allocation step: the frontier only grows, existing addresses
keep their nodes, and any node not present before lies in the fresh
region with all its children in the fresh region too. -/
def AllocExtends (st st' : HState) : Prop :=
  st.next ≤ st'.next
  ∧ (∀ x, x < st.next → st'.heap x = st.heap x)
  ∧ (∀ x node, st'.heap x = some node →
      st.heap x = some node ∨
        (st.next ≤ x ∧ x < st'.next
          ∧ ∀ c ∈ childAddrs node, st.next ≤ c ∧ c < st'.next))

/-- A parent rewriting step behaves like an allocation: the state only
grows, and every child of the rewritten node is either an old child or
freshly allocated. -/
def ParentOpOk (f : HState → HNode → String → Except EngineError (HState × HNode)) : Prop :=
  ∀ st node k st' node', f st node k = .ok (st', node') →
    AllocExtends st st'
    ∧ ∀ c ∈ childAddrs node', c ∈ childAddrs node ∨ (st.next ≤ c ∧ c < st'.next)

/-- The frame property of one heap-level step: the invariant survives,
the heap below the boundary is untouched, the frontier only grows, and
a returned root address lies at or above the boundary. -/
def OpFrame (n : Addr) (st : HState) (res : HState × Except EngineError Addr) : Prop :=
  HInv n res.1 ∧ PreservedBelow n st.heap res.1.heap ∧ st.next ≤ res.1.next
  ∧ ∀ r, res.2 = .ok r → n ≤ r

/-- A one-node heap holding the number 5 at address 0. -/
def sampleHeap : Heap := fun x => if x = 0 then some (.num 5) else none

/-- The heap state whose document is `sampleHeap`'s single node. -/
def sampleSt : HState := ⟨sampleHeap, 1⟩

/-! ## Pointer string lemmas -/

theorem splitSlash_no_slash : ∀ cs : List Char, ∀ s ∈ splitSlash cs, '/' ∉ s
  | [], s, hs => by
    simp [splitSlash] at hs
    simp [hs]
  | c :: rest, s, hs => by
    rw [splitSlash] at hs
    split at hs
    · rcases List.mem_cons.1 hs with h | h
      · simp [h]
      · exact splitSlash_no_slash rest s h
    · rename_i hc
      rcases hsp : splitSlash rest with _ | ⟨s₀, ss⟩
      · exact absurd hsp (splitSlash_ne_nil rest)
      · rw [hsp] at hs
        rcases List.mem_cons.1 hs with h | h
        · subst h
          intro hmem
          rcases List.mem_cons.1 hmem with h | h
          · exact hc h.symm
          · exact splitSlash_no_slash rest s₀ (hsp ▸ List.mem_cons_self s₀ ss) h
        · exact splitSlash_no_slash rest s (hsp ▸ List.mem_cons_of_mem s₀ h)

theorem splitSlash_of_no_slash : ∀ cs : List Char, '/' ∉ cs → splitSlash cs = [cs]
  | [], _ => rfl
  | c :: rest, h => by
    have hc : ¬c = '/' := fun hc => h (hc ▸ List.mem_cons_self c rest)
    have hr : '/' ∉ rest := fun hr => h (List.mem_cons_of_mem c hr)
    rw [splitSlash, if_neg hc, splitSlash_of_no_slash rest hr]

theorem splitSlash_append_slash : ∀ (s cs : List Char), '/' ∉ s →
    splitSlash (s ++ '/' :: cs) = s :: splitSlash cs
  | [], cs, _ => by simp [splitSlash]
  | c :: rest, cs, h => by
    have hc : ¬c = '/' := fun hc => h (hc ▸ List.mem_cons_self c rest)
    have hr : '/' ∉ rest := fun hr => h (List.mem_cons_of_mem c hr)
    rw [List.cons_append, splitSlash, if_neg hc,
      splitSlash_append_slash rest cs hr]

theorem splitSlash_joinSlash : ∀ pieces : List (List Char), pieces ≠ [] →
    (∀ s ∈ pieces, '/' ∉ s) → splitSlash (joinSlash pieces) = pieces
  | [], h, _ => absurd rfl h
  | [s], _, h => by
    rw [joinSlash, splitSlash_of_no_slash s (h s (List.mem_cons_self s []))]
  | s :: s' :: rest, _, h => by
    rw [joinSlash, splitSlash_append_slash s _ (h s (List.mem_cons_self _ _)),
      splitSlash_joinSlash (s' :: rest) (fun hh => List.noConfusion hh)
        (fun t ht => h t (List.mem_cons_of_mem s ht))]

theorem tildeOk_cons_ne {c : Char} (hc : ¬c = '~') (rest : List Char) :
    tildeOk (c :: rest) = tildeOk rest := by
  rw [tildeOk.eq_def]
  simp [hc]

theorem tildeOk_tilde_cons (c2 : Char) (rest2 : List Char) :
    tildeOk ('~' :: c2 :: rest2) = ((c2 = '0' || c2 = '1') && tildeOk rest2) := rfl

theorem splitSlash_cons_slash (cs : List Char) :
    splitSlash ('/' :: cs) = [] :: splitSlash cs := by
  rw [splitSlash]
  simp

theorem splitSlash_cons_ne {c : Char} {cs : List Char} {s : List Char}
    {ss : List (List Char)} (hc : ¬c = '/') (hsp : splitSlash cs = s :: ss) :
    splitSlash (c :: cs) = (c :: s) :: ss := by
  rw [splitSlash, hsp]
  simp [hc]

theorem tildeOk_split : ∀ cs : List Char,
    tildeOk cs = ((splitSlash cs).all fun s => tildeOk s)
  | [] => rfl
  | c :: rest => by
    rcases hsp : splitSlash rest with _ | ⟨s₀, ss⟩
    · exact absurd hsp (splitSlash_ne_nil rest)
    have ih := tildeOk_split rest
    rw [hsp] at ih
    by_cases hc : c = '~'
    · subst hc
      rcases rest with _ | ⟨c2, rest2⟩
      · decide
      · rcases hsp2 : splitSlash rest2 with _ | ⟨t₀, ts⟩
        · exact absurd hsp2 (splitSlash_ne_nil rest2)
        have ih2 := tildeOk_split rest2
        rw [hsp2] at ih2
        by_cases hc2 : c2 = '/'
        · subst hc2
          rw [splitSlash_cons_ne (by decide) (splitSlash_cons_slash rest2),
            tildeOk_tilde_cons]
          simp [tildeOk]
        · rw [splitSlash_cons_ne (by decide) (splitSlash_cons_ne hc2 hsp2),
            tildeOk_tilde_cons, ih2]
          simp [tildeOk_tilde_cons, Bool.and_assoc]
    · by_cases hcs : c = '/'
      · subst hcs
        rw [splitSlash_cons_slash, tildeOk_cons_ne hc, ih]
        simp [tildeOk, hsp]
      · rw [splitSlash_cons_ne hcs hsp, tildeOk_cons_ne hc, ih]
        simp [tildeOk_cons_ne hc]

/-- The source's regex matcher agrees with the spec's segment-wise
grammar on every non-empty-segment question: a string matches
`jsonPointerPattern` exactly when it is `/`-prefixed and each of its
`/`-split segments respects the `~`-escape discipline. -/
theorem jsonPointerPattern_eq_spec (s : String) :
    jsonPointerPattern s = specPointerOk s := by
  rw [jsonPointerPattern, specPointerOk]
  rcases hd : s.data with _ | ⟨c, rest⟩
  · rfl
  · by_cases hc : c = '/'
    · subst hc
      simp only [splitSlash, if_pos rfl, List.drop_succ_cons, List.drop_zero]
      exact tildeOk_split rest
    · simp [hc]

theorem jsonPointerPattern_data {p : String} (hp : jsonPointerPattern p = true) :
    ∃ rest, p.data = '/' :: rest := by
  rw [jsonPointerPattern] at hp
  split at hp
  · next rest heq => exact ⟨rest, heq⟩
  · exact absurd hp (by simp)

theorem ne_empty_of_data {p : String} {c : Char} {rest : List Char}
    (hd : p.data = c :: rest) : p ≠ "" := by
  intro h
  rw [h] at hd
  exact List.noConfusion hd

/-- On any pointer accepted by the structural validator, the source's
string-level `parentExists` agrees with the spec's segment-level
`parent_exists` (section 4.1): the root and single-segment pointers
always have an existing parent, deeper pointers delegate to resolution
of the pointer with its last segment removed. -/
theorem parentExists_eq (D : Json) (p : String) (hp : jsonPointerPattern p = true) :
    parentExists D p =
      (decide ((parsePointer p).length ≤ 1) ||
        (resolveSegs D (parsePointer p).dropLast).isSome) := by
  obtain ⟨rest, hd⟩ := jsonPointerPattern_data hp
  have hne : p ≠ "" := ne_empty_of_data hd
  have hpieces : splitSlash p.data = [] :: splitSlash rest := by
    rw [hd, splitSlash_cons_slash]
  rcases hsegs : splitSlash rest with _ | ⟨s₀, ss⟩
  · exact absurd hsegs (splitSlash_ne_nil rest)
  have hparse : parsePointer p
      = (s₀ :: ss).map (fun cs => String.mk (unescapeSeg cs)) := by
    rw [parsePointer, hpieces, hsegs]
    simp
  rcases ss with _ | ⟨s₁, ss'⟩
  · -- a single segment after the leading slash: both sides are true
    have hRHS : (decide ((parsePointer p).length ≤ 1) : Bool) = true := by
      rw [hparse]
      simp
    rw [hRHS, Bool.true_or]
    by_cases hroot : p = "/" ∨ p = ""
    · rw [parentExists, if_pos hroot]
    · rw [parentExists, if_neg hroot]
      have hpp : pointerParent p = some "/" := by
        rw [pointerParent, if_neg hne]
        have : (splitSlash p.data).dropLast.length ≤ 1 := by
          rw [hpieces, hsegs]
          simp
        rw [if_pos this]
      rw [hpp]
      have hcond : ("/" : String) = "/" ∧ (splitSlash p.data).length = 2 := by
        refine ⟨rfl, ?_⟩
        rw [hpieces, hsegs]
        rfl
      show (if ("/" : String) = "/" ∧ (splitSlash p.data).length = 2 then true
        else pathExists D "/") = true
      rw [if_pos hcond]
  · -- at least two segments: both sides resolve the parent pointer
    have hlen2 : ¬(parsePointer p).length ≤ 1 := by
      rw [hparse]
      simp
    rw [decide_eq_false hlen2, Bool.false_or]
    have hne2 : ¬(p = "/" ∨ p = "") := by
      rintro (h | h)
      · rw [h] at hd
        have : rest = [] := List.noConfusion hd (fun _ h2 => h2.symm)
        rw [this] at hsegs
        exact List.noConfusion (List.noConfusion hsegs (fun _ h2 => h2.symm))
      · exact hne h
    rw [parentExists, if_neg hne2]
    have hnoslash : ∀ t ∈ s₀ :: (s₁ :: ss').dropLast, '/' ∉ t := by
      intro t ht
      refine splitSlash_no_slash rest t ?_
      rw [hsegs]
      rcases List.mem_cons.1 ht with h | h
      · exact h ▸ List.mem_cons_self _ _
      · exact List.mem_cons_of_mem _
          (List.dropLast_subset (s₁ :: ss') h)
    have hpp : pointerParent p
        = some (String.mk ('/' :: joinSlash (s₀ :: (s₁ :: ss').dropLast))) := by
      rw [pointerParent, if_neg hne]
      have hdl : (splitSlash p.data).dropLast = [] :: s₀ :: (s₁ :: ss').dropLast := by
        rw [hpieces, hsegs]
        simp
      rw [hdl]
      have hlen : ¬([] :: s₀ :: (s₁ :: ss').dropLast).length ≤ 1 := by simp
      rw [if_neg hlen]
      have hjoin : joinSlash ([] :: s₀ :: (s₁ :: ss').dropLast)
          = '/' :: joinSlash (s₀ :: (s₁ :: ss').dropLast) := by
        rw [joinSlash]
        rfl
      rw [hjoin]
      have : ('/' :: joinSlash (s₀ :: (s₁ :: ss').dropLast)) ≠ [] := by simp
      rw [if_neg this]
    rw [hpp]
    have hcond : ¬(String.mk ('/' :: joinSlash (s₀ :: (s₁ :: ss').dropLast)) = "/"
        ∧ (splitSlash p.data).length = 2) := by
      rintro ⟨-, hl⟩
      rw [hpieces, hsegs] at hl
      simp at hl
    show (if String.mk ('/' :: joinSlash (s₀ :: (s₁ :: ss').dropLast)) = "/"
          ∧ (splitSlash p.data).length = 2 then true
        else pathExists D (String.mk ('/' :: joinSlash (s₀ :: (s₁ :: ss').dropLast))))
      = (resolveSegs D (parsePointer p).dropLast).isSome
    rw [if_neg hcond]
    have hparent_parse :
        parsePointer (String.mk ('/' :: joinSlash (s₀ :: (s₁ :: ss').dropLast)))
          = (s₀ :: (s₁ :: ss').dropLast).map (fun cs => String.mk (unescapeSeg cs)) := by
      rw [parsePointer]
      have hdata : (String.mk ('/' :: joinSlash (s₀ :: (s₁ :: ss').dropLast))).data
          = '/' :: joinSlash (s₀ :: (s₁ :: ss').dropLast) := rfl
      rw [hdata, splitSlash_cons_slash,
        splitSlash_joinSlash _ (fun hh => List.noConfusion hh) hnoslash]
      simp
    rw [pathExists, resolve, hparent_parse, hparse]
    have : ((s₀ :: s₁ :: ss').map (fun cs => String.mk (unescapeSeg cs))).dropLast
        = (s₀ :: (s₁ :: ss').dropLast).map (fun cs => String.mk (unescapeSeg cs)) := by
      rw [← List.map_dropLast]
      simp
    rw [this]

/-! ## Semantic validator lemmas -/

theorem structOk_parts {op : Op} (h : structOk op = true) :
    jsonPointerPattern op.path = true
    ∧ (isValueKind op.kind = true → op.value.isSome = true)
    ∧ (isFromKind op.kind = true →
        ∃ f, op.fromPtr = some f ∧ f ≠ "" ∧ jsonPointerPattern f = true) := by
  simp only [structOk, Bool.and_eq_true, Bool.or_eq_true, Bool.not_eq_true'] at h
  obtain ⟨⟨h1, h2⟩, h3⟩ := h
  refine ⟨h1, ?_, ?_⟩
  · intro hk
    rcases h2 with h | h
    · rw [hk] at h
      exact absurd h (by simp)
    · exact h
  · intro hk
    rcases h3 with h | h
    · rw [hk] at h
      exact absurd h (by simp)
    · obtain ⟨ht, hp⟩ := h
      rcases hf : op.fromPtr with _ | f
      · rw [hf] at ht
        exact absurd ht (by simp [fromTruthy])
      · rw [hf] at ht hp
        refine ⟨f, rfl, ?_, ?_⟩
        · simpa [fromTruthy] using ht
        · simpa using hp

theorem checkOpSemantics_eq_spec (D : Json) (op : Op)
    (hpat : jsonPointerPattern op.path = true)
    (hval : isValueKind op.kind = true → op.value.isSome = true)
    (hfrom : isFromKind op.kind = true →
      ∃ f, op.fromPtr = some f ∧ f ≠ "" ∧ jsonPointerPattern f = true) :
    checkOpSemantics D op =
      (match specOpErr D op with
       | some e => Except.error e
       | none => Except.ok ()) := by
  obtain ⟨k, path, fromPtr, value⟩ := op
  simp only at hpat hval hfrom
  cases k
  case add =>
    have hpe := parentExists_eq D path hpat
    by_cases h1 : (parsePointer path).length ≤ 1
    · have hp : parentExists D path = true := by
        rw [hpe]
        simp [h1]
      simp [checkOpSemantics, specOpErr, specExistErr, specTypeErr, hp, h1]
    · by_cases h2 : (resolveSegs D (parsePointer path).dropLast).isSome = true
      · have hp : parentExists D path = true := by
          rw [hpe]
          simp [h2]
        simp [checkOpSemantics, specOpErr, specExistErr, specTypeErr, hp, h1, h2]
      · have hp : parentExists D path = false := by
          rw [hpe]
          simp [h1, h2]
        simp [checkOpSemantics, specOpErr, specExistErr, specTypeErr, hp, h1, h2]
  case replace =>
    have hvs : value.isSome = true := hval rfl
    obtain ⟨v, hv⟩ := Option.isSome_iff_exists.mp hvs
    subst hv
    rcases hres : resolve D path with _ | cur
    · have hex : pathExists D path = false := by simp [pathExists, hres]
      simp [checkOpSemantics, specOpErr, specExistErr, specTypeErr, hres, hex]
    · have hex : pathExists D path = true := by simp [pathExists, hres]
      by_cases hmm : cur ≠ Json.null ∧ v ≠ Json.null ∧ getType cur ≠ getType v
      · simp [checkOpSemantics, specOpErr, specExistErr, specTypeErr, hres, hex, hmm]
      · simp [checkOpSemantics, specOpErr, specExistErr, specTypeErr, hres, hex, hmm]
  case remove =>
    rcases hres : resolve D path with _ | cur
    · have hex : pathExists D path = false := by simp [pathExists, hres]
      simp [checkOpSemantics, specOpErr, specExistErr, specTypeErr, hres, hex]
    · have hex : pathExists D path = true := by simp [pathExists, hres]
      simp [checkOpSemantics, specOpErr, specExistErr, specTypeErr, hres, hex]
  case test =>
    rcases hres : resolve D path with _ | cur
    · have hex : pathExists D path = false := by simp [pathExists, hres]
      simp [checkOpSemantics, specOpErr, specExistErr, specTypeErr, hres, hex]
    · have hex : pathExists D path = true := by simp [pathExists, hres]
      simp [checkOpSemantics, specOpErr, specExistErr, specTypeErr, hres, hex]
  case move =>
    obtain ⟨f, hf, hfne, -⟩ := hfrom rfl
    subst hf
    have htr : fromTruthy (some f) = true := by simp [fromTruthy, hfne]
    rcases hres : resolve D f with _ | cur
    · have hex : pathExists D f = false := by simp [pathExists, hres]
      simp [checkOpSemantics, specOpErr, specExistErr, specTypeErr, htr, hres, hex]
    · have hex : pathExists D f = true := by simp [pathExists, hres]
      simp [checkOpSemantics, specOpErr, specExistErr, specTypeErr, htr, hres, hex]
  case copy =>
    obtain ⟨f, hf, hfne, -⟩ := hfrom rfl
    subst hf
    have htr : fromTruthy (some f) = true := by simp [fromTruthy, hfne]
    rcases hres : resolve D f with _ | cur
    · have hex : pathExists D f = false := by simp [pathExists, hres]
      simp [checkOpSemantics, specOpErr, specExistErr, specTypeErr, htr, hres, hex]
    · have hex : pathExists D f = true := by simp [pathExists, hres]
      simp [checkOpSemantics, specOpErr, specExistErr, specTypeErr, htr, hres, hex]

theorem validatePatchSemantics_append_ok {D : Json} {pre : List Op}
    (h : validatePatchSemantics D pre = .ok ()) (rest : List Op) :
    validatePatchSemantics D (pre ++ rest) = validatePatchSemantics D rest := by
  induction pre with
  | nil => rfl
  | cons op ops ih =>
    rw [validatePatchSemantics] at h
    rw [List.cons_append, validatePatchSemantics]
    cases hc : checkOpSemantics D op with
    | ok u =>
      rw [hc] at h
      cases u
      exact ih h
    | error e =>
      rw [hc] at h
      exact absurd h (by simp)

/-! ## Field list lemmas -/

theorem isSome_false_eq_none {α : Type} {o : Option α} (h : o.isSome = false) :
    o = none := by
  cases o
  · rfl
  · simp at h

theorem keysNoDup_cons {k : String} {w : Json} {rest : List (String × Json)}
    (h : keysNoDup ((k, w) :: rest) = true) :
    lookupField rest k = none ∧ keysNoDup rest = true := by
  simp only [keysNoDup, Bool.and_eq_true, Bool.not_eq_true'] at h
  exact ⟨isSome_false_eq_none h.1, h.2⟩

theorem lookupField_setField_self : ∀ (fs : List (String × Json)) (k : String) (v : Json),
    lookupField (setField fs k v) k = some v
  | [], k, v => by simp [setField, lookupField]
  | (k₁, w) :: rest, k, v => by
    by_cases h : k₁ = k
    · simp [setField, h, lookupField]
    · simp only [setField, if_neg h, lookupField, if_neg h]
      exact lookupField_setField_self rest k v

theorem lookupField_setField_ne {k' k : String} (h : ¬k' = k) :
    ∀ (fs : List (String × Json)) (v : Json),
      lookupField (setField fs k v) k' = lookupField fs k'
  | [], v => by simp [setField, lookupField, Ne.symm h]
  | (k₁, w) :: rest, v => by
    by_cases h₁ : k₁ = k
    · subst h₁
      simp [setField, lookupField, Ne.symm h]
    · simp only [setField, if_neg h₁, lookupField]
      by_cases h₂ : k₁ = k'
      · simp [h₂]
      · simp only [if_neg h₂]
        exact lookupField_setField_ne h rest v

theorem lookupField_eraseField_ne {k' k : String} (h : ¬k' = k) :
    ∀ fs : List (String × Json),
      lookupField (eraseField fs k) k' = lookupField fs k'
  | [] => rfl
  | (k₁, w) :: rest => by
    by_cases h₁ : k₁ = k
    · subst h₁
      simp [eraseField, lookupField, Ne.symm h]
    · simp only [eraseField, if_neg h₁, lookupField]
      by_cases h₂ : k₁ = k'
      · simp [h₂]
      · simp only [if_neg h₂]
        exact lookupField_eraseField_ne h rest

theorem lookupField_eraseField_self {k : String} :
    ∀ {fs : List (String × Json)}, keysNoDup fs = true →
      lookupField (eraseField fs k) k = none
  | [], _ => rfl
  | (k₁, w) :: rest, h => by
    obtain ⟨h1, h2⟩ := keysNoDup_cons h
    by_cases hk : k₁ = k
    · subst hk
      have he : eraseField ((k₁, w) :: rest) k₁ = rest := by simp [eraseField]
      rw [he, h1]
    · simp only [eraseField, if_neg hk, lookupField, if_neg hk]
      exact lookupField_eraseField_self h2

theorem eraseField_append_of_lookup_none {k : String} (v : Json) :
    ∀ {fs : List (String × Json)}, lookupField fs k = none →
      eraseField (fs ++ [(k, v)]) k = fs
  | [], _ => by simp [eraseField]
  | (k₁, w) :: rest, h => by
    simp only [lookupField] at h
    by_cases hk : k₁ = k
    · rw [if_pos hk] at h
      exact absurd h (by simp)
    · rw [if_neg hk] at h
      show eraseField ((k₁, w) :: (rest ++ [(k, v)])) k = (k₁, w) :: rest
      simp only [eraseField, if_neg hk]
      rw [eraseField_append_of_lookup_none v h]

theorem setField_append_of_lookup_none {k : String} (v : Json) :
    ∀ {fs : List (String × Json)}, lookupField fs k = none →
      setField fs k v = fs ++ [(k, v)]
  | [], _ => rfl
  | (k₁, w) :: rest, h => by
    simp only [lookupField] at h
    by_cases hk : k₁ = k
    · rw [if_pos hk] at h
      exact absurd h (by simp)
    · rw [if_neg hk] at h
      show setField ((k₁, w) :: rest) k v = (k₁, w) :: (rest ++ [(k, v)])
      simp only [setField, if_neg hk]
      rw [setField_append_of_lookup_none v h]

theorem setField_setField (k : String) (c c' : Json) :
    ∀ fs : List (String × Json),
      setField (setField fs k c) k c' = setField fs k c'
  | [] => by simp [setField]
  | (k₁, w) :: rest => by
    by_cases hk : k₁ = k
    · simp [setField, hk]
    · simp only [setField, if_neg hk]
      rw [setField_setField k c c' rest]

theorem setField_lookup_self {k : String} :
    ∀ {fs : List (String × Json)} {c : Json}, lookupField fs k = some c →
      setField fs k c = fs
  | [], c, h => by simp [lookupField] at h
  | (k₁, w) :: rest, c, h => by
    simp only [lookupField] at h
    by_cases hk : k₁ = k
    · rw [if_pos hk] at h
      injection h with h
      simp [setField, hk, h]
    · rw [if_neg hk] at h
      simp only [setField, if_neg hk]
      rw [setField_lookup_self h]

theorem lookupField_append (k : String) :
    ∀ (a b : List (String × Json)),
      lookupField (a ++ b) k =
        (match lookupField a k with
         | some w => some w
         | none => lookupField b k)
  | [], b => rfl
  | (k₁, w) :: rest, b => by
    by_cases hk : k₁ = k
    · simp [lookupField, hk]
    · simp only [List.cons_append, lookupField, if_neg hk]
      exact lookupField_append k rest b

theorem lookupField_isSome_of_mem {k : String} {v : Json} :
    ∀ {fs : List (String × Json)}, (k, v) ∈ fs →
      (lookupField fs k).isSome = true
  | [], hm => absurd hm (by simp)
  | (k₁, w) :: rest, hm => by
    rcases List.mem_cons.1 hm with h | h
    · injection h with ha hb
      simp [lookupField, ha.symm]
    · by_cases hk : k₁ = k
      · simp [lookupField, hk]
      · simp only [lookupField, if_neg hk]
        exact lookupField_isSome_of_mem h

theorem lookupField_of_mem_nodup {k : String} {v : Json} :
    ∀ {fs : List (String × Json)}, keysNoDup fs = true → (k, v) ∈ fs →
      lookupField fs k = some v
  | [], _, hm => absurd hm (by simp)
  | (k₁, w) :: rest, hnd, hm => by
    obtain ⟨h1, h2⟩ := keysNoDup_cons hnd
    rcases List.mem_cons.1 hm with h | h
    · injection h with ha hb
      simp [lookupField, ha.symm, hb]
    · have hne : ¬k₁ = k := by
        intro hk
        subst hk
        have := lookupField_isSome_of_mem h
        rw [h1] at this
        exact absurd this (by simp)
      simp only [lookupField, if_neg hne]
      exact lookupField_of_mem_nodup h2 h

theorem mem_eraseField_nodup {k k₂ : String} {v₂ : Json} :
    ∀ {fs : List (String × Json)}, keysNoDup fs = true →
      (k₂, v₂) ∈ eraseField fs k → ¬k₂ = k ∧ (k₂, v₂) ∈ fs
  | [], _, hm => absurd hm (by simp [eraseField])
  | (k₁, w) :: rest, hnd, hm => by
    obtain ⟨h1, h2⟩ := keysNoDup_cons hnd
    by_cases hk : k₁ = k
    · subst hk
      rw [eraseField, if_pos rfl] at hm
      refine ⟨?_, List.mem_cons_of_mem _ hm⟩
      intro hkk
      subst hkk
      have := lookupField_isSome_of_mem hm
      rw [h1] at this
      exact absurd this (by simp)
    · rw [eraseField, if_neg hk] at hm
      rcases List.mem_cons.1 hm with h | h
      · injection h with ha hb
        subst ha
        exact ⟨hk, by simp [hb]⟩
      · obtain ⟨hne, hmem⟩ := mem_eraseField_nodup h2 h
        exact ⟨hne, List.mem_cons_of_mem _ hmem⟩

theorem mem_setField {k : String} {v : Json} {p : String × Json} :
    ∀ {fs : List (String × Json)}, keysNoDup fs = true → p ∈ setField fs k v →
      p = (k, v) ∨ (¬p.1 = k ∧ p ∈ fs)
  | [], _, hm => by
    simp [setField] at hm
    exact Or.inl (by simp [hm])
  | (k₁, w) :: rest, hnd, hm => by
    obtain ⟨h1, h2⟩ := keysNoDup_cons hnd
    by_cases hk : k₁ = k
    · subst hk
      rw [setField, if_pos rfl] at hm
      rcases List.mem_cons.1 hm with h | h
      · exact Or.inl h
      · obtain ⟨pk, pv⟩ := p
        by_cases hpk : pk = k₁
        · subst hpk
          have := lookupField_isSome_of_mem h
          rw [h1] at this
          exact absurd this (by simp)
        · exact Or.inr ⟨hpk, List.mem_cons_of_mem _ h⟩
    · rw [setField, if_neg hk] at hm
      rcases List.mem_cons.1 hm with h | h
      · subst h
        exact Or.inr ⟨hk, List.mem_cons_self _ _⟩
      · rcases mem_setField h2 h with h' | ⟨hne, hmem⟩
        · exact Or.inl h'
        · exact Or.inr ⟨hne, List.mem_cons_of_mem _ hmem⟩

/-! ## Resolution and spine lemmas -/

theorem resolveSegs_append : ∀ (d : Json) (ps qs : List String),
    resolveSegs d (ps ++ qs) = (resolveSegs d ps).bind (fun x => resolveSegs x qs)
  | d, [], _ => by cases d <;> rfl
  | .obj fields, k :: ps, qs => by
    rcases h : lookupField fields k with _ | child
    · simp [resolveSegs, h]
    · simp only [List.cons_append, resolveSegs, h]
      exact resolveSegs_append child ps qs
  | .arr xs, k :: ps, qs => by
    rcases hi : parseIndex k with _ | i
    · simp [resolveSegs, hi]
    · rcases hg : xs[i]? with _ | child
      · simp [resolveSegs, hi, hg]
      · simp only [List.cons_append, resolveSegs, hi, hg]
        exact resolveSegs_append child ps qs
  | .null, _ :: _, _ => rfl
  | .bool _, _ :: _, _ => rfl
  | .num _, _ :: _, _ => rfl
  | .str _, _ :: _, _ => rfl

theorem wfDocFields_lookup {k : String} :
    ∀ {fields : List (String × Json)} {child : Json},
      wfDocFields fields = true → lookupField fields k = some child →
      wfDoc child = true
  | [], _, _, hl => by simp [lookupField] at hl
  | (k₁, w) :: rest, child, hwf, hl => by
    simp only [wfDocFields, Bool.and_eq_true] at hwf
    simp only [lookupField] at hl
    by_cases hk : k₁ = k
    · rw [if_pos hk] at hl
      injection hl with hl
      rw [← hl]
      exact hwf.1
    · rw [if_neg hk] at hl
      exact wfDocFields_lookup hwf.2 hl

theorem wfDocList_get {i : Nat} :
    ∀ {xs : List Json} {child : Json},
      wfDocList xs = true → xs[i]? = some child → wfDoc child = true := by
  intro xs
  induction xs generalizing i with
  | nil => intro child _ hg; simp at hg
  | cons x rest ih =>
    intro child hwf hg
    simp only [wfDocList, Bool.and_eq_true] at hwf
    cases i with
    | zero =>
      simp only [List.getElem?_cons_zero] at hg
      injection hg with hg
      rw [← hg]
      exact hwf.1
    | succ n =>
      simp only [List.getElem?_cons_succ] at hg
      exact ih hwf.2 hg

theorem wfDoc_resolveSegs : ∀ (d : Json) (ps : List String) (x : Json),
    wfDoc d = true → resolveSegs d ps = some x → wfDoc x = true
  | d, [], x, hwf, hres => by
    simp only [resolveSegs] at hres
    injection hres with hres
    rw [← hres]
    exact hwf
  | .obj fields, k :: ps, x, hwf, hres => by
    rcases h : lookupField fields k with _ | child
    · simp [resolveSegs, h] at hres
    · simp only [resolveSegs, h] at hres
      simp only [wfDoc, Bool.and_eq_true] at hwf
      exact wfDoc_resolveSegs child ps x (wfDocFields_lookup hwf.2 h) hres
  | .arr xs, k :: ps, x, hwf, hres => by
    rcases hi : parseIndex k with _ | i
    · simp [resolveSegs, hi] at hres
    · rcases hg : xs[i]? with _ | child
      · simp [resolveSegs, hi, hg] at hres
      · simp only [resolveSegs, hi, hg] at hres
        simp only [wfDoc] at hwf
        exact wfDoc_resolveSegs child ps x (wfDocList_get hwf hg) hres
  | .null, _ :: _, x, _, hres => by simp [resolveSegs] at hres
  | .bool _, _ :: _, x, _, hres => by simp [resolveSegs] at hres
  | .num _, _ :: _, x, _, hres => by simp [resolveSegs] at hres
  | .str _, _ :: _, x, _, hres => by simp [resolveSegs] at hres

theorem objPathOk_nil (d : Json) : objPathOk d [] = true := by
  cases d <;> rfl

theorem objPathOk_not_scalar : ∀ {d : Json} {k : String} {rest : List String},
    objPathOk d (k :: rest) = true →
    ∃ fields child, d = .obj fields ∧ lookupField fields k = some child
      ∧ objPathOk child rest = true := by
  intro d k rest h
  cases d with
  | obj fields =>
    rcases hl : lookupField fields k with _ | child
    · simp [objPathOk, hl] at h
    · exact ⟨fields, child, rfl, hl, by simpa [objPathOk, hl] using h⟩
  | null => simp [objPathOk] at h
  | bool b => simp [objPathOk] at h
  | num n => simp [objPathOk] at h
  | str s => simp [objPathOk] at h
  | arr xs => simp [objPathOk] at h

theorem updAt_eq_setSegs : ∀ (d : Json) (ps : List String) (x : Json)
    (f : Json → Except EngineError Json),
    objPathOk d ps = true → resolveSegs d ps = some x →
    updAt d ps f =
      (match f x with
       | .ok y => .ok (setSegs d ps y)
       | .error e => .error e)
  | d, [], x, f, _, hres => by
    simp only [resolveSegs] at hres
    injection hres with hres
    subst hres
    simp only [updAt, setSegs]
    cases f d <;> rfl
  | d, k :: rest, x, f, hobj, hres => by
    obtain ⟨fields, child, rfl, hl, hobj'⟩ := objPathOk_not_scalar hobj
    have hres' : resolveSegs child rest = some x := by
      simpa [resolveSegs, hl] using hres
    have ih := updAt_eq_setSegs child rest x f hobj' hres'
    simp only [updAt, hl, ih, setSegs]
    cases f x <;> rfl

theorem resolveSegs_setSegs_self : ∀ (d : Json) (ps : List String) (y : Json),
    objPathOk d ps = true → resolveSegs (setSegs d ps y) ps = some y
  | d, [], y, _ => by cases d <;> cases y <;> rfl
  | d, k :: rest, y, hobj => by
    obtain ⟨fields, child, rfl, hl, hobj'⟩ := objPathOk_not_scalar hobj
    simp only [setSegs, hl, resolveSegs, lookupField_setField_self]
    exact resolveSegs_setSegs_self child rest y hobj'

theorem setSegs_setSegs : ∀ (d : Json) (ps : List String) (y y' : Json),
    objPathOk d ps = true → setSegs (setSegs d ps y) ps y' = setSegs d ps y'
  | d, [], y, y', _ => by cases d <;> cases y <;> rfl
  | d, k :: rest, y, y', hobj => by
    obtain ⟨fields, child, rfl, hl, hobj'⟩ := objPathOk_not_scalar hobj
    simp only [setSegs, hl, lookupField_setField_self, setField_setField]
    rw [setSegs_setSegs child rest y y' hobj']

theorem setSegs_resolve_self : ∀ (d : Json) (ps : List String) (x : Json),
    objPathOk d ps = true → resolveSegs d ps = some x → setSegs d ps x = d
  | d, [], x, _, hres => by
    simp only [resolveSegs] at hres
    injection hres with hres
    rw [setSegs, hres]
  | d, k :: rest, x, hobj, hres => by
    obtain ⟨fields, child, rfl, hl, hobj'⟩ := objPathOk_not_scalar hobj
    have hres' : resolveSegs child rest = some x := by
      simpa [resolveSegs, hl] using hres
    simp only [setSegs, hl]
    rw [setSegs_resolve_self child rest x hobj' hres', setField_lookup_self hl]

theorem objPathOk_setSegs_self : ∀ (d : Json) (ps : List String) (y : Json),
    objPathOk d ps = true → objPathOk (setSegs d ps y) ps = true
  | d, [], y, _ => by cases d <;> cases y <;> rfl
  | d, k :: rest, y, hobj => by
    obtain ⟨fields, child, rfl, hl, hobj'⟩ := objPathOk_not_scalar hobj
    simp only [setSegs, hl, objPathOk, lookupField_setField_self]
    exact objPathOk_setSegs_self child rest y hobj'

/-- Frame lemma for removing a field: overwriting the object at one
spine with that object minus one field leaves any other object-spine
that the removed path does not dominate resolvable, an object, and
still missing the same absent key. -/
theorem frame_erase : ∀ (asInit : List String) (D : Json) (ak : String)
    (pfA : List (String × Json)) (qs : List String)
    (pfQ : List (String × Json)) (bk : String),
    wfDoc D = true →
    objPathOk D asInit = true →
    resolveSegs D asInit = some (.obj pfA) →
    objPathOk D qs = true →
    resolveSegs D qs = some (.obj pfQ) →
    lookupField pfQ bk = none →
    ¬((asInit ++ [ak]) <+: qs) →
    ∃ pfQ', resolveSegs (setSegs D asInit (.obj (eraseField pfA ak))) qs
        = some (.obj pfQ')
      ∧ lookupField pfQ' bk = none
      ∧ objPathOk (setSegs D asInit (.obj (eraseField pfA ak))) qs = true
  | [], D, ak, pfA, qs, pfQ, bk, hwf, _, hresA, hobjQ, hresQ, hbk, hpre => by
    simp only [resolveSegs] at hresA
    injection hresA with hresA
    subst hresA
    have hnd : keysNoDup pfA = true := by
      simp only [wfDoc, Bool.and_eq_true] at hwf
      exact hwf.1
    cases qs with
    | nil =>
      simp only [resolveSegs] at hresQ
      have hpq : pfA = pfQ := by
        injection hresQ with h
        injection h with h
      subst hpq
      refine ⟨eraseField pfA ak, rfl, ?_, rfl⟩
      by_cases hbkak : bk = ak
      · subst hbkak
        exact lookupField_eraseField_self hnd
      · rw [lookupField_eraseField_ne hbkak]
        exact hbk
    | cons q₀ qs' =>
      have hq₀ : ¬q₀ = ak := by
        intro h
        subst h
        exact hpre (by simp [List.cons_prefix_cons])
      obtain ⟨fields, childQ, hDeq, hlQ, hobjQ'⟩ := objPathOk_not_scalar hobjQ
      injection hDeq with hDeq
      subst hDeq
      have hresQ' : resolveSegs childQ qs' = some (.obj pfQ) := by
        simpa [resolveSegs, hlQ] using hresQ
      refine ⟨pfQ, ?_, hbk, ?_⟩
      · simp only [setSegs, resolveSegs, lookupField_eraseField_ne hq₀, hlQ]
        exact hresQ'
      · simp only [setSegs, objPathOk, lookupField_eraseField_ne hq₀, hlQ]
        exact hobjQ'
  | a₀ :: as', D, ak, pfA, qs, pfQ, bk, hwf, hobjA, hresA, hobjQ, hresQ, hbk, hpre => by
    obtain ⟨fields, childA, rfl, hlA, hobjA'⟩ := objPathOk_not_scalar hobjA
    have hresA' : resolveSegs childA as' = some (.obj pfA) := by
      simpa [resolveSegs, hlA] using hresA
    have hwfA : wfDoc childA = true := by
      simp only [wfDoc, Bool.and_eq_true] at hwf
      exact wfDocFields_lookup hwf.2 hlA
    cases qs with
    | nil =>
      simp only [resolveSegs] at hresQ
      have hpq : fields = pfQ := by
        injection hresQ with h
        injection h with h
      subst hpq
      have hbka₀ : ¬bk = a₀ := by
        intro h
        subst h
        rw [hlA] at hbk
        exact Option.noConfusion hbk
      refine ⟨setField fields a₀ (setSegs childA as' (.obj (eraseField pfA ak))),
        ?_, ?_, objPathOk_nil _⟩
      · simp [setSegs, hlA, resolveSegs]
      · rw [lookupField_setField_ne hbka₀]
        exact hbk
    | cons q₀ qs' =>
      by_cases hq : q₀ = a₀
      · subst hq
        obtain ⟨fields', childQ, hDeq, hlQ, hobjQ'⟩ := objPathOk_not_scalar hobjQ
        injection hDeq with hDeq
        subst hDeq
        have hchild : childQ = childA := by
          rw [hlA] at hlQ
          injection hlQ with h
          exact h.symm
        subst hchild
        have hresQ' : resolveSegs childQ qs' = some (.obj pfQ) := by
          simpa [resolveSegs, hlQ] using hresQ
        have hpre' : ¬((as' ++ [ak]) <+: qs') := by
          intro h
          exact hpre (by simpa [List.cons_prefix_cons] using h)
        obtain ⟨pfQ', h1, h2, h3⟩ := frame_erase as' childQ ak pfA qs' pfQ bk
          hwfA hobjA' hresA' hobjQ' hresQ' hbk hpre'
        refine ⟨pfQ', ?_, h2, ?_⟩
        · simp only [setSegs, hlA, resolveSegs, lookupField_setField_self]
          exact h1
        · simp only [setSegs, hlA, objPathOk, lookupField_setField_self]
          exact h3
      · obtain ⟨fields', childQ, hDeq, hlQ, hobjQ'⟩ := objPathOk_not_scalar hobjQ
        injection hDeq with hDeq
        subst hDeq
        have hresQ' : resolveSegs childQ qs' = some (.obj pfQ) := by
          simpa [resolveSegs, hlQ] using hresQ
        refine ⟨pfQ, ?_, hbk, ?_⟩
        · simp only [setSegs, hlA, resolveSegs, lookupField_setField_ne hq]
          rw [hlQ]
          exact hresQ'
        · simp only [setSegs, hlA, objPathOk, lookupField_setField_ne hq]
          rw [hlQ]
          exact hobjQ'

/-! ## Deep equality lemmas -/

theorem setSegs_nil (d v : Json) : setSegs d [] v = v := by
  cases d <;> rfl

theorem wfDocFields_mem {fields : List (String × Json)} {k : String} {v : Json} :
    wfDocFields fields = true → (k, v) ∈ fields → wfDoc v = true := by
  induction fields with
  | nil => intro _ hm; simp at hm
  | cons p rest ih =>
    intro hwf hm
    obtain ⟨k₁, w⟩ := p
    simp only [wfDocFields, Bool.and_eq_true] at hwf
    rcases List.mem_cons.1 hm with h | h
    · injection h with h1 h2
      rw [h2]
      exact hwf.1
    · exact ih hwf.2 h

theorem deepEqFields_of_all : ∀ (a b : List (String × Json)),
    (∀ k v, (k, v) ∈ a → ∃ w, lookupField b k = some w ∧ deepEq v w = true) →
    deepEqFields a b = true
  | [], _, _ => rfl
  | (k, v) :: rest, b, h => by
    obtain ⟨w, hw, hd⟩ := h k v (List.mem_cons_self _ _)
    simp only [deepEqFields, hw, hd, Bool.true_and]
    exact deepEqFields_of_all rest b
      (fun k' v' hm => h k' v' (List.mem_cons_of_mem _ hm))

theorem keysCovered_of_all : ∀ (a b : List (String × Json)),
    (∀ k w, (k, w) ∈ b → (lookupField a k).isSome = true) →
    keysCovered a b = true
  | _, [], _ => rfl
  | a, (k, w) :: rest, h => by
    simp only [keysCovered, Bool.and_eq_true]
    exact ⟨h k w (List.mem_cons_self _ _),
      keysCovered_of_all a rest (fun k' w' hm => h k' w' (List.mem_cons_of_mem _ hm))⟩

mutual

theorem deepEq_refl : ∀ v : Json, wfDoc v = true → deepEq v v = true
  | .null, _ => rfl
  | .bool b, _ => by simp [deepEq]
  | .num n, _ => by simp [deepEq]
  | .str s, _ => by simp [deepEq]
  | .arr xs, h => by
    simp only [wfDoc] at h
    simp only [deepEq]
    exact deepEqList_refl xs h
  | .obj fs, h => by
    simp only [wfDoc, Bool.and_eq_true] at h
    simp only [deepEq, Bool.and_eq_true]
    refine ⟨deepEqFields_refl_aux fs fs h.2
      (fun k v hm => lookupField_of_mem_nodup h.1 hm), ?_⟩
    exact keysCovered_of_all fs fs (fun k w hm => lookupField_isSome_of_mem hm)

theorem deepEqList_refl : ∀ xs : List Json, wfDocList xs = true →
    deepEqList xs xs = true
  | [], _ => rfl
  | x :: xs, h => by
    simp only [wfDocList, Bool.and_eq_true] at h
    simp only [deepEqList, Bool.and_eq_true]
    exact ⟨deepEq_refl x h.1, deepEqList_refl xs h.2⟩

theorem deepEqFields_refl_aux : ∀ (a b : List (String × Json)),
    wfDocFields a = true →
    (∀ k v, (k, v) ∈ a → lookupField b k = some v) →
    deepEqFields a b = true
  | [], _, _, _ => rfl
  | (k, v) :: rest, b, hwf, h => by
    simp only [wfDocFields, Bool.and_eq_true] at hwf
    have hw := h k v (List.mem_cons_self _ _)
    simp only [deepEqFields, hw, Bool.and_eq_true]
    exact ⟨deepEq_refl v hwf.1, deepEqFields_refl_aux rest b hwf.2
      (fun k' v' hm => h k' v' (List.mem_cons_of_mem _ hm))⟩

end

theorem deepEq_obj_setField {fields : List (String × Json)} {k : String} {c c' : Json}
    (hnd : keysNoDup fields = true) (hwf : wfDocFields fields = true)
    (hl : lookupField fields k = some c) (hd : deepEq c' c = true) :
    deepEq (.obj (setField fields k c')) (.obj fields) = true := by
  simp only [deepEq, Bool.and_eq_true]
  constructor
  · apply deepEqFields_of_all
    intro k₂ v₂ hm
    rcases mem_setField hnd hm with h | ⟨hne, hmem⟩
    · injection h with h1 h2
      subst h1
      subst h2
      exact ⟨c, hl, hd⟩
    · exact ⟨v₂, lookupField_of_mem_nodup hnd hmem,
        deepEq_refl v₂ (wfDocFields_mem hwf hmem)⟩
  · apply keysCovered_of_all
    intro k₂ w hm
    by_cases hk : k₂ = k
    · subst hk
      rw [lookupField_setField_self]
      rfl
    · rw [lookupField_setField_ne hk]
      exact lookupField_isSome_of_mem hm

theorem deepEq_obj_erase_append {pfA : List (String × Json)} {ak : String} {v : Json}
    (hnd : keysNoDup pfA = true) (hwf : wfDocFields pfA = true)
    (hl : lookupField pfA ak = some v) :
    deepEq (.obj (eraseField pfA ak ++ [(ak, v)])) (.obj pfA) = true := by
  simp only [deepEq, Bool.and_eq_true]
  constructor
  · apply deepEqFields_of_all
    intro k₂ v₂ hm
    rcases List.mem_append.1 hm with h | h
    · obtain ⟨hne, hmem⟩ := mem_eraseField_nodup hnd h
      exact ⟨v₂, lookupField_of_mem_nodup hnd hmem,
        deepEq_refl v₂ (wfDocFields_mem hwf hmem)⟩
    · simp only [List.mem_singleton] at h
      injection h with h1 h2
      subst h1
      refine ⟨v, hl, ?_⟩
      rw [h2]
      exact deepEq_refl v (wfDocFields_lookup hwf hl)
  · apply keysCovered_of_all
    intro k₂ w hm
    rw [lookupField_append]
    by_cases hk : k₂ = ak
    · subst hk
      rw [lookupField_eraseField_self hnd]
      simp [lookupField]
    · rw [lookupField_eraseField_ne hk]
      have hs := lookupField_isSome_of_mem hm
      rcases hx : lookupField pfA k₂ with _ | w'
      · rw [hx] at hs
        simp at hs
      · simp

theorem deepEq_setSegs : ∀ (d : Json) (ps : List String) (y y' : Json),
    wfDoc d = true → objPathOk d ps = true → resolveSegs d ps = some y →
    deepEq y' y = true → deepEq (setSegs d ps y') d = true
  | d, [], y, y', hwf, _, hres, hd => by
    simp only [resolveSegs] at hres
    injection hres with hres
    rw [setSegs_nil, hres]
    exact hd
  | d, k :: rest, y, y', hwf, hobj, hres, hd => by
    obtain ⟨fields, child, rfl, hl, hobj'⟩ := objPathOk_not_scalar hobj
    have hres' : resolveSegs child rest = some y := by
      simpa [resolveSegs, hl] using hres
    simp only [wfDoc, Bool.and_eq_true] at hwf
    have ih := deepEq_setSegs child rest y y'
      (wfDocFields_lookup hwf.2 hl) hobj' hres' hd
    simp only [setSegs, hl]
    exact deepEq_obj_setField hwf.1 hwf.2 hl ih

/-! ## Deep equality congruence lemmas

Deep equality is a congruence for the pointer resolver and the semantic
validator: deep-equal well-formed documents are indistinguishable. -/

theorem deepEq_getType {a b : Json} (h : deepEq a b = true) : getType a = getType b := by
  cases a <;> cases b <;> simp [deepEq] at h <;> rfl

theorem deepEq_null_iff {a b : Json} (h : deepEq a b = true) :
    a = Json.null ↔ b = Json.null := by
  cases a <;> cases b <;> simp [deepEq] at h ⊢

theorem mem_of_lookupField {k : String} :
    ∀ {fs : List (String × Json)} {v : Json}, lookupField fs k = some v → (k, v) ∈ fs
  | [], _, h => by simp [lookupField] at h
  | (k₁, w) :: rest, v, h => by
    rw [lookupField] at h
    by_cases hk : k₁ = k
    · rw [if_pos hk] at h
      injection h with h
      subst h
      subst hk
      exact List.mem_cons_self _ _
    · rw [if_neg hk] at h
      exact List.mem_cons_of_mem _ (mem_of_lookupField h)

theorem keysCovered_mem {k : String} {w : Json} :
    ∀ {f₁ f₂ : List (String × Json)}, keysCovered f₁ f₂ = true → (k, w) ∈ f₂ →
      (lookupField f₁ k).isSome = true
  | _, [], _, hm => by simp at hm
  | f₁, (k₂, w₂) :: rest, hc, hm => by
    simp only [keysCovered, Bool.and_eq_true] at hc
    rcases List.mem_cons.1 hm with h | h
    · injection h with h1 h2
      rw [h1]
      exact hc.1
    · exact keysCovered_mem hc.2 h

theorem keysCovered_lookup_none {k : String} {f₁ f₂ : List (String × Json)}
    (hc : keysCovered f₁ f₂ = true) (hn : lookupField f₁ k = none) :
    lookupField f₂ k = none := by
  rcases hw : lookupField f₂ k with _ | w
  · rfl
  · have hs := keysCovered_mem hc (mem_of_lookupField hw)
    rw [hn] at hs
    exact absurd hs (by simp)

theorem deepEqFields_lookup {k : String} :
    ∀ {f₁ f₂ : List (String × Json)} {v₁ : Json},
      deepEqFields f₁ f₂ = true → lookupField f₁ k = some v₁ →
      ∃ v₂, lookupField f₂ k = some v₂ ∧ deepEq v₁ v₂ = true
  | [], _, _, _, hl => by simp [lookupField] at hl
  | (k₁, w) :: rest, f₂, v₁, hd, hl => by
    simp only [deepEqFields, Bool.and_eq_true] at hd
    obtain ⟨hd1, hd2⟩ := hd
    rw [lookupField] at hl
    by_cases hk : k₁ = k
    · rw [if_pos hk] at hl
      injection hl with hl
      subst hl
      rcases hw : lookupField f₂ k₁ with _ | w₂
      · rw [hw] at hd1
        simp at hd1
      · rw [hw] at hd1
        have hd1b : deepEq w w₂ = true := hd1
        exact ⟨w₂, hk ▸ hw, hd1b⟩
    · rw [if_neg hk] at hl
      exact deepEqFields_lookup hd2 hl

theorem deepEqList_length : ∀ {xs ys : List Json}, deepEqList xs ys = true →
    xs.length = ys.length
  | [], [], _ => rfl
  | [], _ :: _, h => by simp [deepEqList] at h
  | _ :: _, [], h => by simp [deepEqList] at h
  | _ :: xs, _ :: ys, h => by
    simp only [deepEqList, Bool.and_eq_true] at h
    simp only [List.length_cons, deepEqList_length h.2]

theorem deepEqList_get :
    ∀ {xs ys : List Json} (i : Nat) {x : Json}, deepEqList xs ys = true →
      xs[i]? = some x → ∃ y, ys[i]? = some y ∧ deepEq x y = true
  | [], _, i, _, _, hg => by simp at hg
  | _ :: _, [], _, _, hd, _ => by simp [deepEqList] at hd
  | x' :: xs', y' :: ys', 0, x, hd, hg => by
    simp only [deepEqList, Bool.and_eq_true] at hd
    simp only [List.getElem?_cons_zero] at hg
    injection hg with hg
    subst hg
    exact ⟨y', by simp, hd.1⟩
  | x' :: xs', y' :: ys', i + 1, x, hd, hg => by
    simp only [deepEqList, Bool.and_eq_true] at hd
    simp only [List.getElem?_cons_succ] at hg
    obtain ⟨y, hy, hxy⟩ := deepEqList_get i hd.2 hg
    exact ⟨y, by simpa using hy, hxy⟩

theorem deepEqList_take (i : Nat) : ∀ {xs ys : List Json}, deepEqList xs ys = true →
    deepEqList (xs.take i) (ys.take i) = true := by
  induction i with
  | zero => intro xs ys _; rfl
  | succ i ih =>
    intro xs ys hd
    cases xs with
    | nil =>
      cases ys with
      | nil => rfl
      | cons y ys2 => simp [deepEqList] at hd
    | cons x xs2 =>
      cases ys with
      | nil => simp [deepEqList] at hd
      | cons y ys2 =>
        simp only [deepEqList, Bool.and_eq_true] at hd
        simp only [List.take_succ_cons, deepEqList, Bool.and_eq_true]
        exact ⟨hd.1, ih hd.2⟩

theorem deepEqList_drop (i : Nat) : ∀ {xs ys : List Json}, deepEqList xs ys = true →
    deepEqList (xs.drop i) (ys.drop i) = true := by
  induction i with
  | zero => intro xs ys hd; simpa using hd
  | succ i ih =>
    intro xs ys hd
    cases xs with
    | nil =>
      cases ys with
      | nil => rfl
      | cons y ys2 => simp [deepEqList] at hd
    | cons x xs2 =>
      cases ys with
      | nil => simp [deepEqList] at hd
      | cons y ys2 =>
        simp only [deepEqList, Bool.and_eq_true] at hd
        simp only [List.drop_succ_cons]
        exact ih hd.2

theorem deepEqList_append :
    ∀ {as bs cs ds : List Json}, deepEqList as bs = true → deepEqList cs ds = true →
      deepEqList (as ++ cs) (bs ++ ds) = true
  | [], [], _, _, _, h2 => by simpa using h2
  | [], _ :: _, _, _, h1, _ => by simp [deepEqList] at h1
  | _ :: _, [], _, _, h1, _ => by simp [deepEqList] at h1
  | a :: as, b :: bs, cs, ds, h1, h2 => by
    simp only [deepEqList, Bool.and_eq_true] at h1
    simp only [List.cons_append, deepEqList, Bool.and_eq_true]
    exact ⟨h1.1, deepEqList_append h1.2 h2⟩

theorem deepEqList_set (i : Nat) {v₁ v₂ : Json} (hv : deepEq v₁ v₂ = true) :
    ∀ {xs ys : List Json}, deepEqList xs ys = true →
      deepEqList (xs.set i v₁) (ys.set i v₂) = true := by
  induction i with
  | zero =>
    intro xs ys hd
    cases xs with
    | nil =>
      cases ys with
      | nil => rfl
      | cons y ys2 => simp [deepEqList] at hd
    | cons x xs2 =>
      cases ys with
      | nil => simp [deepEqList] at hd
      | cons y ys2 =>
        simp only [deepEqList, Bool.and_eq_true] at hd
        simp only [List.set_cons_zero, deepEqList, Bool.and_eq_true]
        exact ⟨hv, hd.2⟩
  | succ i ih =>
    intro xs ys hd
    cases xs with
    | nil =>
      cases ys with
      | nil => rfl
      | cons y ys2 => simp [deepEqList] at hd
    | cons x xs2 =>
      cases ys with
      | nil => simp [deepEqList] at hd
      | cons y ys2 =>
        simp only [deepEqList, Bool.and_eq_true] at hd
        simp only [List.set_cons_succ, deepEqList, Bool.and_eq_true]
        exact ⟨hd.1, ih hd.2⟩

theorem resolveSegs_congr : ∀ (segs : List String) (d₁ d₂ : Json),
    wfDoc d₁ = true → wfDoc d₂ = true → deepEq d₁ d₂ = true →
    (resolveSegs d₁ segs = none ∧ resolveSegs d₂ segs = none)
    ∨ (∃ v₁ v₂, resolveSegs d₁ segs = some v₁ ∧ resolveSegs d₂ segs = some v₂
        ∧ deepEq v₁ v₂ = true ∧ wfDoc v₁ = true ∧ wfDoc v₂ = true)
  | [], d₁, d₂, hw₁, hw₂, hd =>
    Or.inr ⟨d₁, d₂, by cases d₁ <;> rfl, by cases d₂ <;> rfl, hd, hw₁, hw₂⟩
  | k :: rest, .null, d₂, _, _, hd => by
    cases d₂ <;> simp [deepEq] at hd
    exact Or.inl ⟨rfl, rfl⟩
  | k :: rest, .bool x, d₂, _, _, hd => by
    cases d₂ <;> simp [deepEq] at hd
    exact Or.inl ⟨rfl, rfl⟩
  | k :: rest, .num x, d₂, _, _, hd => by
    cases d₂ <;> simp [deepEq] at hd
    exact Or.inl ⟨rfl, rfl⟩
  | k :: rest, .str x, d₂, _, _, hd => by
    cases d₂ <;> simp [deepEq] at hd
    exact Or.inl ⟨rfl, rfl⟩
  | k :: rest, .arr xs, d₂, hw₁, hw₂, hd => by
    cases d₂ with
    | arr ys =>
      rcases hi : parseIndex k with _ | i
      · exact Or.inl ⟨by simp [resolveSegs, hi], by simp [resolveSegs, hi]⟩
      · simp only [deepEq] at hd
        simp only [wfDoc] at hw₁ hw₂
        rcases hg₁ : xs[i]? with _ | c₁
        · have hlen := deepEqList_length hd
          have hg₂ : ys[i]? = none := by
            rw [List.getElem?_eq_none_iff] at hg₁ ⊢
            omega
          exact Or.inl ⟨by simp [resolveSegs, hi, hg₁], by simp [resolveSegs, hi, hg₂]⟩
        · obtain ⟨c₂, hg₂, hc⟩ := deepEqList_get i hd hg₁
          have hwc₁ := wfDocList_get hw₁ hg₁
          have hwc₂ := wfDocList_get hw₂ hg₂
          rcases resolveSegs_congr rest c₁ c₂ hwc₁ hwc₂ hc with
            ⟨h1, h2⟩ | ⟨v₁, v₂, h1, h2, h3, h4, h5⟩
          · exact Or.inl ⟨by simp [resolveSegs, hi, hg₁, h1],
              by simp [resolveSegs, hi, hg₂, h2]⟩
          · exact Or.inr ⟨v₁, v₂, by simp [resolveSegs, hi, hg₁, h1],
              by simp [resolveSegs, hi, hg₂, h2], h3, h4, h5⟩
    | null => simp [deepEq] at hd
    | bool y => simp [deepEq] at hd
    | num y => simp [deepEq] at hd
    | str y => simp [deepEq] at hd
    | obj g => simp [deepEq] at hd
  | k :: rest, .obj f₁, d₂, hw₁, hw₂, hd => by
    cases d₂ with
    | obj f₂ =>
      simp only [deepEq, Bool.and_eq_true] at hd
      simp only [wfDoc, Bool.and_eq_true] at hw₁ hw₂
      rcases hl₁ : lookupField f₁ k with _ | c₁
      · have hl₂ := keysCovered_lookup_none hd.2 hl₁
        exact Or.inl ⟨by simp [resolveSegs, hl₁], by simp [resolveSegs, hl₂]⟩
      · obtain ⟨c₂, hl₂, hc⟩ := deepEqFields_lookup hd.1 hl₁
        have hwc₁ : wfDoc c₁ = true := wfDocFields_lookup hw₁.2 hl₁
        have hwc₂ : wfDoc c₂ = true := wfDocFields_lookup hw₂.2 hl₂
        rcases resolveSegs_congr rest c₁ c₂ hwc₁ hwc₂ hc with
          ⟨h1, h2⟩ | ⟨v₁, v₂, h1, h2, h3, h4, h5⟩
        · exact Or.inl ⟨by simp [resolveSegs, hl₁, h1], by simp [resolveSegs, hl₂, h2]⟩
        · exact Or.inr ⟨v₁, v₂, by simp [resolveSegs, hl₁, h1],
            by simp [resolveSegs, hl₂, h2], h3, h4, h5⟩
    | null => simp [deepEq] at hd
    | bool y => simp [deepEq] at hd
    | num y => simp [deepEq] at hd
    | str y => simp [deepEq] at hd
    | arr ys => simp [deepEq] at hd

theorem resolve_congr (p : String) {d₁ d₂ : Json}
    (hw₁ : wfDoc d₁ = true) (hw₂ : wfDoc d₂ = true) (hd : deepEq d₁ d₂ = true) :
    (resolve d₁ p = none ∧ resolve d₂ p = none)
    ∨ (∃ v₁ v₂, resolve d₁ p = some v₁ ∧ resolve d₂ p = some v₂
        ∧ deepEq v₁ v₂ = true ∧ wfDoc v₁ = true ∧ wfDoc v₂ = true) :=
  resolveSegs_congr (parsePointer p) d₁ d₂ hw₁ hw₂ hd

theorem pathExists_congr (p : String) {d₁ d₂ : Json}
    (hw₁ : wfDoc d₁ = true) (hw₂ : wfDoc d₂ = true) (hd : deepEq d₁ d₂ = true) :
    pathExists d₁ p = pathExists d₂ p := by
  rcases resolve_congr p hw₁ hw₂ hd with ⟨h1, h2⟩ | ⟨v₁, v₂, h1, h2, _⟩
  · simp [pathExists, h1, h2]
  · simp [pathExists, h1, h2]

theorem parentExists_congr (p : String) {d₁ d₂ : Json}
    (hw₁ : wfDoc d₁ = true) (hw₂ : wfDoc d₂ = true) (hd : deepEq d₁ d₂ = true) :
    parentExists d₁ p = parentExists d₂ p := by
  rw [parentExists, parentExists]
  by_cases h0 : p = "/" ∨ p = ""
  · rw [if_pos h0, if_pos h0]
  · rw [if_neg h0, if_neg h0]
    rcases hpp : pointerParent p with _ | parent
    · simp only [hpp]
    · simp only [hpp]
      by_cases h1 : parent = "/" ∧ (splitSlash p.data).length = 2
      · rw [if_pos h1, if_pos h1]
      · rw [if_neg h1, if_neg h1]
        exact pathExists_congr parent hw₁ hw₂ hd

theorem checkOpSemantics_congr (op : Op) {d₁ d₂ : Json}
    (hw₁ : wfDoc d₁ = true) (hw₂ : wfDoc d₂ = true) (hd : deepEq d₁ d₂ = true) :
    checkOpSemantics d₁ op = checkOpSemantics d₂ op := by
  rw [checkOpSemantics, checkOpSemantics,
    pathExists_congr op.path hw₁ hw₂ hd,
    parentExists_congr op.path hw₁ hw₂ hd,
    pathExists_congr (op.fromPtr.getD "") hw₁ hw₂ hd]
  rcases resolve_congr op.path hw₁ hw₂ hd with
    ⟨hn₁, hn₂⟩ | ⟨c₁, c₂, hs₁, hs₂, hc, hwc₁, hwc₂⟩
  · simp only [hn₁, hn₂]
  · simp only [hs₁, hs₂]
    rcases hv : op.value with _ | v
    · simp only [hv]
    · simp only [hv]
      have hnull := deepEq_null_iff hc
      have hty := deepEq_getType hc
      by_cases hcnd : c₁ ≠ Json.null ∧ v ≠ Json.null ∧ getType c₁ ≠ getType v
      · have hcnd₂ : c₂ ≠ Json.null ∧ v ≠ Json.null ∧ getType c₂ ≠ getType v := by
          refine ⟨fun h => hcnd.1 (hnull.mpr h), hcnd.2.1, ?_⟩
          rw [← hty]
          exact hcnd.2.2
        rw [if_pos hcnd, if_pos hcnd₂, hty]
      · have hcnd₂ : ¬(c₂ ≠ Json.null ∧ v ≠ Json.null ∧ getType c₂ ≠ getType v) := by
          intro h
          exact hcnd ⟨fun hh => h.1 (hnull.mp hh), h.2.1, by rw [hty]; exact h.2.2⟩
        rw [if_neg hcnd, if_neg hcnd₂]

theorem validatePatchSemantics_congr (P : List Op) {d₁ d₂ : Json}
    (hw₁ : wfDoc d₁ = true) (hw₂ : wfDoc d₂ = true) (hd : deepEq d₁ d₂ = true) :
    validatePatchSemantics d₁ P = validatePatchSemantics d₂ P := by
  induction P with
  | nil => rfl
  | cons op rest ih =>
    rw [validatePatchSemantics, validatePatchSemantics,
      checkOpSemantics_congr op hw₁ hw₂ hd]
    rcases hco : checkOpSemantics d₂ op with e | u
    · simp only [hco]
    · simp only [hco]
      exact ih

/-! ## Deep equality is an equivalence on well-formed documents -/

mutual

theorem deepEq_symm : ∀ (a b : Json), wfDoc a = true → wfDoc b = true →
    deepEq a b = true → deepEq b a = true
  | .null, b, _, _, hd => by
    cases b <;> simp [deepEq] at hd ⊢
  | .bool x, b, _, _, hd => by
    cases b <;> simp [deepEq] at hd ⊢
    exact hd.symm
  | .num x, b, _, _, hd => by
    cases b <;> simp [deepEq] at hd ⊢
    exact hd.symm
  | .str x, b, _, _, hd => by
    cases b <;> simp [deepEq] at hd ⊢
    exact hd.symm
  | .arr xs, b, hw₁, hw₂, hd => by
    cases b with
    | arr ys =>
      simp only [deepEq] at hd ⊢
      exact deepEqList_symm xs ys hw₁ hw₂ hd
    | null => simp [deepEq] at hd
    | bool y => simp [deepEq] at hd
    | num y => simp [deepEq] at hd
    | str y => simp [deepEq] at hd
    | obj g => simp [deepEq] at hd
  | .obj f₁, b, hw₁, hw₂, hd => by
    cases b with
    | obj f₂ =>
      simp only [deepEq, Bool.and_eq_true] at hd ⊢
      simp only [wfDoc, Bool.and_eq_true] at hw₁ hw₂
      refine ⟨?_, ?_⟩
      · exact deepEqFields_symm_aux f₂ f₁ f₂ hw₂.1 hw₁.2 hw₂.2 hd.1 hd.2
          (fun p hp => hp)
      · apply keysCovered_of_all
        intro k w hm
        have hl₁ : lookupField f₁ k = some w := lookupField_of_mem_nodup hw₁.1 hm
        obtain ⟨w₂, hl₂, _⟩ := deepEqFields_lookup hd.1 hl₁
        rw [hl₂]
        rfl
    | null => simp [deepEq] at hd
    | bool y => simp [deepEq] at hd
    | num y => simp [deepEq] at hd
    | str y => simp [deepEq] at hd
    | arr ys => simp [deepEq] at hd
termination_by a b _ _ _ => sizeOf b

theorem deepEqList_symm : ∀ (xs ys : List Json), wfDocList xs = true →
    wfDocList ys = true → deepEqList xs ys = true → deepEqList ys xs = true
  | [], [], _, _, _ => rfl
  | [], _ :: _, _, _, hd => by simp [deepEqList] at hd
  | _ :: _, [], _, _, hd => by simp [deepEqList] at hd
  | x :: xs, y :: ys, hw₁, hw₂, hd => by
    simp only [wfDocList, Bool.and_eq_true] at hw₁ hw₂
    simp only [deepEqList, Bool.and_eq_true] at hd ⊢
    exact ⟨deepEq_symm x y hw₁.1 hw₂.1 hd.1, deepEqList_symm xs ys hw₁.2 hw₂.2 hd.2⟩
termination_by xs ys _ _ _ => sizeOf ys

theorem deepEqFields_symm_aux : ∀ (g f₁ f₂ : List (String × Json)),
    keysNoDup f₂ = true →
    wfDocFields f₁ = true → wfDocFields f₂ = true →
    deepEqFields f₁ f₂ = true → keysCovered f₁ f₂ = true →
    (∀ p ∈ g, p ∈ f₂) → deepEqFields g f₁ = true
  | [], _, _, _, _, _, _, _, _ => rfl
  | (k, w₂) :: rest, f₁, f₂, hnd₂, hwf₁, hwf₂, hdf, hkc, hsub => by
    have hmem : (k, w₂) ∈ f₂ := hsub _ (List.mem_cons_self _ _)
    have hl₂ : lookupField f₂ k = some w₂ := lookupField_of_mem_nodup hnd₂ hmem
    have h1 : (lookupField f₁ k).isSome = true := keysCovered_mem hkc hmem
    rcases hw₁ : lookupField f₁ k with _ | w₁
    · rw [hw₁] at h1
      exact absurd h1 (by simp)
    · obtain ⟨w₂a, hw₂a, hdw⟩ := deepEqFields_lookup hdf hw₁
      rw [hl₂] at hw₂a
      injection hw₂a with hw₂a
      subst hw₂a
      have hwfw₁ : wfDoc w₁ = true := wfDocFields_lookup hwf₁ hw₁
      have hwfw₂ : wfDoc w₂ = true := wfDocFields_mem hwf₂ hmem
      have hsym := deepEq_symm w₁ w₂ hwfw₁ hwfw₂ hdw
      simp only [deepEqFields, hw₁, hsym, Bool.true_and]
      exact deepEqFields_symm_aux rest f₁ f₂ hnd₂ hwf₁ hwf₂ hdf hkc
        (fun p hp => hsub p (List.mem_cons_of_mem _ hp))
termination_by g _ _ _ _ _ _ _ _ => sizeOf g

end

mutual

theorem deepEq_trans : ∀ (a b c : Json), wfDoc a = true → wfDoc b = true →
    wfDoc c = true → deepEq a b = true → deepEq b c = true → deepEq a c = true
  | .null, b, c, _, _, _, hab, hbc => by
    cases b with
    | null => exact hbc
    | bool y => simp [deepEq] at hab
    | num y => simp [deepEq] at hab
    | str y => simp [deepEq] at hab
    | arr y => simp [deepEq] at hab
    | obj y => simp [deepEq] at hab
  | .bool x, b, c, _, _, _, hab, hbc => by
    cases b with
    | bool y =>
      cases c with
      | bool z =>
        simp [deepEq] at hab hbc ⊢
        exact hab.trans hbc
      | null => simp [deepEq] at hbc
      | num z => simp [deepEq] at hbc
      | str z => simp [deepEq] at hbc
      | arr z => simp [deepEq] at hbc
      | obj z => simp [deepEq] at hbc
    | null => simp [deepEq] at hab
    | num y => simp [deepEq] at hab
    | str y => simp [deepEq] at hab
    | arr y => simp [deepEq] at hab
    | obj y => simp [deepEq] at hab
  | .num x, b, c, _, _, _, hab, hbc => by
    cases b with
    | num y =>
      cases c with
      | num z =>
        simp [deepEq] at hab hbc ⊢
        exact hab.trans hbc
      | null => simp [deepEq] at hbc
      | bool z => simp [deepEq] at hbc
      | str z => simp [deepEq] at hbc
      | arr z => simp [deepEq] at hbc
      | obj z => simp [deepEq] at hbc
    | null => simp [deepEq] at hab
    | bool y => simp [deepEq] at hab
    | str y => simp [deepEq] at hab
    | arr y => simp [deepEq] at hab
    | obj y => simp [deepEq] at hab
  | .str x, b, c, _, _, _, hab, hbc => by
    cases b with
    | str y =>
      cases c with
      | str z =>
        simp [deepEq] at hab hbc ⊢
        exact hab.trans hbc
      | null => simp [deepEq] at hbc
      | bool z => simp [deepEq] at hbc
      | num z => simp [deepEq] at hbc
      | arr z => simp [deepEq] at hbc
      | obj z => simp [deepEq] at hbc
    | null => simp [deepEq] at hab
    | bool y => simp [deepEq] at hab
    | num y => simp [deepEq] at hab
    | arr y => simp [deepEq] at hab
    | obj y => simp [deepEq] at hab
  | .arr xs, b, c, hw₁, hw₂, hw₃, hab, hbc => by
    cases b with
    | arr ys =>
      cases c with
      | arr zs =>
        simp only [deepEq] at hab hbc ⊢
        simp only [wfDoc] at hw₁ hw₂ hw₃
        exact deepEqList_trans xs ys zs hw₁ hw₂ hw₃ hab hbc
      | null => simp [deepEq] at hbc
      | bool z => simp [deepEq] at hbc
      | num z => simp [deepEq] at hbc
      | str z => simp [deepEq] at hbc
      | obj z => simp [deepEq] at hbc
    | null => simp [deepEq] at hab
    | bool y => simp [deepEq] at hab
    | num y => simp [deepEq] at hab
    | str y => simp [deepEq] at hab
    | obj y => simp [deepEq] at hab
  | .obj f₁, b, c, hw₁, hw₂, hw₃, hab, hbc => by
    cases b with
    | obj f₂ =>
      cases c with
      | obj f₃ =>
        simp only [deepEq, Bool.and_eq_true] at hab hbc ⊢
        simp only [wfDoc, Bool.and_eq_true] at hw₁ hw₂ hw₃
        refine ⟨?_, ?_⟩
        · exact deepEqFields_trans_aux f₁ f₁ f₂ f₃ hw₁.1 hw₁.2 hw₂.2 hw₃.2
            hab.1 hbc.1 (fun p hp => hp)
        · apply keysCovered_of_all
          intro k w hm
          have h2 : (lookupField f₂ k).isSome = true := keysCovered_mem hbc.2 hm
          rcases hl₂ : lookupField f₂ k with _ | w₂
          · rw [hl₂] at h2
            exact absurd h2 (by simp)
          · exact keysCovered_mem hab.2 (mem_of_lookupField hl₂)
      | null => simp [deepEq] at hbc
      | bool z => simp [deepEq] at hbc
      | num z => simp [deepEq] at hbc
      | str z => simp [deepEq] at hbc
      | arr z => simp [deepEq] at hbc
    | null => simp [deepEq] at hab
    | bool y => simp [deepEq] at hab
    | num y => simp [deepEq] at hab
    | str y => simp [deepEq] at hab
    | arr y => simp [deepEq] at hab
termination_by a _ _ _ _ _ _ _ => sizeOf a

theorem deepEqList_trans : ∀ (xs ys zs : List Json), wfDocList xs = true →
    wfDocList ys = true → wfDocList zs = true →
    deepEqList xs ys = true → deepEqList ys zs = true → deepEqList xs zs = true
  | [], [], [], _, _, _, _, _ => rfl
  | [], [], _ :: _, _, _, _, _, hbc => by simp [deepEqList] at hbc
  | [], _ :: _, _, _, _, _, hab, _ => by simp [deepEqList] at hab
  | _ :: _, [], _, _, _, _, hab, _ => by simp [deepEqList] at hab
  | _ :: _, _ :: _, [], _, _, _, _, hbc => by simp [deepEqList] at hbc
  | x :: xs, y :: ys, z :: zs, hw₁, hw₂, hw₃, hab, hbc => by
    simp only [wfDocList, Bool.and_eq_true] at hw₁ hw₂ hw₃
    simp only [deepEqList, Bool.and_eq_true] at hab hbc ⊢
    exact ⟨deepEq_trans x y z hw₁.1 hw₂.1 hw₃.1 hab.1 hbc.1,
      deepEqList_trans xs ys zs hw₁.2 hw₂.2 hw₃.2 hab.2 hbc.2⟩
termination_by xs _ _ _ _ _ _ _ => sizeOf xs

theorem deepEqFields_trans_aux : ∀ (g f₁ f₂ f₃ : List (String × Json)),
    keysNoDup f₁ = true → wfDocFields f₁ = true → wfDocFields f₂ = true →
    wfDocFields f₃ = true →
    deepEqFields f₁ f₂ = true → deepEqFields f₂ f₃ = true →
    (∀ p ∈ g, p ∈ f₁) → deepEqFields g f₃ = true
  | [], _, _, _, _, _, _, _, _, _, _ => rfl
  | (k, v₁) :: rest, f₁, f₂, f₃, hnd₁, hwf₁, hwf₂, hwf₃, h12, h23, hsub => by
    have hmem : (k, v₁) ∈ f₁ := hsub _ (List.mem_cons_self _ _)
    have hl₁ : lookupField f₁ k = some v₁ := lookupField_of_mem_nodup hnd₁ hmem
    obtain ⟨v₂, hl₂, h12v⟩ := deepEqFields_lookup h12 hl₁
    obtain ⟨v₃, hl₃, h23v⟩ := deepEqFields_lookup h23 hl₂
    have hwv₁ : wfDoc v₁ = true := wfDocFields_mem hwf₁ hmem
    have hwv₂ : wfDoc v₂ = true := wfDocFields_lookup hwf₂ hl₂
    have hwv₃ : wfDoc v₃ = true := wfDocFields_lookup hwf₃ hl₃
    have h13 := deepEq_trans v₁ v₂ v₃ hwv₁ hwv₂ hwv₃ h12v h23v
    simp only [deepEqFields, hl₃, h13, Bool.true_and]
    exact deepEqFields_trans_aux rest f₁ f₂ f₃ hnd₁ hwf₁ hwf₂ hwf₃ h12 h23
      (fun p hp => hsub p (List.mem_cons_of_mem _ hp))
termination_by g _ _ _ _ _ _ _ _ _ _ => sizeOf g

end

/-! ## Well-formedness is preserved by the field and list edits -/

theorem wfDocList_mem : ∀ {xs : List Json}, wfDocList xs = true →
    ∀ {x : Json}, x ∈ xs → wfDoc x = true
  | [], _, _, hm => absurd hm (by simp)
  | x :: xs, hw, y, hm => by
    simp only [wfDocList, Bool.and_eq_true] at hw
    rcases List.mem_cons.1 hm with h | h
    · rw [h]
      exact hw.1
    · exact wfDocList_mem hw.2 h

theorem wfDocList_of_all : ∀ {xs : List Json}, (∀ x ∈ xs, wfDoc x = true) →
    wfDocList xs = true
  | [], _ => rfl
  | x :: xs, h => by
    simp only [wfDocList, Bool.and_eq_true]
    exact ⟨h x (List.mem_cons_self _ _),
      wfDocList_of_all (fun y hy => h y (List.mem_cons_of_mem _ hy))⟩

theorem keysNoDup_setField {k : String} {v : Json} :
    ∀ {fs : List (String × Json)}, keysNoDup fs = true →
      keysNoDup (setField fs k v) = true
  | [], _ => by simp [setField, keysNoDup, lookupField]
  | (k₁, w) :: rest, h => by
    obtain ⟨h1, h2⟩ := keysNoDup_cons h
    by_cases hk : k₁ = k
    · subst hk
      rw [setField, if_pos rfl]
      simp only [keysNoDup, Bool.and_eq_true]
      exact ⟨by simp [h1], h2⟩
    · rw [setField, if_neg hk]
      simp only [keysNoDup, Bool.and_eq_true]
      refine ⟨?_, keysNoDup_setField h2⟩
      simp [lookupField_setField_ne hk rest v, h1]

theorem keysNoDup_eraseField {k : String} :
    ∀ {fs : List (String × Json)}, keysNoDup fs = true →
      keysNoDup (eraseField fs k) = true
  | [], _ => rfl
  | (k₁, w) :: rest, h => by
    obtain ⟨h1, h2⟩ := keysNoDup_cons h
    by_cases hk : k₁ = k
    · rw [eraseField, if_pos hk]
      exact h2
    · rw [eraseField, if_neg hk]
      simp only [keysNoDup, Bool.and_eq_true]
      refine ⟨?_, keysNoDup_eraseField h2⟩
      simp [lookupField_eraseField_ne hk rest, h1]

theorem wfDocFields_setField {k : String} {v : Json} (hv : wfDoc v = true) :
    ∀ {fs : List (String × Json)}, wfDocFields fs = true →
      wfDocFields (setField fs k v) = true
  | [], _ => by simp [setField, wfDocFields, hv]
  | (k₁, w) :: rest, h => by
    simp only [wfDocFields, Bool.and_eq_true] at h
    by_cases hk : k₁ = k
    · rw [setField, if_pos hk]
      simp only [wfDocFields, Bool.and_eq_true]
      exact ⟨hv, h.2⟩
    · rw [setField, if_neg hk]
      simp only [wfDocFields, Bool.and_eq_true]
      exact ⟨h.1, wfDocFields_setField hv h.2⟩

theorem wfDocFields_eraseField {k : String} :
    ∀ {fs : List (String × Json)}, wfDocFields fs = true →
      wfDocFields (eraseField fs k) = true
  | [], _ => rfl
  | (k₁, w) :: rest, h => by
    simp only [wfDocFields, Bool.and_eq_true] at h
    by_cases hk : k₁ = k
    · rw [eraseField, if_pos hk]
      exact h.2
    · rw [eraseField, if_neg hk]
      simp only [wfDocFields, Bool.and_eq_true]
      exact ⟨h.1, wfDocFields_eraseField h.2⟩

/-! ## Deep equality of objects through lookups -/

theorem deepEq_obj_of_lookup {f₁ f₂ : List (String × Json)}
    (hnd₁ : keysNoDup f₁ = true)
    (h : ∀ k₂, (match lookupField f₁ k₂, lookupField f₂ k₂ with
      | some w₁, some w₂ => deepEq w₁ w₂ = true
      | none, none => True
      | _, _ => False)) :
    deepEq (.obj f₁) (.obj f₂) = true := by
  simp only [deepEq, Bool.and_eq_true]
  constructor
  · apply deepEqFields_of_all
    intro k v hm
    have hl₁ : lookupField f₁ k = some v := lookupField_of_mem_nodup hnd₁ hm
    have hk := h k
    rw [hl₁] at hk
    rcases hl₂ : lookupField f₂ k with _ | w₂
    · rw [hl₂] at hk
      exact (show False from hk).elim
    · rw [hl₂] at hk
      exact ⟨w₂, rfl, show deepEq v w₂ = true from hk⟩
  · apply keysCovered_of_all
    intro k w hm
    have hs₂ : (lookupField f₂ k).isSome = true := lookupField_isSome_of_mem hm
    have hk := h k
    rcases hl₁ : lookupField f₁ k with _ | w₁
    · rw [hl₁] at hk
      rcases hl₂ : lookupField f₂ k with _ | w₂
      · rw [hl₂] at hs₂
        exact absurd hs₂ (by simp)
      · rw [hl₂] at hk
        exact (show False from hk).elim
    · simp [hl₁]

theorem deepEq_obj_lookup {f₁ f₂ : List (String × Json)}
    (hd : deepEq (.obj f₁) (.obj f₂) = true) (k : String) :
    (lookupField f₁ k = none ∧ lookupField f₂ k = none)
    ∨ (∃ w₁ w₂, lookupField f₁ k = some w₁ ∧ lookupField f₂ k = some w₂
        ∧ deepEq w₁ w₂ = true) := by
  simp only [deepEq, Bool.and_eq_true] at hd
  rcases hl₁ : lookupField f₁ k with _ | w₁
  · exact Or.inl ⟨rfl, keysCovered_lookup_none hd.2 hl₁⟩
  · obtain ⟨w₂, hl₂, hw⟩ := deepEqFields_lookup hd.1 hl₁
    exact Or.inr ⟨w₁, w₂, rfl, hl₂, hw⟩

/-! ## The applicator respects deep equality -/

theorem insertIntoParent_rel (k : String) {v₁ v₂ : Json}
    (hwv₁ : wfDoc v₁ = true) (hwv₂ : wfDoc v₂ = true) (hv : deepEq v₁ v₂ = true) :
    ∀ {d₁ d₂ : Json}, wfDoc d₁ = true → wfDoc d₂ = true → deepEq d₁ d₂ = true →
      applyRel (insertIntoParent k v₁ d₁) (insertIntoParent k v₂ d₂) := by
  intro d₁ d₂ hw₁ hw₂ hd
  cases d₁ with
  | obj f₁ =>
    cases d₂ with
    | obj f₂ =>
      simp only [wfDoc, Bool.and_eq_true] at hw₁ hw₂
      refine Or.inr ⟨.obj (setField f₁ k v₁), .obj (setField f₂ k v₂), rfl, rfl, ?_, ?_, ?_⟩
      · simp only [wfDoc, Bool.and_eq_true]
        exact ⟨keysNoDup_setField hw₁.1, wfDocFields_setField hwv₁ hw₁.2⟩
      · simp only [wfDoc, Bool.and_eq_true]
        exact ⟨keysNoDup_setField hw₂.1, wfDocFields_setField hwv₂ hw₂.2⟩
      · apply deepEq_obj_of_lookup (keysNoDup_setField hw₁.1)
        intro k₂
        by_cases hk : k₂ = k
        · subst hk
          rw [lookupField_setField_self, lookupField_setField_self]
          exact hv
        · rw [lookupField_setField_ne hk, lookupField_setField_ne hk]
          rcases deepEq_obj_lookup hd k₂ with ⟨h1, h2⟩ | ⟨w₁, w₂, h1, h2, hw⟩
          · rw [h1, h2]
            exact trivial
          · rw [h1, h2]
            exact hw
    | null => simp [deepEq] at hd
    | bool y => simp [deepEq] at hd
    | num y => simp [deepEq] at hd
    | str y => simp [deepEq] at hd
    | arr ys => simp [deepEq] at hd
  | arr xs =>
    cases d₂ with
    | arr ys =>
      simp only [wfDoc] at hw₁ hw₂
      simp only [deepEq] at hd
      by_cases hks : k = "-"
      · subst hks
        refine Or.inr ⟨.arr (xs ++ [v₁]), .arr (ys ++ [v₂]), ?_, ?_, ?_, ?_, ?_⟩
        · simp [insertIntoParent]
        · simp [insertIntoParent]
        · simp only [wfDoc]
          refine wfDocList_of_all (fun x hx => ?_)
          rcases List.mem_append.1 hx with h | h
          · exact wfDocList_mem hw₁ h
          · have hxv : x = v₁ := by simpa using h
            rw [hxv]
            exact hwv₁
        · simp only [wfDoc]
          refine wfDocList_of_all (fun x hx => ?_)
          rcases List.mem_append.1 hx with h | h
          · exact wfDocList_mem hw₂ h
          · have hxv : x = v₂ := by simpa using h
            rw [hxv]
            exact hwv₂
        · simp only [deepEq]
          exact deepEqList_append hd (by simp [deepEqList, hv])
      · rcases hi : parseIndex k with _ | i
        · refine Or.inl ⟨.badArrayIndex k, ?_, ?_⟩
          · simp [insertIntoParent, hks, hi]
          · simp [insertIntoParent, hks, hi]
        · have hlen : xs.length = ys.length := deepEqList_length hd
          by_cases hle : i ≤ xs.length
          · refine Or.inr ⟨.arr (xs.take i ++ v₁ :: xs.drop i),
              .arr (ys.take i ++ v₂ :: ys.drop i), ?_, ?_, ?_, ?_, ?_⟩
            · simp [insertIntoParent, hks, hi, hle]
            · simp [insertIntoParent, hks, hi, show i ≤ ys.length from hlen ▸ hle]
            · simp only [wfDoc]
              refine wfDocList_of_all (fun x hx => ?_)
              rcases List.mem_append.1 hx with h | h
              · exact wfDocList_mem hw₁ (List.mem_of_mem_take h)
              · rcases List.mem_cons.1 h with h | h
                · rw [h]
                  exact hwv₁
                · exact wfDocList_mem hw₁ (List.mem_of_mem_drop h)
            · simp only [wfDoc]
              refine wfDocList_of_all (fun x hx => ?_)
              rcases List.mem_append.1 hx with h | h
              · exact wfDocList_mem hw₂ (List.mem_of_mem_take h)
              · rcases List.mem_cons.1 h with h | h
                · rw [h]
                  exact hwv₂
                · exact wfDocList_mem hw₂ (List.mem_of_mem_drop h)
            · simp only [deepEq]
              refine deepEqList_append (deepEqList_take i hd) ?_
              simp only [deepEqList, Bool.and_eq_true]
              exact ⟨hv, deepEqList_drop i hd⟩
          · refine Or.inl ⟨.indexOutOfBounds k, ?_, ?_⟩
            · simp [insertIntoParent, hks, hi, hle]
            · simp [insertIntoParent, hks, hi, show ¬i ≤ ys.length from hlen ▸ hle]
    | null => simp [deepEq] at hd
    | bool y => simp [deepEq] at hd
    | num y => simp [deepEq] at hd
    | str y => simp [deepEq] at hd
    | obj g => simp [deepEq] at hd
  | null =>
    cases d₂ with
    | null => exact Or.inl ⟨.pathUnresolvable k, rfl, rfl⟩
    | bool y => simp [deepEq] at hd
    | num y => simp [deepEq] at hd
    | str y => simp [deepEq] at hd
    | arr y => simp [deepEq] at hd
    | obj y => simp [deepEq] at hd
  | bool x =>
    cases d₂ with
    | bool y => exact Or.inl ⟨.pathUnresolvable k, rfl, rfl⟩
    | null => simp [deepEq] at hd
    | num y => simp [deepEq] at hd
    | str y => simp [deepEq] at hd
    | arr y => simp [deepEq] at hd
    | obj y => simp [deepEq] at hd
  | num x =>
    cases d₂ with
    | num y => exact Or.inl ⟨.pathUnresolvable k, rfl, rfl⟩
    | null => simp [deepEq] at hd
    | bool y => simp [deepEq] at hd
    | str y => simp [deepEq] at hd
    | arr y => simp [deepEq] at hd
    | obj y => simp [deepEq] at hd
  | str x =>
    cases d₂ with
    | str y => exact Or.inl ⟨.pathUnresolvable k, rfl, rfl⟩
    | null => simp [deepEq] at hd
    | bool y => simp [deepEq] at hd
    | num y => simp [deepEq] at hd
    | arr y => simp [deepEq] at hd
    | obj y => simp [deepEq] at hd

theorem removeFromParent_rel (k : String) :
    ∀ {d₁ d₂ : Json}, wfDoc d₁ = true → wfDoc d₂ = true → deepEq d₁ d₂ = true →
      applyRel (removeFromParent k d₁) (removeFromParent k d₂) := by
  intro d₁ d₂ hw₁ hw₂ hd
  cases d₁ with
  | obj f₁ =>
    cases d₂ with
    | obj f₂ =>
      simp only [wfDoc, Bool.and_eq_true] at hw₁ hw₂
      rcases deepEq_obj_lookup hd k with ⟨hl₁, hl₂⟩ | ⟨w₁, w₂, hl₁, hl₂, hw⟩
      · refine Or.inl ⟨.pathUnresolvable k, ?_, ?_⟩
        · simp [removeFromParent, hl₁]
        · simp [removeFromParent, hl₂]
      · refine Or.inr ⟨.obj (eraseField f₁ k), .obj (eraseField f₂ k), ?_, ?_, ?_, ?_, ?_⟩
        · simp [removeFromParent, hl₁]
        · simp [removeFromParent, hl₂]
        · simp only [wfDoc, Bool.and_eq_true]
          exact ⟨keysNoDup_eraseField hw₁.1, wfDocFields_eraseField hw₁.2⟩
        · simp only [wfDoc, Bool.and_eq_true]
          exact ⟨keysNoDup_eraseField hw₂.1, wfDocFields_eraseField hw₂.2⟩
        · apply deepEq_obj_of_lookup (keysNoDup_eraseField hw₁.1)
          intro k₂
          by_cases hk : k₂ = k
          · subst hk
            rw [lookupField_eraseField_self hw₁.1, lookupField_eraseField_self hw₂.1]
            exact trivial
          · rw [lookupField_eraseField_ne hk, lookupField_eraseField_ne hk]
            rcases deepEq_obj_lookup hd k₂ with ⟨h1, h2⟩ | ⟨w₁a, w₂a, h1, h2, hwa⟩
            · rw [h1, h2]
              exact trivial
            · rw [h1, h2]
              exact hwa
    | null => simp [deepEq] at hd
    | bool y => simp [deepEq] at hd
    | num y => simp [deepEq] at hd
    | str y => simp [deepEq] at hd
    | arr ys => simp [deepEq] at hd
  | arr xs =>
    cases d₂ with
    | arr ys =>
      simp only [wfDoc] at hw₁ hw₂
      simp only [deepEq] at hd
      rcases hi : parseIndex k with _ | i
      · refine Or.inl ⟨.badArrayIndex k, ?_, ?_⟩
        · simp [removeFromParent, hi]
        · simp [removeFromParent, hi]
      · have hlen : xs.length = ys.length := deepEqList_length hd
        by_cases hlt : i < xs.length
        · refine Or.inr ⟨.arr (xs.take i ++ xs.drop (i + 1)),
            .arr (ys.take i ++ ys.drop (i + 1)), ?_, ?_, ?_, ?_, ?_⟩
          · simp [removeFromParent, hi, hlt]
          · simp [removeFromParent, hi, show i < ys.length from hlen ▸ hlt]
          · simp only [wfDoc]
            refine wfDocList_of_all (fun x hx => ?_)
            rcases List.mem_append.1 hx with h | h
            · exact wfDocList_mem hw₁ (List.mem_of_mem_take h)
            · exact wfDocList_mem hw₁ (List.mem_of_mem_drop h)
          · simp only [wfDoc]
            refine wfDocList_of_all (fun x hx => ?_)
            rcases List.mem_append.1 hx with h | h
            · exact wfDocList_mem hw₂ (List.mem_of_mem_take h)
            · exact wfDocList_mem hw₂ (List.mem_of_mem_drop h)
          · simp only [deepEq]
            exact deepEqList_append (deepEqList_take i hd) (deepEqList_drop (i + 1) hd)
        · refine Or.inl ⟨.pathUnresolvable k, ?_, ?_⟩
          · simp [removeFromParent, hi, hlt]
          · simp [removeFromParent, hi, show ¬i < ys.length from hlen ▸ hlt]
    | null => simp [deepEq] at hd
    | bool y => simp [deepEq] at hd
    | num y => simp [deepEq] at hd
    | str y => simp [deepEq] at hd
    | obj g => simp [deepEq] at hd
  | null =>
    cases d₂ with
    | null => exact Or.inl ⟨.pathUnresolvable k, rfl, rfl⟩
    | bool y => simp [deepEq] at hd
    | num y => simp [deepEq] at hd
    | str y => simp [deepEq] at hd
    | arr y => simp [deepEq] at hd
    | obj y => simp [deepEq] at hd
  | bool x =>
    cases d₂ with
    | bool y => exact Or.inl ⟨.pathUnresolvable k, rfl, rfl⟩
    | null => simp [deepEq] at hd
    | num y => simp [deepEq] at hd
    | str y => simp [deepEq] at hd
    | arr y => simp [deepEq] at hd
    | obj y => simp [deepEq] at hd
  | num x =>
    cases d₂ with
    | num y => exact Or.inl ⟨.pathUnresolvable k, rfl, rfl⟩
    | null => simp [deepEq] at hd
    | bool y => simp [deepEq] at hd
    | str y => simp [deepEq] at hd
    | arr y => simp [deepEq] at hd
    | obj y => simp [deepEq] at hd
  | str x =>
    cases d₂ with
    | str y => exact Or.inl ⟨.pathUnresolvable k, rfl, rfl⟩
    | null => simp [deepEq] at hd
    | bool y => simp [deepEq] at hd
    | num y => simp [deepEq] at hd
    | arr y => simp [deepEq] at hd
    | obj y => simp [deepEq] at hd

theorem updAt_rel :
    ∀ (segs : List String) {d₁ d₂ : Json} {f₁ f₂ : Json → Except EngineError Json},
      wfDoc d₁ = true → wfDoc d₂ = true → deepEq d₁ d₂ = true →
      (∀ c₁ c₂, wfDoc c₁ = true → wfDoc c₂ = true → deepEq c₁ c₂ = true →
        applyRel (f₁ c₁) (f₂ c₂)) →
      applyRel (updAt d₁ segs f₁) (updAt d₂ segs f₂)
  | [], d₁, d₂, f₁, f₂, hw₁, hw₂, hd, hf => by
    have e₁ : updAt d₁ [] f₁ = f₁ d₁ := by cases d₁ <;> rfl
    have e₂ : updAt d₂ [] f₂ = f₂ d₂ := by cases d₂ <;> rfl
    rw [e₁, e₂]
    exact hf d₁ d₂ hw₁ hw₂ hd
  | k :: rest, d₁, d₂, f₁, f₂, hw₁, hw₂, hd, hf => by
    cases d₁ with
    | obj fs₁ =>
      cases d₂ with
      | obj fs₂ =>
        simp only [wfDoc, Bool.and_eq_true] at hw₁ hw₂
        rcases deepEq_obj_lookup hd k with ⟨hl₁, hl₂⟩ | ⟨c₁, c₂, hl₁, hl₂, hc⟩
        · refine Or.inl ⟨.pathUnresolvable k, ?_, ?_⟩
          · simp [updAt, hl₁]
          · simp [updAt, hl₂]
        · have hwc₁ := wfDocFields_lookup hw₁.2 hl₁
          have hwc₂ := wfDocFields_lookup hw₂.2 hl₂
          rcases updAt_rel rest hwc₁ hwc₂ hc hf with
            ⟨e, he₁, he₂⟩ | ⟨r₁, r₂, hr₁, hr₂, hwr₁, hwr₂, hrr⟩
          · refine Or.inl ⟨e, ?_, ?_⟩
            · simp [updAt, hl₁, he₁]
            · simp [updAt, hl₂, he₂]
          · refine Or.inr ⟨.obj (setField fs₁ k r₁), .obj (setField fs₂ k r₂),
              by simp [updAt, hl₁, hr₁], by simp [updAt, hl₂, hr₂], ?_, ?_, ?_⟩
            · simp only [wfDoc, Bool.and_eq_true]
              exact ⟨keysNoDup_setField hw₁.1, wfDocFields_setField hwr₁ hw₁.2⟩
            · simp only [wfDoc, Bool.and_eq_true]
              exact ⟨keysNoDup_setField hw₂.1, wfDocFields_setField hwr₂ hw₂.2⟩
            · apply deepEq_obj_of_lookup (keysNoDup_setField hw₁.1)
              intro k₂
              by_cases hk : k₂ = k
              · subst hk
                rw [lookupField_setField_self, lookupField_setField_self]
                exact hrr
              · rw [lookupField_setField_ne hk, lookupField_setField_ne hk]
                rcases deepEq_obj_lookup hd k₂ with ⟨h1, h2⟩ | ⟨w₁, w₂, h1, h2, hw⟩
                · rw [h1, h2]
                  exact trivial
                · rw [h1, h2]
                  exact hw
      | null => simp [deepEq] at hd
      | bool y => simp [deepEq] at hd
      | num y => simp [deepEq] at hd
      | str y => simp [deepEq] at hd
      | arr ys => simp [deepEq] at hd
    | arr xs =>
      cases d₂ with
      | arr ys =>
        simp only [wfDoc] at hw₁ hw₂
        simp only [deepEq] at hd
        rcases hi : parseIndex k with _ | i
        · refine Or.inl ⟨.badArrayIndex k, ?_, ?_⟩
          · simp [updAt, hi]
          · simp [updAt, hi]
        · rcases hg₁ : xs[i]? with _ | c₁
          · have hlen := deepEqList_length hd
            have hg₂ : ys[i]? = none := by
              rw [List.getElem?_eq_none_iff] at hg₁ ⊢
              omega
            refine Or.inl ⟨.pathUnresolvable k, ?_, ?_⟩
            · simp [updAt, hi, hg₁]
            · simp [updAt, hi, hg₂]
          · obtain ⟨c₂, hg₂, hc⟩ := deepEqList_get i hd hg₁
            have hwc₁ := wfDocList_get hw₁ hg₁
            have hwc₂ := wfDocList_get hw₂ hg₂
            rcases updAt_rel rest hwc₁ hwc₂ hc hf with
              ⟨e, he₁, he₂⟩ | ⟨r₁, r₂, hr₁, hr₂, hwr₁, hwr₂, hrr⟩
            · refine Or.inl ⟨e, ?_, ?_⟩
              · simp [updAt, hi, hg₁, he₁]
              · simp [updAt, hi, hg₂, he₂]
            · refine Or.inr ⟨.arr (xs.set i r₁), .arr (ys.set i r₂),
                by simp [updAt, hi, hg₁, hr₁], by simp [updAt, hi, hg₂, hr₂], ?_, ?_, ?_⟩
              · simp only [wfDoc]
                refine wfDocList_of_all (fun x hx => ?_)
                rcases List.mem_or_eq_of_mem_set hx with h | h
                · exact wfDocList_mem hw₁ h
                · rw [h]
                  exact hwr₁
              · simp only [wfDoc]
                refine wfDocList_of_all (fun x hx => ?_)
                rcases List.mem_or_eq_of_mem_set hx with h | h
                · exact wfDocList_mem hw₂ h
                · rw [h]
                  exact hwr₂
              · simp only [deepEq]
                exact deepEqList_set i hrr hd
      | null => simp [deepEq] at hd
      | bool y => simp [deepEq] at hd
      | num y => simp [deepEq] at hd
      | str y => simp [deepEq] at hd
      | obj g => simp [deepEq] at hd
    | null =>
      cases d₂ with
      | null => exact Or.inl ⟨.pathUnresolvable k, rfl, rfl⟩
      | bool y => simp [deepEq] at hd
      | num y => simp [deepEq] at hd
      | str y => simp [deepEq] at hd
      | arr y => simp [deepEq] at hd
      | obj y => simp [deepEq] at hd
    | bool x =>
      cases d₂ with
      | bool y => exact Or.inl ⟨.pathUnresolvable k, rfl, rfl⟩
      | null => simp [deepEq] at hd
      | num y => simp [deepEq] at hd
      | str y => simp [deepEq] at hd
      | arr y => simp [deepEq] at hd
      | obj y => simp [deepEq] at hd
    | num x =>
      cases d₂ with
      | num y => exact Or.inl ⟨.pathUnresolvable k, rfl, rfl⟩
      | null => simp [deepEq] at hd
      | bool y => simp [deepEq] at hd
      | str y => simp [deepEq] at hd
      | arr y => simp [deepEq] at hd
      | obj y => simp [deepEq] at hd
    | str x =>
      cases d₂ with
      | str y => exact Or.inl ⟨.pathUnresolvable k, rfl, rfl⟩
      | null => simp [deepEq] at hd
      | bool y => simp [deepEq] at hd
      | num y => simp [deepEq] at hd
      | arr y => simp [deepEq] at hd
      | obj y => simp [deepEq] at hd

theorem addAt_rel (segs : List String) {v₁ v₂ : Json}
    (hwv₁ : wfDoc v₁ = true) (hwv₂ : wfDoc v₂ = true) (hv : deepEq v₁ v₂ = true)
    {d₁ d₂ : Json} (hw₁ : wfDoc d₁ = true) (hw₂ : wfDoc d₂ = true)
    (hd : deepEq d₁ d₂ = true) :
    applyRel (addAt d₁ segs v₁) (addAt d₂ segs v₂) := by
  rw [addAt, addAt]
  rcases hl : segs.getLast? with _ | k
  · simp only [hl]
    exact Or.inr ⟨v₁, v₂, rfl, rfl, hwv₁, hwv₂, hv⟩
  · simp only [hl]
    exact updAt_rel segs.dropLast hw₁ hw₂ hd
      (fun c₁ c₂ hwc₁ hwc₂ hc => insertIntoParent_rel k hwv₁ hwv₂ hv hwc₁ hwc₂ hc)

theorem removeAt_rel (segs : List String) {d₁ d₂ : Json}
    (hw₁ : wfDoc d₁ = true) (hw₂ : wfDoc d₂ = true) (hd : deepEq d₁ d₂ = true) :
    applyRel (removeAt d₁ segs) (removeAt d₂ segs) := by
  rw [removeAt, removeAt]
  rcases hl : segs.getLast? with _ | k
  · simp only [hl]
    exact Or.inl ⟨.pathUnresolvable "", rfl, rfl⟩
  · simp only [hl]
    exact updAt_rel segs.dropLast hw₁ hw₂ hd
      (fun c₁ c₂ hwc₁ hwc₂ hc => removeFromParent_rel k hwc₁ hwc₂ hc)

theorem replaceAt_rel (segs : List String) {v₁ v₂ : Json}
    (hwv₁ : wfDoc v₁ = true) (hwv₂ : wfDoc v₂ = true) (hv : deepEq v₁ v₂ = true)
    {d₁ d₂ : Json} (hw₁ : wfDoc d₁ = true) (hw₂ : wfDoc d₂ = true)
    (hd : deepEq d₁ d₂ = true) :
    applyRel (replaceAt d₁ segs v₁) (replaceAt d₂ segs v₂) := by
  rw [replaceAt, replaceAt]
  exact updAt_rel segs hw₁ hw₂ hd
    (fun c₁ c₂ _ _ _ => Or.inr ⟨v₁, v₂, rfl, rfl, hwv₁, hwv₂, hv⟩)

theorem testAt_rel (segs : List String) (ps : String) {v : Json} (hwv : wfDoc v = true)
    {d₁ d₂ : Json} (hw₁ : wfDoc d₁ = true) (hw₂ : wfDoc d₂ = true)
    (hd : deepEq d₁ d₂ = true) :
    applyRel (testAt d₁ segs ps v) (testAt d₂ segs ps v) := by
  rw [testAt, testAt]
  rcases resolveSegs_congr segs d₁ d₂ hw₁ hw₂ hd with
    ⟨h1, h2⟩ | ⟨c₁, c₂, h1, h2, hc, hwc₁, hwc₂⟩
  · simp only [h1, h2]
    exact Or.inl ⟨.pathUnresolvable ps, rfl, rfl⟩
  · simp only [h1, h2]
    have hiff : deepEq c₁ v = deepEq c₂ v := by
      by_cases h : deepEq c₁ v = true
      · rw [h]
        exact (deepEq_trans c₂ c₁ v hwc₂ hwc₁ hwv
          (deepEq_symm c₁ c₂ hwc₁ hwc₂ hc) h).symm
      · have h2x : ¬deepEq c₂ v = true := by
          intro hx
          exact h (deepEq_trans c₁ c₂ v hwc₁ hwc₂ hwv hc hx)
        simp only [Bool.not_eq_true] at h h2x
        rw [h, h2x]
    rw [hiff]
    by_cases hev : deepEq c₂ v = true
    · rw [if_pos hev, if_pos hev]
      exact Or.inr ⟨d₁, d₂, rfl, rfl, hw₁, hw₂, hd⟩
    · rw [if_neg hev, if_neg hev]
      exact Or.inl ⟨.testFailed ps, rfl, rfl⟩

theorem applyOp_rel (op : Op) (hov : Option.all wfDoc op.value = true)
    {d₁ d₂ : Json} (hw₁ : wfDoc d₁ = true) (hw₂ : wfDoc d₂ = true)
    (hd : deepEq d₁ d₂ = true) :
    applyRel (applyOp d₁ op) (applyOp d₂ op) := by
  rcases op with ⟨k, path, fp, val⟩
  cases k with
  | add =>
    cases val with
    | none => exact Or.inl ⟨.missingValue, rfl, rfl⟩
    | some v =>
      have hwv : wfDoc v = true := hov
      exact addAt_rel (parsePointer path) hwv hwv (deepEq_refl v hwv) hw₁ hw₂ hd
  | replace =>
    cases val with
    | none => exact Or.inl ⟨.missingValue, rfl, rfl⟩
    | some v =>
      have hwv : wfDoc v = true := hov
      exact replaceAt_rel (parsePointer path) hwv hwv (deepEq_refl v hwv) hw₁ hw₂ hd
  | test =>
    cases val with
    | none => exact Or.inl ⟨.missingValue, rfl, rfl⟩
    | some v =>
      have hwv : wfDoc v = true := hov
      exact testAt_rel (parsePointer path) path hwv hw₁ hw₂ hd
  | remove => exact removeAt_rel (parsePointer path) hw₁ hw₂ hd
  | move =>
    cases fp with
    | none => exact Or.inl ⟨.missingFrom, rfl, rfl⟩
    | some f =>
      rcases resolveSegs_congr (parsePointer f) d₁ d₂ hw₁ hw₂ hd with
        ⟨h1, h2⟩ | ⟨c₁, c₂, h1, h2, hc, hwc₁, hwc₂⟩
      · refine Or.inl ⟨.pathUnresolvable f, ?_, ?_⟩
        · simp [applyOp, h1]
        · simp [applyOp, h2]
      · simp only [applyOp, h1, h2]
        rcases removeAt_rel (parsePointer f) hw₁ hw₂ hd with
          ⟨e, he₁, he₂⟩ | ⟨r₁, r₂, hr₁, hr₂, hwr₁, hwr₂, hrr⟩
        · simp only [he₁, he₂]
          exact Or.inl ⟨e, rfl, rfl⟩
        · simp only [hr₁, hr₂]
          exact addAt_rel (parsePointer path) hwc₁ hwc₂ hc hwr₁ hwr₂ hrr
  | copy =>
    cases fp with
    | none => exact Or.inl ⟨.missingFrom, rfl, rfl⟩
    | some f =>
      rcases resolveSegs_congr (parsePointer f) d₁ d₂ hw₁ hw₂ hd with
        ⟨h1, h2⟩ | ⟨c₁, c₂, h1, h2, hc, hwc₁, hwc₂⟩
      · refine Or.inl ⟨.pathUnresolvable f, ?_, ?_⟩
        · simp [applyOp, h1]
        · simp [applyOp, h2]
      · simp only [applyOp, h1, h2]
        exact addAt_rel (parsePointer path) hwc₁ hwc₂ hc hw₁ hw₂ hd

theorem applyOps_rel :
    ∀ (ops : List Op), (∀ op ∈ ops, Option.all wfDoc op.value = true) →
      ∀ {d₁ d₂ : Json}, wfDoc d₁ = true → wfDoc d₂ = true → deepEq d₁ d₂ = true →
      applyRel (applyOps d₁ ops) (applyOps d₂ ops)
  | [], _, d₁, d₂, hw₁, hw₂, hd => Or.inr ⟨d₁, d₂, rfl, rfl, hw₁, hw₂, hd⟩
  | op :: rest, hov, d₁, d₂, hw₁, hw₂, hd => by
    rcases applyOp_rel op (hov op (List.mem_cons_self _ _)) hw₁ hw₂ hd with
      ⟨e, he₁, he₂⟩ | ⟨r₁, r₂, hr₁, hr₂, hwr₁, hwr₂, hrr⟩
    · refine Or.inl ⟨e, ?_, ?_⟩
      · simp [applyOps, he₁]
      · simp [applyOps, he₂]
    · have hrec := applyOps_rel rest
        (fun o ho => hov o (List.mem_cons_of_mem _ ho)) hwr₁ hwr₂ hrr
      simp only [applyOps, hr₁, hr₂]
      exact hrec

theorem applyPatchWithValidation_rel (P : List Op)
    (hov : ∀ op ∈ P, Option.all wfDoc op.value = true)
    {d₁ d₂ : Json} (hw₁ : wfDoc d₁ = true) (hw₂ : wfDoc d₂ = true)
    (hd : deepEq d₁ d₂ = true) :
    applyRel (applyPatchWithValidation d₁ P) (applyPatchWithValidation d₂ P) := by
  simp only [applyPatchWithValidation, deepClone_eq]
  rw [validatePatchSemantics_congr P hw₁ hw₂ hd]
  rcases hvs : validatePatchSemantics d₂ P with e | u
  · simp only [hvs]
    exact Or.inl ⟨e, rfl, rfl⟩
  · simp only [hvs]
    exact applyOps_rel P hov hw₁ hw₂ hd

/-! ## Frame lemmas for the mutation model -/

theorem preservedBelow_refl (n : Addr) (h : Heap) : PreservedBelow n h h :=
  fun _ _ => rfl

theorem preservedBelow_trans {n : Addr} {h₁ h₂ h₃ : Heap}
    (h12 : PreservedBelow n h₁ h₂) (h23 : PreservedBelow n h₂ h₃) :
    PreservedBelow n h₁ h₃ :=
  fun a ha => (h23 a ha).trans (h12 a ha)

mutual

theorem readTree_frame {n : Addr} {h h' : Heap}
    (hc : HeapClosed n h) (hp : PreservedBelow n h h') :
    ∀ (fuel : Nat) (a : Addr) (v : Json),
      readTree h fuel a = some v → readTree h' fuel a = some v
  | 0, a, v, hr => by simp [readTree] at hr
  | fuel + 1, a, v, hr => by
    rcases hn : h a with _ | node
    · rw [readTree, hn] at hr
      exact absurd hr (by simp)
    · have ha : a < n := (hc a node hn).1
      have hn' : h' a = some node := by rw [hp a ha, hn]
      rw [readTree, hn] at hr
      rw [readTree, hn']
      cases node with
      | null => exact hr
      | bool b => exact hr
      | num m => exact hr
      | str s => exact hr
      | arr es =>
        have hr' : (readList h fuel es).map Json.arr = some v := hr
        rcases hl : readList h fuel es with _ | vs
        · rw [hl] at hr'
          exact absurd hr' (by simp)
        · rw [hl] at hr'
          show (readList h' fuel es).map Json.arr = some v
          rw [readList_frame hc hp fuel es vs hl]
          exact hr'
      | obj fs =>
        have hr' : (readFields h fuel fs).map Json.obj = some v := hr
        rcases hl : readFields h fuel fs with _ | vs
        · rw [hl] at hr'
          exact absurd hr' (by simp)
        · rw [hl] at hr'
          show (readFields h' fuel fs).map Json.obj = some v
          rw [readFields_frame hc hp fuel fs vs hl]
          exact hr'
termination_by fuel _ _ _ => (fuel, 0)

theorem readList_frame {n : Addr} {h h' : Heap}
    (hc : HeapClosed n h) (hp : PreservedBelow n h h') :
    ∀ (fuel : Nat) (as : List Addr) (vs : List Json),
      readList h fuel as = some vs → readList h' fuel as = some vs
  | fuel, [], vs, hr => by
    rw [readList] at hr
    rw [readList]
    exact hr
  | fuel, a :: as, vs, hr => by
    rcases ht : readTree h fuel a with _ | v
    · rw [readList, ht] at hr
      exact absurd hr (by simp)
    · rcases hl : readList h fuel as with _ | vs'
      · rw [readList, ht, hl] at hr
        exact absurd hr (by simp)
      · rw [readList, ht, hl] at hr
        rw [readList, readTree_frame hc hp fuel a v ht,
          readList_frame hc hp fuel as vs' hl]
        exact hr
termination_by fuel as _ _ => (fuel, as.length + 1)

theorem readFields_frame {n : Addr} {h h' : Heap}
    (hc : HeapClosed n h) (hp : PreservedBelow n h h') :
    ∀ (fuel : Nat) (fs : List (String × Addr)) (vs : List (String × Json)),
      readFields h fuel fs = some vs → readFields h' fuel fs = some vs
  | fuel, [], vs, hr => by
    rw [readFields] at hr
    rw [readFields]
    exact hr
  | fuel, (k, a) :: rest, vs, hr => by
    rcases ht : readTree h fuel a with _ | v
    · rw [readFields, ht] at hr
      exact absurd hr (by simp)
    · rcases hl : readFields h fuel rest with _ | vs'
      · rw [readFields, ht, hl] at hr
        exact absurd hr (by simp)
      · rw [readFields, ht, hl] at hr
        rw [readFields, readTree_frame hc hp fuel a v ht,
          readFields_frame hc hp fuel rest vs' hl]
        exact hr
termination_by fuel fs _ _ => (fuel, fs.length + 1)

end

theorem allocExtends_refl (st : HState) : AllocExtends st st :=
  ⟨Nat.le_refl _, fun _ _ => rfl, fun _ _ h => Or.inl h⟩

theorem allocExtends_trans {st₁ st₂ st₃ : HState}
    (h12 : AllocExtends st₁ st₂) (h23 : AllocExtends st₂ st₃) :
    AllocExtends st₁ st₃ := by
  obtain ⟨hn12, hp12, hh12⟩ := h12
  obtain ⟨hn23, hp23, hh23⟩ := h23
  refine ⟨Nat.le_trans hn12 hn23, ?_, ?_⟩
  · intro x hx
    rw [hp23 x (Nat.lt_of_lt_of_le hx hn12), hp12 x hx]
  · intro x node hx
    rcases hh23 x node hx with h | ⟨h1, h2, h3⟩
    · rcases hh12 x node h with h' | ⟨h1', h2', h3'⟩
      · exact Or.inl h'
      · exact Or.inr ⟨h1', Nat.lt_of_lt_of_le h2' hn23,
          fun c hc => ⟨(h3' c hc).1, Nat.lt_of_lt_of_le (h3' c hc).2 hn23⟩⟩
    · exact Or.inr ⟨Nat.le_trans hn12 h1, h2,
        fun c hc => ⟨Nat.le_trans hn12 (h3 c hc).1, (h3 c hc).2⟩⟩

mutual

theorem allocTree_spec : ∀ (v : Json) (st : HState),
    AllocExtends st (allocTree v st).2
    ∧ st.next ≤ (allocTree v st).1 ∧ (allocTree v st).1 < (allocTree v st).2.next
  | .null, st => by
    refine ⟨⟨Nat.le_succ _, ?_, ?_⟩, Nat.le_refl _, Nat.lt_succ_self _⟩
    · intro x hx
      simp [allocTree, writeH, Nat.ne_of_lt hx]
    · intro x node hx
      simp only [allocTree, writeH] at hx
      by_cases hxe : x = st.next
      · subst hxe
        rw [if_pos rfl] at hx
        injection hx with hx
        subst hx
        exact Or.inr ⟨Nat.le_refl _, Nat.lt_succ_self _, by simp [childAddrs]⟩
      · rw [if_neg hxe] at hx
        exact Or.inl hx
  | .bool b, st => by
    refine ⟨⟨Nat.le_succ _, ?_, ?_⟩, Nat.le_refl _, Nat.lt_succ_self _⟩
    · intro x hx
      simp [allocTree, writeH, Nat.ne_of_lt hx]
    · intro x node hx
      simp only [allocTree, writeH] at hx
      by_cases hxe : x = st.next
      · subst hxe
        rw [if_pos rfl] at hx
        injection hx with hx
        subst hx
        exact Or.inr ⟨Nat.le_refl _, Nat.lt_succ_self _, by simp [childAddrs]⟩
      · rw [if_neg hxe] at hx
        exact Or.inl hx
  | .num m, st => by
    refine ⟨⟨Nat.le_succ _, ?_, ?_⟩, Nat.le_refl _, Nat.lt_succ_self _⟩
    · intro x hx
      simp [allocTree, writeH, Nat.ne_of_lt hx]
    · intro x node hx
      simp only [allocTree, writeH] at hx
      by_cases hxe : x = st.next
      · subst hxe
        rw [if_pos rfl] at hx
        injection hx with hx
        subst hx
        exact Or.inr ⟨Nat.le_refl _, Nat.lt_succ_self _, by simp [childAddrs]⟩
      · rw [if_neg hxe] at hx
        exact Or.inl hx
  | .str s, st => by
    refine ⟨⟨Nat.le_succ _, ?_, ?_⟩, Nat.le_refl _, Nat.lt_succ_self _⟩
    · intro x hx
      simp [allocTree, writeH, Nat.ne_of_lt hx]
    · intro x node hx
      simp only [allocTree, writeH] at hx
      by_cases hxe : x = st.next
      · subst hxe
        rw [if_pos rfl] at hx
        injection hx with hx
        subst hx
        exact Or.inr ⟨Nat.le_refl _, Nat.lt_succ_self _, by simp [childAddrs]⟩
      · rw [if_neg hxe] at hx
        exact Or.inl hx
  | .arr xs, st => by
    obtain ⟨hA, hmem⟩ := allocList_spec xs st
    obtain ⟨hn, hp, hh⟩ := hA
    refine ⟨⟨?_, ?_, ?_⟩, ?_, ?_⟩
    · exact Nat.le_trans hn (Nat.le_succ _)
    · intro x hx
      simp only [allocTree, writeH]
      rw [if_neg (Nat.ne_of_lt (Nat.lt_of_lt_of_le hx hn))]
      exact hp x hx
    · intro x node hx
      simp only [allocTree, writeH] at hx
      by_cases hxe : x = (allocList xs st).2.next
      · rw [if_pos hxe] at hx
        injection hx with hx
        subst hx
        subst hxe
        refine Or.inr ⟨hn, Nat.lt_succ_self _, ?_⟩
        intro c hcm
        simp only [childAddrs] at hcm
        exact ⟨(hmem c hcm).1, Nat.lt_succ_of_lt (hmem c hcm).2⟩
      · rw [if_neg hxe] at hx
        rcases hh x node hx with h | ⟨h1, h2, h3⟩
        · exact Or.inl h
        · exact Or.inr ⟨h1, Nat.lt_succ_of_lt h2,
            fun c hc => ⟨(h3 c hc).1, Nat.lt_succ_of_lt (h3 c hc).2⟩⟩
    · exact hn
    · exact Nat.lt_succ_self _
  | .obj fs, st => by
    obtain ⟨hA, hmem⟩ := allocFields_spec fs st
    obtain ⟨hn, hp, hh⟩ := hA
    refine ⟨⟨?_, ?_, ?_⟩, ?_, ?_⟩
    · exact Nat.le_trans hn (Nat.le_succ _)
    · intro x hx
      simp only [allocTree, writeH]
      rw [if_neg (Nat.ne_of_lt (Nat.lt_of_lt_of_le hx hn))]
      exact hp x hx
    · intro x node hx
      simp only [allocTree, writeH] at hx
      by_cases hxe : x = (allocFields fs st).2.next
      · rw [if_pos hxe] at hx
        injection hx with hx
        subst hx
        subst hxe
        refine Or.inr ⟨hn, Nat.lt_succ_self _, ?_⟩
        intro c hcm
        simp only [childAddrs, List.mem_map] at hcm
        obtain ⟨p, hpmem, hpc⟩ := hcm
        rw [← hpc]
        exact ⟨(hmem p hpmem).1, Nat.lt_succ_of_lt (hmem p hpmem).2⟩
      · rw [if_neg hxe] at hx
        rcases hh x node hx with h | ⟨h1, h2, h3⟩
        · exact Or.inl h
        · exact Or.inr ⟨h1, Nat.lt_succ_of_lt h2,
            fun c hc => ⟨(h3 c hc).1, Nat.lt_succ_of_lt (h3 c hc).2⟩⟩
    · exact hn
    · exact Nat.lt_succ_self _

theorem allocList_spec : ∀ (xs : List Json) (st : HState),
    AllocExtends st (allocList xs st).2
    ∧ ∀ a ∈ (allocList xs st).1, st.next ≤ a ∧ a < (allocList xs st).2.next
  | [], st => ⟨allocExtends_refl st, by simp [allocList]⟩
  | x :: xs, st => by
    obtain ⟨hA1, hlo1, hhi1⟩ := allocTree_spec x st
    obtain ⟨hA2, hmem2⟩ := allocList_spec xs (allocTree x st).2
    refine ⟨?_, ?_⟩
    · show AllocExtends st (allocList xs (allocTree x st).2).2
      exact allocExtends_trans hA1 hA2
    · intro a ha
      simp only [allocList, List.mem_cons] at ha
      rcases ha with ha | ha
      · subst ha
        exact ⟨hlo1, Nat.lt_of_lt_of_le hhi1 hA2.1⟩
      · exact ⟨Nat.le_trans hA1.1 (hmem2 a ha).1, (hmem2 a ha).2⟩

theorem allocFields_spec : ∀ (fs : List (String × Json)) (st : HState),
    AllocExtends st (allocFields fs st).2
    ∧ ∀ p ∈ (allocFields fs st).1, st.next ≤ p.2 ∧ p.2 < (allocFields fs st).2.next
  | [], st => ⟨allocExtends_refl st, by simp [allocFields]⟩
  | (k, v) :: rest, st => by
    obtain ⟨hA1, hlo1, hhi1⟩ := allocTree_spec v st
    obtain ⟨hA2, hmem2⟩ := allocFields_spec rest (allocTree v st).2
    refine ⟨?_, ?_⟩
    · show AllocExtends st (allocFields rest (allocTree v st).2).2
      exact allocExtends_trans hA1 hA2
    · intro p hp
      simp only [allocFields, List.mem_cons] at hp
      rcases hp with hp | hp
      · subst hp
        exact ⟨hlo1, Nat.lt_of_lt_of_le hhi1 hA2.1⟩
      · exact ⟨Nat.le_trans hA1.1 (hmem2 p hp).1, (hmem2 p hp).2⟩

end

theorem noDownPtr_of_heapClosed {n : Addr} {h : Heap} (hc : HeapClosed n h) :
    NoDownPtr n h :=
  fun a node hna ha => absurd (hc a node ha).1 (Nat.not_lt.mpr hna)

theorem hinv_of_allocExtends {n : Addr} {st st₂ : HState}
    (hA : AllocExtends st st₂) (hI : HInv n st) : HInv n st₂ := by
  obtain ⟨hn, hnd, hc⟩ := hI
  obtain ⟨hn2, hp, hh⟩ := hA
  refine ⟨Nat.le_trans hn hn2, ?_, ?_⟩
  · intro a node hna ha
    rcases hh a node ha with h | ⟨h1, h2, h3⟩
    · exact hnd a node hna h
    · intro c hcm
      exact Nat.le_trans hn (h3 c hcm).1
  · intro a node ha
    rcases hh a node ha with h | ⟨h1, h2, h3⟩
    · obtain ⟨h1a, h2a⟩ := hc a node h
      exact ⟨Nat.lt_of_lt_of_le h1a hn2, fun c hcm => Nat.lt_of_lt_of_le (h2a c hcm) hn2⟩
    · exact ⟨h2, fun c hcm => (h3 c hcm).2⟩

theorem preservedBelow_of_allocExtends {n : Addr} {st st₂ : HState}
    (hA : AllocExtends st st₂) (hn : n ≤ st.next) :
    PreservedBelow n st.heap st₂.heap :=
  fun a ha => hA.2.1 a (Nat.lt_of_lt_of_le ha hn)

theorem lookupFieldA_mem {k : String} {a : Addr} :
    ∀ {fs : List (String × Addr)}, lookupFieldA fs k = some a → a ∈ fs.map Prod.snd
  | [], h => by simp [lookupFieldA] at h
  | (k₁, b) :: rest, h => by
    rw [lookupFieldA] at h
    by_cases hk : k₁ = k
    · rw [if_pos hk] at h
      injection h with h
      subst h
      simp
    · rw [if_neg hk] at h
      simp only [List.map_cons, List.mem_cons]
      exact Or.inr (lookupFieldA_mem h)

theorem mem_setFieldA {k : String} {a : Addr} {p : String × Addr} :
    ∀ {fs : List (String × Addr)}, p ∈ setFieldA fs k a → p = (k, a) ∨ p ∈ fs
  | [], h => by
    rw [setFieldA] at h
    simp at h
    exact Or.inl h
  | (k₁, b) :: rest, h => by
    rw [setFieldA] at h
    by_cases hk : k₁ = k
    · rw [if_pos hk] at h
      rcases List.mem_cons.1 h with h | h
      · exact Or.inl h
      · exact Or.inr (List.mem_cons_of_mem _ h)
    · rw [if_neg hk] at h
      rcases List.mem_cons.1 h with h | h
      · exact Or.inr (by rw [h]; exact List.mem_cons_self _ _)
      · rcases mem_setFieldA h with h2 | h2
        · exact Or.inl h2
        · exact Or.inr (List.mem_cons_of_mem _ h2)

theorem mem_eraseFieldA {k : String} {p : String × Addr} :
    ∀ {fs : List (String × Addr)}, p ∈ eraseFieldA fs k → p ∈ fs
  | [], h => by
    rw [eraseFieldA] at h
    simp at h
  | (k₁, b) :: rest, h => by
    rw [eraseFieldA] at h
    by_cases hk : k₁ = k
    · rw [if_pos hk] at h
      exact List.mem_cons_of_mem _ h
    · rw [if_neg hk] at h
      rcases List.mem_cons.1 h with h | h
      · exact by rw [h]; exact List.mem_cons_self _ _
      · exact List.mem_cons_of_mem _ (mem_eraseFieldA h)

theorem resolveAddr_ge {n : Addr} {h : Heap} (hnd : NoDownPtr n h) :
    ∀ (segs : List String) (a p : Addr), n ≤ a → resolveAddr h a segs = some p → n ≤ p
  | [], a, p, hna, hres => by
    rw [resolveAddr] at hres
    injection hres with hres
    exact hres ▸ hna
  | k :: rest, a, p, hna, hres => by
    rw [resolveAddr] at hres
    rcases hn : h a with _ | node
    · rw [hn] at hres
      simp at hres
    · rw [hn] at hres
      cases node with
      | obj fields =>
        rcases hl : lookupFieldA fields k with _ | child
        · simp only [hl] at hres
          simp at hres
        · simp only [hl] at hres
          have hchild : n ≤ child :=
            hnd a (.obj fields) hna hn child
              (show child ∈ fields.map Prod.snd from lookupFieldA_mem hl)
          exact resolveAddr_ge hnd rest child p hchild hres
      | arr es =>
        rcases hi : parseIndex k with _ | i
        · simp only [hi] at hres
          simp at hres
        · simp only [hi] at hres
          rcases he : es[i]? with _ | child
          · simp only [he] at hres
            simp at hres
          · simp only [he] at hres
            have hchild : n ≤ child :=
              hnd a (.arr es) hna hn child (show child ∈ es from List.getElem?_mem he)
            exact resolveAddr_ge hnd rest child p hchild hres
      | null => simp at hres
      | bool b => simp at hres
      | num m => simp at hres
      | str s => simp at hres

theorem parentOpOk_insert (v : Json) : ParentOpOk (insertIntoParentH v) := by
  intro st node k st' node' hf
  obtain ⟨hA, hlo, hhi⟩ := allocTree_spec v st
  cases node with
  | obj fields =>
    rw [insertIntoParentH] at hf
    rcases hal : allocTree v st with ⟨va, st₂⟩
    rw [hal] at hf hA hlo hhi
    have hA2 : AllocExtends st st₂ := hA
    have hlo2 : st.next ≤ va := hlo
    have hhi2 : va < st₂.next := hhi
    have hf2 : Except.ok (st₂, HNode.obj (setFieldA fields k va))
        = Except.ok (st', node') := hf
    injection hf2 with hf2
    injection hf2 with hf3 hf4
    subst hf3
    subst hf4
    refine ⟨hA2, ?_⟩
    intro c hcm
    have hcm2 : c ∈ (setFieldA fields k va).map Prod.snd := hcm
    rcases List.mem_map.1 hcm2 with ⟨q, hq, hqc⟩
    rcases mem_setFieldA hq with h | h
    · subst h
      have hva : va = c := hqc
      exact Or.inr ⟨hva ▸ hlo2, hva ▸ hhi2⟩
    · exact Or.inl (show c ∈ fields.map Prod.snd from List.mem_map.2 ⟨q, h, hqc⟩)
  | arr es =>
    rw [insertIntoParentH] at hf
    by_cases hks : k = "-"
    · rw [if_pos hks] at hf
      rcases hal : allocTree v st with ⟨va, st₂⟩
      rw [hal] at hf hA hlo hhi
      have hA2 : AllocExtends st st₂ := hA
      have hlo2 : st.next ≤ va := hlo
      have hhi2 : va < st₂.next := hhi
      have hf2 : Except.ok (st₂, HNode.arr (es ++ [va])) = Except.ok (st', node') := hf
      injection hf2 with hf2
      injection hf2 with hf3 hf4
      subst hf3
      subst hf4
      refine ⟨hA2, ?_⟩
      intro c hcm
      have hcm2 : c ∈ es ++ [va] := hcm
      rcases List.mem_append.1 hcm2 with h | h
      · exact Or.inl h
      · have hcv : c = va := by simpa using h
        subst hcv
        exact Or.inr ⟨hlo2, hhi2⟩
    · rw [if_neg hks] at hf
      rcases hi : parseIndex k with _ | i
      · rw [hi] at hf
        have hf2 : (Except.error (EngineError.badArrayIndex k)
            : Except EngineError (HState × HNode)) = Except.ok (st', node') := hf
        exact absurd hf2 (by simp)
      · rw [hi] at hf
        by_cases hle : i ≤ es.length
        · have hf2 : (if i ≤ es.length then
              match allocTree v st with
              | (va, st₂) => Except.ok (st₂, HNode.arr (es.take i ++ va :: es.drop i))
            else Except.error (EngineError.indexOutOfBounds k)) = Except.ok (st', node') := hf
          rw [if_pos hle] at hf2
          rcases hal : allocTree v st with ⟨va, st₂⟩
          rw [hal] at hf2 hA hlo hhi
          have hA2 : AllocExtends st st₂ := hA
          have hlo2 : st.next ≤ va := hlo
          have hhi2 : va < st₂.next := hhi
          have hf3 : Except.ok (st₂, HNode.arr (es.take i ++ va :: es.drop i))
              = Except.ok (st', node') := hf2
          injection hf3 with hf3
          injection hf3 with hf4 hf5
          subst hf4
          subst hf5
          refine ⟨hA2, ?_⟩
          intro c hcm
          have hcm2 : c ∈ es.take i ++ va :: es.drop i := hcm
          rcases List.mem_append.1 hcm2 with h | h
          · exact Or.inl (List.mem_of_mem_take h)
          · rcases List.mem_cons.1 h with h | h
            · subst h
              exact Or.inr ⟨hlo2, hhi2⟩
            · exact Or.inl (List.mem_of_mem_drop h)
        · have hf2 : (if i ≤ es.length then
              match allocTree v st with
              | (va, st₂) => Except.ok (st₂, HNode.arr (es.take i ++ va :: es.drop i))
            else Except.error (EngineError.indexOutOfBounds k)) = Except.ok (st', node') := hf
          rw [if_neg hle] at hf2
          exact absurd hf2 (by simp)
  | null => simp [insertIntoParentH] at hf
  | bool b => simp [insertIntoParentH] at hf
  | num m => simp [insertIntoParentH] at hf
  | str s => simp [insertIntoParentH] at hf

theorem parentOpOk_remove : ParentOpOk removeFromParentH := by
  intro st node k st' node' hf
  cases node with
  | obj fields =>
    rw [removeFromParentH] at hf
    by_cases hex : (lookupFieldA fields k).isSome
    · rw [if_pos hex] at hf
      injection hf with hf
      injection hf with hf1 hf2
      subst hf1
      subst hf2
      refine ⟨allocExtends_refl st, ?_⟩
      intro c hcm
      have hcm2 : c ∈ (eraseFieldA fields k).map Prod.snd := hcm
      rcases List.mem_map.1 hcm2 with ⟨q, hq, hqc⟩
      exact Or.inl (show c ∈ fields.map Prod.snd from
        List.mem_map.2 ⟨q, mem_eraseFieldA hq, hqc⟩)
    · rw [if_neg hex] at hf
      exact absurd hf (by simp)
  | arr es =>
    rw [removeFromParentH] at hf
    rcases hi : parseIndex k with _ | i
    · rw [hi] at hf
      have hf2 : (Except.error (EngineError.badArrayIndex k)
          : Except EngineError (HState × HNode)) = Except.ok (st', node') := hf
      exact absurd hf2 (by simp)
    · rw [hi] at hf
      by_cases hlt : i < es.length
      · have hf2 : (if i < es.length then
            Except.ok (st, HNode.arr (es.take i ++ es.drop (i + 1)))
          else Except.error (EngineError.pathUnresolvable k)) = Except.ok (st', node') := hf
        rw [if_pos hlt] at hf2
        injection hf2 with hf2
        injection hf2 with hf3 hf4
        subst hf3
        subst hf4
        refine ⟨allocExtends_refl st, ?_⟩
        intro c hcm
        have hcm2 : c ∈ es.take i ++ es.drop (i + 1) := hcm
        rcases List.mem_append.1 hcm2 with h | h
        · exact Or.inl (List.mem_of_mem_take h)
        · exact Or.inl (List.mem_of_mem_drop h)
      · have hf2 : (if i < es.length then
            Except.ok (st, HNode.arr (es.take i ++ es.drop (i + 1)))
          else Except.error (EngineError.pathUnresolvable k)) = Except.ok (st', node') := hf
        rw [if_neg hlt] at hf2
        exact absurd hf2 (by simp)
  | null => simp [removeFromParentH] at hf
  | bool b => simp [removeFromParentH] at hf
  | num m => simp [removeFromParentH] at hf
  | str s => simp [removeFromParentH] at hf

theorem parentOpOk_replace (v : Json) : ParentOpOk (replaceInParentH v) := by
  intro st node k st' node' hf
  obtain ⟨hA, hlo, hhi⟩ := allocTree_spec v st
  cases node with
  | obj fields =>
    rw [replaceInParentH] at hf
    by_cases hex : (lookupFieldA fields k).isSome
    · rw [if_pos hex] at hf
      rcases hal : allocTree v st with ⟨va, st₂⟩
      rw [hal] at hf hA hlo hhi
      have hA2 : AllocExtends st st₂ := hA
      have hlo2 : st.next ≤ va := hlo
      have hhi2 : va < st₂.next := hhi
      have hf2 : Except.ok (st₂, HNode.obj (setFieldA fields k va))
          = Except.ok (st', node') := hf
      injection hf2 with hf2
      injection hf2 with hf3 hf4
      subst hf3
      subst hf4
      refine ⟨hA2, ?_⟩
      intro c hcm
      have hcm2 : c ∈ (setFieldA fields k va).map Prod.snd := hcm
      rcases List.mem_map.1 hcm2 with ⟨q, hq, hqc⟩
      rcases mem_setFieldA hq with h | h
      · subst h
        have hva : va = c := hqc
        exact Or.inr ⟨hva ▸ hlo2, hva ▸ hhi2⟩
      · exact Or.inl (show c ∈ fields.map Prod.snd from List.mem_map.2 ⟨q, h, hqc⟩)
    · rw [if_neg hex] at hf
      exact absurd hf (by simp)
  | arr es =>
    rw [replaceInParentH] at hf
    rcases hi : parseIndex k with _ | i
    · rw [hi] at hf
      have hf2 : (Except.error (EngineError.badArrayIndex k)
          : Except EngineError (HState × HNode)) = Except.ok (st', node') := hf
      exact absurd hf2 (by simp)
    · rw [hi] at hf
      by_cases hlt : i < es.length
      · have hf2 : (if i < es.length then
            match allocTree v st with
            | (va, st₂) => Except.ok (st₂, HNode.arr (es.set i va))
          else Except.error (EngineError.pathUnresolvable k)) = Except.ok (st', node') := hf
        rw [if_pos hlt] at hf2
        rcases hal : allocTree v st with ⟨va, st₂⟩
        rw [hal] at hf2 hA hlo hhi
        have hA2 : AllocExtends st st₂ := hA
        have hlo2 : st.next ≤ va := hlo
        have hhi2 : va < st₂.next := hhi
        have hf3 : Except.ok (st₂, HNode.arr (es.set i va)) = Except.ok (st', node') := hf2
        injection hf3 with hf3
        injection hf3 with hf4 hf5
        subst hf4
        subst hf5
        refine ⟨hA2, ?_⟩
        intro c hcm
        have hcm2 : c ∈ es.set i va := hcm
        rcases List.mem_or_eq_of_mem_set hcm2 with h | h
        · exact Or.inl h
        · subst h
          exact Or.inr ⟨hlo2, hhi2⟩
      · have hf2 : (if i < es.length then
            match allocTree v st with
            | (va, st₂) => Except.ok (st₂, HNode.arr (es.set i va))
          else Except.error (EngineError.pathUnresolvable k)) = Except.ok (st', node') := hf
        rw [if_neg hlt] at hf2
        exact absurd hf2 (by simp)
  | null => simp [replaceInParentH] at hf
  | bool b => simp [replaceInParentH] at hf
  | num m => simp [replaceInParentH] at hf
  | str s => simp [replaceInParentH] at hf

theorem mutateParent_frame {n : Addr} {st : HState} {root : Addr}
    {initSegs : List String} {k : String}
    {f : HState → HNode → String → Except EngineError (HState × HNode)}
    (hop : ParentOpOk f) (hI : HInv n st) (hroot : n ≤ root)
    {st' : HState} (h : mutateParent st root initSegs k f = .ok st') :
    HInv n st' ∧ PreservedBelow n st.heap st'.heap ∧ st.next ≤ st'.next := by
  obtain ⟨hn, hnd, hc⟩ := hI
  rw [mutateParent] at h
  rcases hres : resolveAddr st.heap root initSegs with _ | p
  · rw [hres] at h
    simp at h
  · rw [hres] at h
    have hp : n ≤ p := resolveAddr_ge hnd initSegs root p hroot hres
    rcases hnode : st.heap p with _ | node
    · simp only [hnode] at h
      simp at h
    · simp only [hnode] at h
      have hplt : p < st.next := (hc p node hnode).1
      have hchild : ∀ c ∈ childAddrs node, c < st.next := (hc p node hnode).2
      have hchildn : ∀ c ∈ childAddrs node, n ≤ c := hnd p node hp hnode
      rcases hfk : f st node k with e | pr
      · simp only [hfk] at h
        simp at h
      · rcases pr with ⟨st₂, node'⟩
        simp only [hfk] at h
        injection h with h
        subst h
        obtain ⟨hA, hch⟩ := hop st node k st₂ node' hfk
        have hI₂ : HInv n st₂ := hinv_of_allocExtends hA ⟨hn, hnd, hc⟩
        obtain ⟨hn₂, hnd₂, hc₂⟩ := hI₂
        refine ⟨⟨hn₂, ?_, ?_⟩, ?_, hA.1⟩
        · intro a nd hna ha
          by_cases hap : a = p
          · have ha2 : (if a = p then some node' else st₂.heap a) = some nd := ha
            rw [if_pos hap] at ha2
            injection ha2 with ha2
            subst ha2
            intro c hcm
            rcases hch c hcm with hcm2 | ⟨hlo, _⟩
            · exact hchildn c hcm2
            · exact Nat.le_trans hn hlo
          · have ha2 : (if a = p then some node' else st₂.heap a) = some nd := ha
            rw [if_neg hap] at ha2
            exact hnd₂ a nd hna ha2
        · intro a nd ha
          by_cases hap : a = p
          · have ha2 : (if a = p then some node' else st₂.heap a) = some nd := ha
            rw [if_pos hap] at ha2
            injection ha2 with ha2
            subst ha2
            refine ⟨by rw [hap]; exact Nat.lt_of_lt_of_le hplt hA.1, ?_⟩
            intro c hcm
            rcases hch c hcm with hcm2 | ⟨_, hhi⟩
            · exact Nat.lt_of_lt_of_le (hchild c hcm2) hA.1
            · exact hhi
          · have ha2 : (if a = p then some node' else st₂.heap a) = some nd := ha
            rw [if_neg hap] at ha2
            exact hc₂ a nd ha2
        · intro a ha
          have hanep : a ≠ p := Nat.ne_of_lt (Nat.lt_of_lt_of_le ha hp)
          show (if a = p then some node' else st₂.heap a) = st.heap a
          rw [if_neg hanep]
          exact hA.2.1 a (Nat.lt_of_lt_of_le ha hn)

theorem opFrame_error {n : Addr} {st : HState} (hI : HInv n st) (e : EngineError) :
    OpFrame n st (st, .error e) :=
  ⟨hI, preservedBelow_refl _ _, Nat.le_refl _, fun r hr => absurd hr (by simp)⟩

theorem opFrame_ok_self {n : Addr} {st : HState} {root : Addr}
    (hI : HInv n st) (hroot : n ≤ root) : OpFrame n st (st, .ok root) :=
  ⟨hI, preservedBelow_refl _ _, Nat.le_refl _, fun r hr => by
    have hrr : root = r := by simpa using hr
    exact hrr ▸ hroot⟩

theorem opFrame_comp {n : Addr} {st st₂ : HState} {res : HState × Except EngineError Addr}
    (h2 : PreservedBelow n st.heap st₂.heap) (h3 : st.next ≤ st₂.next)
    (hF : OpFrame n st₂ res) : OpFrame n st res :=
  ⟨hF.1, preservedBelow_trans h2 hF.2.1, Nat.le_trans h3 hF.2.2.1, hF.2.2.2⟩

theorem addAtH_frame {n : Addr} (st : HState) (root : Addr) (segs : List String) (v : Json)
    (hI : HInv n st) (hroot : n ≤ root) : OpFrame n st (addAtH st root segs v) := by
  rw [addAtH]
  rcases hl : segs.getLast? with _ | k
  · simp only [hl]
    obtain ⟨hA, hlo, hhi⟩ := allocTree_spec v st
    rcases hal : allocTree v st with ⟨va, st₂⟩
    rw [hal] at hA hlo hhi
    have hA2 : AllocExtends st st₂ := hA
    have hlo2 : st.next ≤ va := hlo
    simp only [hal]
    refine ⟨hinv_of_allocExtends hA2 hI, preservedBelow_of_allocExtends hA2 hI.1, hA2.1,
      fun r hr => ?_⟩
    have hvr : va = r := by simpa using hr
    exact hvr ▸ Nat.le_trans hI.1 hlo2
  · simp only [hl]
    rcases hm : mutateParent st root segs.dropLast k (insertIntoParentH v) with e | st₂
    · simp only [hm]
      exact opFrame_error hI e
    · simp only [hm]
      obtain ⟨hI₂, hp₂, hn₂⟩ := mutateParent_frame (parentOpOk_insert v) hI hroot hm
      refine ⟨hI₂, hp₂, hn₂, fun r hr => ?_⟩
      have hrr : root = r := by simpa using hr
      exact hrr ▸ hroot

theorem removeAtH_frame {n : Addr} (st : HState) (root : Addr) (segs : List String)
    (hI : HInv n st) (hroot : n ≤ root) : OpFrame n st (removeAtH st root segs) := by
  rw [removeAtH]
  rcases hl : segs.getLast? with _ | k
  · simp only [hl]
    exact opFrame_error hI _
  · simp only [hl]
    rcases hm : mutateParent st root segs.dropLast k removeFromParentH with e | st₂
    · simp only [hm]
      exact opFrame_error hI e
    · simp only [hm]
      obtain ⟨hI₂, hp₂, hn₂⟩ := mutateParent_frame parentOpOk_remove hI hroot hm
      refine ⟨hI₂, hp₂, hn₂, fun r hr => ?_⟩
      have hrr : root = r := by simpa using hr
      exact hrr ▸ hroot

theorem replaceAtH_frame {n : Addr} (st : HState) (root : Addr) (segs : List String)
    (v : Json) (hI : HInv n st) (hroot : n ≤ root) :
    OpFrame n st (replaceAtH st root segs v) := by
  rw [replaceAtH]
  rcases hl : segs.getLast? with _ | k
  · simp only [hl]
    obtain ⟨hA, hlo, hhi⟩ := allocTree_spec v st
    rcases hal : allocTree v st with ⟨va, st₂⟩
    rw [hal] at hA hlo hhi
    have hA2 : AllocExtends st st₂ := hA
    have hlo2 : st.next ≤ va := hlo
    simp only [hal]
    refine ⟨hinv_of_allocExtends hA2 hI, preservedBelow_of_allocExtends hA2 hI.1, hA2.1,
      fun r hr => ?_⟩
    have hvr : va = r := by simpa using hr
    exact hvr ▸ Nat.le_trans hI.1 hlo2
  · simp only [hl]
    rcases hm : mutateParent st root segs.dropLast k (replaceInParentH v) with e | st₂
    · simp only [hm]
      exact opFrame_error hI e
    · simp only [hm]
      obtain ⟨hI₂, hp₂, hn₂⟩ := mutateParent_frame (parentOpOk_replace v) hI hroot hm
      refine ⟨hI₂, hp₂, hn₂, fun r hr => ?_⟩
      have hrr : root = r := by simpa using hr
      exact hrr ▸ hroot

theorem testAtH_frame {n : Addr} (st : HState) (root : Addr) (fuel : Nat)
    (segs : List String) (ps : String) (v : Json)
    (hI : HInv n st) (hroot : n ≤ root) : OpFrame n st (testAtH st root fuel segs ps v) := by
  rw [testAtH]
  rcases hres : resolveAddr st.heap root segs with _ | a
  · simp only [hres]
    exact opFrame_error hI _
  · simp only [hres]
    rcases hrt : readTree st.heap fuel a with _ | cur
    · simp only [hrt]
      exact opFrame_error hI _
    · simp only [hrt]
      by_cases hev : deepEq cur v = true
      · rw [if_pos hev]
        exact opFrame_ok_self hI hroot
      · rw [if_neg hev]
        exact opFrame_error hI _

theorem applyOpH_frame {n : Addr} (fuel : Nat) (st : HState) (root : Addr) (op : Op)
    (hI : HInv n st) (hroot : n ≤ root) : OpFrame n st (applyOpH fuel st root op) := by
  rcases op with ⟨k, path, fp, val⟩
  cases k with
  | add =>
    cases val with
    | none => exact opFrame_error hI .missingValue
    | some v => exact addAtH_frame st root (parsePointer path) v hI hroot
  | replace =>
    cases val with
    | none => exact opFrame_error hI .missingValue
    | some v => exact replaceAtH_frame st root (parsePointer path) v hI hroot
  | test =>
    cases val with
    | none => exact opFrame_error hI .missingValue
    | some v => exact testAtH_frame st root fuel (parsePointer path) path v hI hroot
  | remove => exact removeAtH_frame st root (parsePointer path) hI hroot
  | move =>
    cases fp with
    | none => exact opFrame_error hI .missingFrom
    | some f =>
      rcases hres : resolveAddr st.heap root (parsePointer f) with _ | fa
      · simp only [applyOpH, hres]
        exact opFrame_error hI _
      · simp only [applyOpH, hres]
        rcases hrt : readTree st.heap fuel fa with _ | v
        · simp only [hrt]
          exact opFrame_error hI _
        · simp only [hrt]
          rcases hrm : removeAtH st root (parsePointer f) with ⟨st₂, res⟩
          have hF := removeAtH_frame st root (parsePointer f) hI hroot
          rw [hrm] at hF
          cases res with
          | ok root₂ =>
            simp only [hrm]
            exact opFrame_comp hF.2.1 hF.2.2.1
              (addAtH_frame st₂ root₂ (parsePointer path) v hF.1 (hF.2.2.2 root₂ rfl))
          | error e =>
            simp only [hrm]
            exact ⟨hF.1, hF.2.1, hF.2.2.1, fun r hr => absurd hr (by simp)⟩
  | copy =>
    cases fp with
    | none => exact opFrame_error hI .missingFrom
    | some f =>
      rcases hres : resolveAddr st.heap root (parsePointer f) with _ | fa
      · simp only [applyOpH, hres]
        exact opFrame_error hI _
      · simp only [applyOpH, hres]
        rcases hrt : readTree st.heap fuel fa with _ | v
        · simp only [hrt]
          exact opFrame_error hI _
        · simp only [hrt]
          exact addAtH_frame st root (parsePointer path) v hI hroot

theorem applyOpsH_frame {n : Addr} (fuel : Nat) :
    ∀ (ops : List Op) (st : HState) (root : Addr), HInv n st → n ≤ root →
      OpFrame n st (applyOpsH fuel st root ops)
  | [], st, root, hI, hroot => opFrame_ok_self hI hroot
  | op :: rest, st, root, hI, hroot => by
    rcases hop : applyOpH fuel st root op with ⟨st₂, res⟩
    have hF := applyOpH_frame fuel st root op hI hroot
    rw [hop] at hF
    cases res with
    | ok root₂ =>
      have hF₂ := applyOpsH_frame fuel rest st₂ root₂ hF.1 (hF.2.2.2 root₂ rfl)
      simp only [applyOpsH, hop]
      exact opFrame_comp hF.2.1 hF.2.2.1 hF₂
    | error e =>
      simp only [applyOpsH, hop]
      exact ⟨hF.1, hF.2.1, hF.2.2.1, fun r hr => absurd hr (by simp)⟩

theorem deepCloneH_frame {n : Addr} (st : HState) (a : Addr) (fuel : Nat)
    (hI : HInv n st) : OpFrame n st (deepCloneH st a fuel) := by
  rw [deepCloneH]
  rcases hrt : readTree st.heap fuel a with _ | v
  · simp only [hrt]
    exact opFrame_error hI _
  · simp only [hrt]
    obtain ⟨hA, hlo, hhi⟩ := allocTree_spec v st
    rcases hal : allocTree v st with ⟨wa, st₂⟩
    rw [hal] at hA hlo hhi
    have hA2 : AllocExtends st st₂ := hA
    have hlo2 : st.next ≤ wa := hlo
    simp only [hal]
    refine ⟨hinv_of_allocExtends hA2 hI, preservedBelow_of_allocExtends hA2 hI.1, hA2.1,
      fun r hr => ?_⟩
    have hvr : wa = r := by simpa using hr
    exact hvr ▸ Nat.le_trans hI.1 hlo2

theorem applyPatchWithValidationH_frame {n : Addr} (fuel : Nat) (st : HState)
    (document : Addr) (patch : List Op) (hI : HInv n st) :
    OpFrame n st (applyPatchWithValidationH fuel st document patch) := by
  rw [applyPatchWithValidationH]
  rcases hdc : deepCloneH st document fuel with ⟨st₁, res₁⟩
  have hF₁ := deepCloneH_frame st document fuel hI
  rw [hdc] at hF₁
  cases res₁ with
  | error e =>
    simp only [hdc]
    exact ⟨hF₁.1, hF₁.2.1, hF₁.2.2.1, fun r hr => absurd hr (by simp)⟩
  | ok wd =>
    simp only [hdc]
    have hwd : n ≤ wd := hF₁.2.2.2 wd rfl
    rcases hrt : readTree st₁.heap fuel wd with _ | wv
    · simp only [hrt]
      exact ⟨hF₁.1, hF₁.2.1, hF₁.2.2.1, fun r hr => absurd hr (by simp)⟩
    · simp only [hrt]
      rcases hvs : validatePatchSemantics wv patch with e | u
      · simp only [hvs]
        exact ⟨hF₁.1, hF₁.2.1, hF₁.2.2.1, fun r hr => absurd hr (by simp)⟩
      · simp only [hvs]
        exact opFrame_comp hF₁.2.1 hF₁.2.2.1
          (applyOpsH_frame fuel patch st₁ wd hF₁.1 hwd)

/-! ## Claim theorems -/

/-- C4 counterexample: the claim says `validate_structure` accepts an
operation whose path is the empty string (the root pointer); the source
regex requires a leading `/`, so the empty path is rejected as a
malformed pointer. -/
theorem C4_counterexample :
    validatePatchStructure [⟨"replace", some "", none, some (.num 800)⟩]
      = .error [.malformedPointer ""] := by decide

/-- C4 (amended): `validate_structure` accepts an operation whose path is
a `/`-prefixed sequence of segments in which every `~` is followed only
by `0` or `1`, and rejects any other path — including the empty string —
with a structural `MalformedPointer` issue, never reading a document
(`validatePatchStructure` takes no document).  `specPointerOk` states the
grammar segment-wise as the spec words it. -/
theorem C4_pointer_grammar (o : RawOp) (k : OpKind) (p : String)
    (hk : parseKind o.op = some k) (hp : o.path = some p)
    (hr : refineIssues o = []) :
    (specPointerOk p = true →
      validatePatchStructure [o] = .ok [⟨k, p, o.fromPtr, o.value⟩])
    ∧ (specPointerOk p = false →
      validatePatchStructure [o] = .error [.malformedPointer p]) := by
  have hjp := jsonPointerPattern_eq_spec p
  obtain ⟨os, opath, ofrom, oval⟩ := o
  simp only at hk hp hr ⊢
  subst hp
  constructor
  · intro hs
    have hpat : jsonPointerPattern p = true := by rw [hjp, hs]
    simp [validatePatchStructure, checkOpStructure, baseIssues, hk, hpat, hr, toOp]
  · intro hs
    have hpat : jsonPointerPattern p = false := by rw [hjp, hs]
    simp [validatePatchStructure, checkOpStructure, baseIssues, hk, hpat]

/-- C4 witness: the amended grammar theorem at a concrete accepted
pointer. -/
theorem C4_witness :
    validatePatchStructure [⟨"replace", some "/a", none, some (.num 1)⟩]
      = .ok [⟨.replace, "/a", none, some (.num 1)⟩] :=
  (C4_pointer_grammar ⟨"replace", some "/a", none, some (.num 1)⟩ .replace "/a"
    (by decide) rfl (by decide)).1 (by decide)

/-- C8: `validate_structure` fails with a missing-required-value issue
for every `add`, `replace` or `test` operation lacking a `value` field,
and accepts the same operation when its `value` is the explicit `null`
(present `Json.null`, distinct from an absent field). -/
theorem C8_value_field (k : OpKind) (p : String) (fromS : Option String)
    (hk : isValueKind k = true) (hp : jsonPointerPattern p = true) :
    validatePatchStructure [⟨kindStr k, some p, fromS, none⟩]
      = .error [.missingValue (kindStr k)]
    ∧ validatePatchStructure [⟨kindStr k, some p, fromS, some Json.null⟩]
      = .ok [⟨k, p, fromS, some Json.null⟩] := by
  cases k <;> simp [isValueKind] at hk
  all_goals exact ⟨
    by simp [validatePatchStructure, checkOpStructure, baseIssues, refineIssues,
      parseKind, kindStr, hp],
    by simp [validatePatchStructure, checkOpStructure, baseIssues, refineIssues,
      parseKind, kindStr, toOp, hp]⟩

/-- C8 witness: the value-field theorem at a concrete `add` operation. -/
theorem C8_witness :
    validatePatchStructure [⟨"add", some "/x", none, none⟩]
      = .error [.missingValue "add"]
    ∧ validatePatchStructure [⟨"add", some "/x", none, some Json.null⟩]
      = .ok [⟨.add, "/x", none, some Json.null⟩] :=
  C8_value_field .add "/x" none (by decide) (by decide)

/-- C9: `validate_structure` never checks the `from` field against the
pointer grammar for `add`, `remove`, `replace` or `test` — such an
operation carrying a syntactically malformed `from` string is still
accepted — while for `move` and `copy` the same malformed `from` is a
structural error. -/
theorem C9_from_not_checked (k : OpKind) (p f : String) (v : Json)
    (hk : isFromKind k = false) (hp : jsonPointerPattern p = true)
    (hf : jsonPointerPattern f = false) (hfne : f ≠ "") :
    validatePatchStructure [⟨kindStr k, some p, some f, some v⟩]
      = .ok [⟨k, p, some f, some v⟩]
    ∧ ∀ k' : OpKind, isFromKind k' = true →
        validatePatchStructure [⟨kindStr k', some p, some f, some v⟩]
          = .error [.malformedFrom f] := by
  constructor
  · cases k <;> simp [isFromKind] at hk
    all_goals
      simp [validatePatchStructure, checkOpStructure, baseIssues, refineIssues,
        parseKind, kindStr, toOp, hp]
  · intro k' hk'
    cases k' <;> simp [isFromKind] at hk'
    all_goals
      simp [validatePatchStructure, checkOpStructure, baseIssues, refineIssues,
        parseKind, kindStr, fromTruthy, hp, hf, hfne]

/-- C9 witness: an `add` operation with a malformed `from` (missing
leading slash) accepted, and the same `from` rejected on `move`. -/
theorem C9_witness :
    validatePatchStructure [⟨"add", some "/x", some "bad", some (.num 1)⟩]
      = .ok [⟨.add, "/x", some "bad", some (.num 1)⟩]
    ∧ validatePatchStructure [⟨"move", some "/x", some "bad", some (.num 1)⟩]
      = .error [.malformedFrom "bad"] := by
  have h := C9_from_not_checked .add "/x" "bad" (.num 1)
    (by decide) (by decide) (by decide) (by decide)
  exact ⟨h.1, h.2 .move (by decide)⟩

/-- C6: the empty patch is a valid no-op: it passes structural
validation, passes semantic validation against any document, and
applies to a document deep-equal to the input. -/
theorem C6_empty_patch (D : Json) :
    validatePatchStructure [] = .ok []
    ∧ validatePatchSemantics D [] = .ok ()
    ∧ applyPatchWithValidation D [] = .ok D := by
  refine ⟨rfl, rfl, ?_⟩
  simp [applyPatchWithValidation, validatePatchSemantics, applyOps, deepClone_eq]

/-- C2 counterexample: with `D = {"a": 1}` and the two-operation patch
adding `/b` and then replacing `/b`, the existence preconditions of the
claim hold (parent of `/b` exists, `/b` itself absent), semantic
validation flags the replace, but — against the claim — `apply`
(`applyPatchWithValidation`) does NOT succeed: it fails with the same
`PathNotFound`, because it re-runs snapshot semantic validation before
applying.  Only the bare sequential applicator (`applyOps`) succeeds. -/
theorem C2_counterexample :
    parentExists (Json.obj [("a", .num 1)]) "/b" = true
    ∧ pathExists (Json.obj [("a", .num 1)]) "/b" = false
    ∧ applyPatchWithValidation (Json.obj [("a", .num 1)])
        [⟨.add, "/b", none, some (.num 2)⟩, ⟨.replace, "/b", none, some (.num 3)⟩]
      = .error (.pathNotFound "/b" .replace)
    ∧ applyOps (Json.obj [("a", .num 1)])
        [⟨.add, "/b", none, some (.num 2)⟩, ⟨.replace, "/b", none, some (.num 3)⟩]
      = .ok (.obj [("a", .num 1), ("b", .num 3)]) := by decide

/-- C2 (amended): for every document and two-operation patch whose first
operation adds a value at a fresh path (parent exists, leaf absent) and
whose second operation replaces that same path, semantic validation
fails flagging the replace as targeting a missing path, and
`applyPatchWithValidation` fails with that same error, because it
re-runs snapshot-based semantic validation against the working copy
before applying. -/
theorem C2_add_then_replace (D : Json) (p : String) (v w : Json)
    (hparent : parentExists D p = true) (hleaf : pathExists D p = false) :
    validatePatchSemantics D
        [⟨.add, p, none, some v⟩, ⟨.replace, p, none, some w⟩]
      = .error (.pathNotFound p .replace)
    ∧ applyPatchWithValidation D
        [⟨.add, p, none, some v⟩, ⟨.replace, p, none, some w⟩]
      = .error (.pathNotFound p .replace) := by
  have h1 : checkOpSemantics D ⟨.add, p, none, some v⟩ = .ok () := by
    simp [checkOpSemantics, hparent, fromTruthy]
  have h2 : checkOpSemantics D ⟨.replace, p, none, some w⟩
      = .error (.pathNotFound p .replace) := by
    simp [checkOpSemantics, hleaf]
  have hval : validatePatchSemantics D
      [⟨.add, p, none, some v⟩, ⟨.replace, p, none, some w⟩]
      = .error (.pathNotFound p .replace) := by
    rw [validatePatchSemantics, h1, validatePatchSemantics, h2]
  refine ⟨hval, ?_⟩
  simp only [applyPatchWithValidation, deepClone_eq, hval]

/-- C2 witness: the amended theorem at the counterexample's input. -/
theorem C2_witness :
    validatePatchSemantics (Json.obj [("a", .num 1)])
        [⟨.add, "/b", none, some (.num 2)⟩, ⟨.replace, "/b", none, some (.num 3)⟩]
      = .error (.pathNotFound "/b" .replace)
    ∧ applyPatchWithValidation (Json.obj [("a", .num 1)])
        [⟨.add, "/b", none, some (.num 2)⟩, ⟨.replace, "/b", none, some (.num 3)⟩]
      = .error (.pathNotFound "/b" .replace) :=
  C2_add_then_replace (.obj [("a", .num 1)]) "/b" (.num 2) (.num 3)
    (by decide) (by decide)

/-- C3: semantic validation's type-compatibility check on `replace` at an
existing path: when the current and proposed values are both non-null
and their coarse kinds differ, validation fails with the type-mismatch
error carrying the expected (current) and received (proposed) kinds —
provided the operations before the replace pass their own checks; when
the kinds match or either value is null, the replace's per-operation
check succeeds outright, so validation never fails for that reason. -/
theorem C3_replace_type_check (D : Json) (pre suf : List Op) (op : Op) (cur v : Json)
    (hk : op.kind = .replace) (hv : op.value = some v)
    (hcur : resolve D op.path = some cur)
    (hpre : validatePatchSemantics D pre = .ok ()) :
    (cur ≠ .null → v ≠ .null → getType cur ≠ getType v →
      validatePatchSemantics D (pre ++ op :: suf)
        = .error (.typeMismatch op.path (getType cur) (getType v)))
    ∧ (cur = .null ∨ v = .null ∨ getType cur = getType v →
      checkOpSemantics D op = .ok ()) := by
  obtain ⟨k, path, fromPtr, value⟩ := op
  simp only at hk hv hcur ⊢
  subst hk
  subst hv
  have hex : pathExists D path = true := by simp [pathExists, hcur]
  constructor
  · intro hn1 hn2 hn3
    rw [validatePatchSemantics_append_ok hpre, validatePatchSemantics]
    have hchk : checkOpSemantics D ⟨.replace, path, fromPtr, some v⟩
        = .error (.typeMismatch path (getType cur) (getType v)) := by
      simp [checkOpSemantics, hex, hcur, hn1, hn2, hn3]
    rw [hchk]
  · intro hok
    have hno : ¬(cur ≠ Json.null ∧ v ≠ Json.null ∧ getType cur ≠ getType v) := by
      tauto
    simp [checkOpSemantics, hex, hcur, hno]

/-- C3 witness: the type-check theorem at the spec's concrete scenario 2
(replacing a numeric cutoff by a string fails with the number/string
mismatch). -/
theorem C3_witness :
    validatePatchSemantics (Json.obj [("a", .num 1)])
        ([] ++ (⟨.replace, "/a", none, some (.str "s")⟩ : Op) :: [])
      = .error (.typeMismatch "/a" "number" "string") :=
  (C3_replace_type_check (.obj [("a", .num 1)]) [] []
      ⟨.replace, "/a", none, some (.str "s")⟩ (.num 1) (.str "s")
      rfl rfl (by decide) rfl).1 (by decide) (by decide) (by decide)

/-- C7 counterexample: with `D = {"a": {"x": 1}}`, `A = "/a"` and
`B = "/a/y"` the claim's preconditions hold (`A` exists, `B` does not,
`B`'s parent exists), yet the first move already fails — removing `/a`
destroys `B`'s parent before the add half of the move runs — so the
round-trip cannot yield a document at all, let alone restore `D`. -/
theorem C7_counterexample :
    pathExists (Json.obj [("a", .obj [("x", .num 1)])]) "/a" = true
    ∧ pathExists (Json.obj [("a", .obj [("x", .num 1)])]) "/a/y" = false
    ∧ parentExists (Json.obj [("a", .obj [("x", .num 1)])]) "/a/y" = true
    ∧ applyPatchWithValidation (Json.obj [("a", .obj [("x", .num 1)])])
        [⟨.move, "/a/y", some "/a", none⟩]
      = .error (.pathUnresolvable "a") := by decide

/-- C7 (amended): for every well-formed document (unique object keys)
and pointers `A`, `B` that traverse only object containers, with `A`
existing, `B` absent but its parent an existing object, and `B` not a
descendant of `A`, `move(from=A, path=B)` followed by
`move(from=B, path=A)` via `applyPatchWithValidation` succeeds and
restores a document deep-equal to the original.  (Deep equality rather
than identity: re-adding a removed key appends it at the end of its
object, a reordering invisible to JSON deep equality.) -/
theorem C7_move_roundtrip (D : Json) (A B : String)
    (asInit bsInit : List String) (ak bk : String)
    (pfA pfB : List (String × Json)) (v : Json)
    (hwf : wfDoc D = true)
    (hA : parsePointer A = asInit ++ [ak])
    (hB : parsePointer B = bsInit ++ [bk])
    (hobjA : objPathOk D asInit = true)
    (hresA : resolveSegs D asInit = some (.obj pfA))
    (hak : lookupField pfA ak = some v)
    (hobjB : objPathOk D bsInit = true)
    (hresB : resolveSegs D bsInit = some (.obj pfB))
    (hbk : lookupField pfB bk = none)
    (hnd : ¬(parsePointer A <+: parsePointer B)) :
    ∃ D₁ D₂, applyPatchWithValidation D [⟨.move, B, some A, none⟩] = .ok D₁
      ∧ applyPatchWithValidation D₁ [⟨.move, A, some B, none⟩] = .ok D₂
      ∧ deepEq D₂ D = true := by
  have hAne : ¬A = "" := by
    intro h
    rw [h] at hA
    have : parsePointer "" = [] := rfl
    rw [this] at hA
    exact absurd hA.symm (by simp)
  have hBne : ¬B = "" := by
    intro h
    rw [h] at hB
    have : parsePointer "" = [] := rfl
    rw [this] at hB
    exact absurd hB.symm (by simp)
  have hresAv : resolveSegs D (parsePointer A) = some v := by
    rw [hA, resolveSegs_append, hresA]
    simp [resolveSegs, hak]
  -- validation of the first move
  have hft : fromTruthy (some A) = true := by simp [fromTruthy, hAne]
  have hpe : pathExists D A = true := by simp [pathExists, resolve, hresAv]
  have hchk1 : checkOpSemantics D ⟨.move, B, some A, none⟩ = .ok () := by
    simp [checkOpSemantics, hft, hpe]
  have hval1 : validatePatchSemantics D [⟨.move, B, some A, none⟩] = .ok () := by
    rw [validatePatchSemantics, hchk1, validatePatchSemantics]
  -- the first move: remove at A, add at B
  have hrem : removeAt D (parsePointer A)
      = .ok (setSegs D asInit (.obj (eraseField pfA ak))) := by
    rw [hA]
    simp only [removeAt, List.getLast?_concat, List.dropLast_concat]
    rw [updAt_eq_setSegs D asInit (.obj pfA) _ hobjA hresA]
    simp [removeFromParent, hak]
  have hndInit : ¬((asInit ++ [ak]) <+: bsInit) := by
    intro h
    apply hnd
    rw [hA, hB]
    exact h.trans (List.prefix_append _ _)
  obtain ⟨pfB', hresB', hbk', hobjB'⟩ := frame_erase asInit D ak pfA bsInit pfB bk
    hwf hobjA hresA hobjB hresB hbk hndInit
  have hadd : addAt (setSegs D asInit (.obj (eraseField pfA ak))) (parsePointer B) v
      = .ok (setSegs (setSegs D asInit (.obj (eraseField pfA ak))) bsInit
          (.obj (pfB' ++ [(bk, v)]))) := by
    rw [hB]
    simp only [addAt, List.getLast?_concat, List.dropLast_concat]
    rw [updAt_eq_setSegs _ bsInit (.obj pfB') _ hobjB' hresB']
    simp [insertIntoParent, setField_append_of_lookup_none v hbk']
  have happly1 : applyPatchWithValidation D [⟨.move, B, some A, none⟩]
      = .ok (setSegs (setSegs D asInit (.obj (eraseField pfA ak))) bsInit
          (.obj (pfB' ++ [(bk, v)]))) := by
    simp only [applyPatchWithValidation, deepClone_eq, hval1]
    simp only [applyOps, applyOp, hresAv, hrem, hadd]
  -- facts about the intermediate documents
  have hobjB1 : objPathOk (setSegs (setSegs D asInit (.obj (eraseField pfA ak))) bsInit
      (.obj (pfB' ++ [(bk, v)]))) bsInit = true :=
    objPathOk_setSegs_self _ bsInit _ hobjB'
  have hresB1 : resolveSegs (setSegs (setSegs D asInit (.obj (eraseField pfA ak))) bsInit
      (.obj (pfB' ++ [(bk, v)]))) bsInit = some (.obj (pfB' ++ [(bk, v)])) :=
    resolveSegs_setSegs_self _ bsInit _ hobjB'
  have hlookB1 : lookupField (pfB' ++ [(bk, v)]) bk = some v := by
    rw [lookupField_append, hbk']
    simp [lookupField]
  have hresBv : resolveSegs (setSegs (setSegs D asInit (.obj (eraseField pfA ak))) bsInit
      (.obj (pfB' ++ [(bk, v)]))) (parsePointer B) = some v := by
    rw [hB, resolveSegs_append, hresB1]
    simp [resolveSegs, hlookB1]
  -- validation of the second move
  have hft2 : fromTruthy (some B) = true := by simp [fromTruthy, hBne]
  have hpe2 : pathExists (setSegs (setSegs D asInit (.obj (eraseField pfA ak))) bsInit
      (.obj (pfB' ++ [(bk, v)]))) B = true := by
    simp [pathExists, resolve, hresBv]
  have hchk2 : checkOpSemantics (setSegs (setSegs D asInit (.obj (eraseField pfA ak))) bsInit
      (.obj (pfB' ++ [(bk, v)]))) ⟨.move, A, some B, none⟩ = .ok () := by
    simp [checkOpSemantics, hft2, hpe2]
  have hval2 : validatePatchSemantics (setSegs (setSegs D asInit (.obj (eraseField pfA ak))) bsInit
      (.obj (pfB' ++ [(bk, v)]))) [⟨.move, A, some B, none⟩] = .ok () := by
    rw [validatePatchSemantics, hchk2, validatePatchSemantics]
  -- the second move: remove at B restores the intermediate document
  have hrem2 : removeAt (setSegs (setSegs D asInit (.obj (eraseField pfA ak))) bsInit
      (.obj (pfB' ++ [(bk, v)]))) (parsePointer B)
      = .ok (setSegs D asInit (.obj (eraseField pfA ak))) := by
    rw [hB]
    simp only [removeAt, List.getLast?_concat, List.dropLast_concat]
    rw [updAt_eq_setSegs _ bsInit (.obj (pfB' ++ [(bk, v)])) _ hobjB1 hresB1]
    have hrp : removeFromParent bk (.obj (pfB' ++ [(bk, v)])) = .ok (.obj pfB') := by
      simp [removeFromParent, hlookB1, eraseField_append_of_lookup_none v hbk']
    rw [hrp]
    show Except.ok (setSegs (setSegs (setSegs D asInit (.obj (eraseField pfA ak)))
        bsInit (.obj (pfB' ++ [(bk, v)]))) bsInit (.obj pfB'))
      = Except.ok (setSegs D asInit (.obj (eraseField pfA ak)))
    rw [setSegs_setSegs _ bsInit _ _ hobjB',
      setSegs_resolve_self _ bsInit (.obj pfB') hobjB' hresB']
  -- add back at A
  have hobjA_X : objPathOk (setSegs D asInit (.obj (eraseField pfA ak))) asInit = true :=
    objPathOk_setSegs_self D asInit _ hobjA
  have hresA_X : resolveSegs (setSegs D asInit (.obj (eraseField pfA ak))) asInit
      = some (.obj (eraseField pfA ak)) :=
    resolveSegs_setSegs_self D asInit _ hobjA
  have hwfA : wfDoc (Json.obj pfA) = true := wfDoc_resolveSegs D asInit _ hwf hresA
  have hndpfA : keysNoDup pfA = true := by
    simp only [wfDoc, Bool.and_eq_true] at hwfA
    exact hwfA.1
  have hwfpfA : wfDocFields pfA = true := by
    simp only [wfDoc, Bool.and_eq_true] at hwfA
    exact hwfA.2
  have herase : lookupField (eraseField pfA ak) ak = none :=
    lookupField_eraseField_self hndpfA
  have hadd2 : addAt (setSegs D asInit (.obj (eraseField pfA ak))) (parsePointer A) v
      = .ok (setSegs D asInit (.obj (eraseField pfA ak ++ [(ak, v)]))) := by
    rw [hA]
    simp only [addAt, List.getLast?_concat, List.dropLast_concat]
    rw [updAt_eq_setSegs _ asInit (.obj (eraseField pfA ak)) _ hobjA_X hresA_X]
    have hip : insertIntoParent ak v (.obj (eraseField pfA ak))
        = .ok (.obj (eraseField pfA ak ++ [(ak, v)])) := by
      simp [insertIntoParent, setField_append_of_lookup_none v herase]
    rw [hip]
    show Except.ok (setSegs (setSegs D asInit (.obj (eraseField pfA ak))) asInit
        (.obj (eraseField pfA ak ++ [(ak, v)])))
      = Except.ok (setSegs D asInit (.obj (eraseField pfA ak ++ [(ak, v)])))
    rw [setSegs_setSegs D asInit _ _ hobjA]
  have happly2 : applyPatchWithValidation (setSegs (setSegs D asInit
        (.obj (eraseField pfA ak))) bsInit (.obj (pfB' ++ [(bk, v)])))
      [⟨.move, A, some B, none⟩]
      = .ok (setSegs D asInit (.obj (eraseField pfA ak ++ [(ak, v)]))) := by
    simp only [applyPatchWithValidation, deepClone_eq, hval2]
    simp only [applyOps, applyOp, hresBv, hrem2, hadd2]
  have hfinal : deepEq (setSegs D asInit (.obj (eraseField pfA ak ++ [(ak, v)]))) D
      = true :=
    deepEq_setSegs D asInit (.obj pfA) _ hwf hobjA hresA
      (deepEq_obj_erase_append hndpfA hwfpfA hak)
  exact ⟨_, _, happly1, happly2, hfinal⟩

/-- C7 witness: the round-trip theorem at a concrete document, moving
the top-level field `a` to the fresh name `c` and back. -/
theorem C7_witness :
    ∃ D₁ D₂,
      applyPatchWithValidation (Json.obj [("a", .num 1), ("b", .num 2)])
          [⟨.move, "/c", some "/a", none⟩] = .ok D₁
      ∧ applyPatchWithValidation D₁ [⟨.move, "/a", some "/c", none⟩] = .ok D₂
      ∧ deepEq D₂ (Json.obj [("a", .num 1), ("b", .num 2)]) = true :=
  C7_move_roundtrip (Json.obj [("a", .num 1), ("b", .num 2)]) "/a" "/c"
    [] [] "a" "c" [("a", .num 1), ("b", .num 2)] [("a", .num 1), ("b", .num 2)]
    (.num 1) (by decide) (by decide) (by decide) (by decide) (by decide)
    (by decide) (by decide) (by decide) (by decide) (by decide)

/-- C5 counterexample: semantic validation can fail although every
operation's existence precondition holds — a `replace` at an existing
path whose proposed value changes the coarse kind fails the
type-compatibility check — so "fails if and only if some operation
violates its existence precondition" is false as stated. -/
theorem C5_counterexample :
    ¬((validatePatchSemantics (Json.obj [("a", .num 1)])
          [⟨.replace, "/a", none, some (.str "s")⟩] ≠ .ok ())
      ↔ ∃ op ∈ ([⟨.replace, "/a", none, some (.str "s")⟩] : List Op),
          specExistErr (Json.obj [("a", .num 1)]) op ≠ none) := by decide

/-- C5 (amended): for every document and structurally valid patch,
semantic validation returns the first failure among the ordered
per-operation checks of the claim — the existence preconditions
(`PathNotFound` for `replace`/`remove`/`test`, `ParentMissing` for
`add` with the root and single-segment pointers always counting as
having an existing parent, `SourceNotFound` for `move`/`copy`) followed
by the `replace` type-compatibility check (`TypeMismatch`) — and
succeeds exactly when no operation fails any of them. -/
theorem C5_semantic_characterization (D : Json) (P : List Op)
    (h : ∀ op ∈ P, structOk op = true) :
    validatePatchSemantics D P =
      (match specValidate D P with
       | some e => Except.error e
       | none => Except.ok ()) := by
  induction P with
  | nil => rfl
  | cons op rest ih =>
    obtain ⟨hpat, hval, hfrom⟩ := structOk_parts (h op (List.mem_cons_self op rest))
    have hop := checkOpSemantics_eq_spec D op hpat hval hfrom
    cases hsp : specOpErr D op with
    | some e =>
      rw [validatePatchSemantics, hop, hsp, specValidate, hsp]
    | none =>
      rw [validatePatchSemantics, hop, hsp, specValidate, hsp]
      exact ih (fun o ho => h o (List.mem_cons_of_mem op ho))

/-- C5 witness: the characterization at a concrete document and patch
(one failing existence check). -/
theorem C5_witness :
    validatePatchSemantics (Json.obj [("a", .num 1)])
        [⟨.remove, "/b", none, none⟩]
      = (match specValidate (Json.obj [("a", .num 1)])
            [⟨.remove, "/b", none, none⟩] with
         | some e => Except.error e
         | none => Except.ok ()) :=
  C5_semantic_characterization (.obj [("a", .num 1)])
    [⟨.remove, "/b", none, none⟩] (by decide)

/-- C1: `applyPatchWithValidation` (src/server/validate.ts lines
110-115) never mutates the caller's document.  Over the mutation model
of the applicator (heap nodes rewritten in place, exactly as the
JavaScript engine mutates the object graph): starting from any closed
heap state, for any address whose tree reads back as the document `D`,
after a full `applyPatchWithValidationH` run — whether it returns a new
document or fails at the clone, the re-validation, or any operation —
reading that address again still yields exactly `D`; no partial
mutation of the caller's document is ever visible. -/
theorem C1 (fuel : Nat) (st : HState) (a : Addr) (D : Json) (P : List Op)
    (hc : HeapClosed st.next st.heap)
    (hr : readTree st.heap fuel a = some D) :
    readTree (applyPatchWithValidationH fuel st a P).1.heap fuel a = some D := by
  have hI : HInv st.next st := ⟨Nat.le_refl _, noDownPtr_of_heapClosed hc, hc⟩
  have hF := applyPatchWithValidationH_frame fuel st a P hI
  exact readTree_frame hc hF.2.1 fuel a D hr

/-- C1 witness: the one-node heap holding the number 5 at address 0 is
closed, the address reads back as 5, and after applying a root-replace
patch through `applyPatchWithValidationH` it still reads back as 5. -/
theorem C1_witness :
    readTree (applyPatchWithValidationH 1 sampleSt 0
      [⟨.replace, "", none, some (.num 7)⟩]).1.heap 1 0 = some (.num 5) :=
  C1 1 sampleSt 0 (.num 5) [⟨.replace, "", none, some (.num 7)⟩]
    (by
      intro a node ha
      by_cases h0 : a = 0
      · subst h0
        have ha2 : some (HNode.num 5) = some node := ha
        injection ha2 with ha2
        subst ha2
        exact ⟨by decide, by simp [childAddrs]⟩
      · have ha2 : (if a = 0 then some (HNode.num 5) else none) = some node := ha
        rw [if_neg h0] at ha2
        exact absurd ha2 (by simp))
    (by simp [readTree, sampleSt, sampleHeap])

/-- C10: `validate_structure`, `validate_semantics` and `apply` are
deterministic pure functions.  In the embedding each one is a
mathematical function of its arguments alone, so two calls on equal
arguments are equal by definition — in particular
`validatePatchStructure`, which reads only the patch.  The substantive
content is stated here as deep-equality extensionality over the two
document-consuming functions: for well-formed documents (unique object
keys, as JSON decoding guarantees) that are deep-equal, and a patch
whose operation values are well-formed, `validatePatchSemantics`
returns the very same outcome on both, and `applyPatchWithValidation`
either fails with the same error on both or succeeds on both with
deep-equal well-formed results (`applyRel`). -/
theorem C10 (P : List Op) {D₁ D₂ : Json}
    (hw₁ : wfDoc D₁ = true) (hw₂ : wfDoc D₂ = true) (hd : deepEq D₁ D₂ = true)
    (hov : ∀ op ∈ P, Option.all wfDoc op.value = true) :
    validatePatchSemantics D₁ P = validatePatchSemantics D₂ P
    ∧ applyRel (applyPatchWithValidation D₁ P) (applyPatchWithValidation D₂ P) :=
  ⟨validatePatchSemantics_congr P hw₁ hw₂ hd,
    applyPatchWithValidation_rel P hov hw₁ hw₂ hd⟩

/-- C10 witness: two deep-equal documents that differ in field order
validate identically and apply to deep-equal results for a concrete
replace patch. -/
theorem C10_witness :
    validatePatchSemantics (Json.obj [("a", .num 1), ("b", .num 2)])
        [⟨.replace, "/a", none, some (.num 7)⟩]
      = validatePatchSemantics (Json.obj [("b", .num 2), ("a", .num 1)])
        [⟨.replace, "/a", none, some (.num 7)⟩]
    ∧ applyRel
        (applyPatchWithValidation (Json.obj [("a", .num 1), ("b", .num 2)])
          [⟨.replace, "/a", none, some (.num 7)⟩])
        (applyPatchWithValidation (Json.obj [("b", .num 2), ("a", .num 1)])
          [⟨.replace, "/a", none, some (.num 7)⟩]) :=
  C10 [⟨.replace, "/a", none, some (.num 7)⟩]
    (by decide) (by decide) (by decide) (by decide)

end Glitsy
